import Mathlib

/-!
# A user-level thread library: scheduler state machine

Shallow embedding of `uthreads.c` and `ready_queue.c`.

* The scheduler state is the set of C statics: the TCB table `threads`,
  `current_tid`, `total_quantums`, `quantum_usecs` and the ring buffer
  (`ready_queue`, `front`, `back`). Every C function becomes a function on
  that state; loops become recursions on the number of iterations left.
* C `int` values are `Int`s. The counters `total_quantums` and `quantums`
  only grow by one per event and are left unbounded (they need more than
  `2^31` events to leave the range of `int`); the sum
  `total_quantums + num_quantums` of `uthread_sleep`, which a single call can
  take out of that range, is computed by `int_add`, the 32-bit sum. An array
  is a function of its index.
* The saved machine context (`env`) and the stacks are not part of the model:
  `setup_thread`, `sigsetjmp` and `siglongjmp` do not touch the scheduler
  state, so `context_switch` is the identity on it. A call that ends in
  `siglongjmp` does not return to its caller (`Outcome.noreturn`), a call
  that ends in `exit` ends the process (`Outcome.exit`).
* Kernel calls answer as the kernel does on the arguments they get:
  `sigaction` on `SIGVTALRM` succeeds, `setitimer` rejects a `tv_usec` outside
  `[0, 999999]`; `sigprocmask` succeeds.
* An execution is a sequence of events, each a public call made by the
  running thread or one delivery of the timer signal; events are atomic (a
  signal that arrives in the middle of a call is not modelled).
-/

namespace UThreads

/-- Modelled from the spec: `MAX_THREAD_NUM` is declared in `uthreads.h`, which
is not among the sources; the spec gives the reference value 100. -/
def MAX_THREAD_NUM : Nat := 100

/-- Modelled from the spec: the enumeration of thread states is declared in
`uthreads.h`; the four enumerators are the ones used in `uthreads.c`. -/
inductive thread_state where
  | THREAD_UNUSED
  | THREAD_READY
  | THREAD_RUNNING
  | THREAD_BLOCKED
deriving DecidableEq, Repr

open thread_state

/-- Modelled from the spec: the TCB type is declared in `uthreads.h`; the
fields are the ones `uthreads.c` reads and writes (the saved context `env` is
left out). `entry` is the entry address, `0` standing for `NULL`. -/
structure thread_t where
  tid : Int
  state : thread_state
  quantums : Int
  sleep_until : Int
  entry : Nat
deriving DecidableEq, Repr

/-- The statics of `ready_queue.c`. -/
structure ReadyQueue where
  ready_queue : Nat → Int
  front : Nat
  back : Nat

/-- The statics of `uthreads.c` together with the ready queue. -/
structure State where
  threads : Int → thread_t
  current_tid : Int
  total_quantums : Int
  quantum_usecs : Int
  rq : ReadyQueue

/-- Result of a public call: it returns `r`, or it transfers control to another
thread without returning to the caller (`siglongjmp`), or the process exits. -/
inductive Outcome where
  | ret (r : Int) (s : State)
  | noreturn (s : State)
  | exit (code : Int)

/-- Assignment to one cell of the TCB table. -/
def setT (th : Int → thread_t) (i : Int) (v : thread_t) : Int → thread_t :=
  fun j => if j = i then v else th j

/-- Assignment to one cell of an `int` array. -/
def setA (a : Nat → Int) (i : Nat) (v : Int) : Nat → Int :=
  fun j => if j = i then v else a j

/-! ## ready_queue.c -/

def enqueue_ready (q : ReadyQueue) (tid : Int) : ReadyQueue :=
  { ready_queue := setA q.ready_queue q.back tid
    front := q.front
    back := (q.back + 1) % MAX_THREAD_NUM }

def dequeue_ready (q : ReadyQueue) : Int × ReadyQueue :=
  if q.front = q.back then (-1, q)
  else (q.ready_queue q.front, { q with front := (q.front + 1) % MAX_THREAD_NUM })

def init_ready_queue (q : ReadyQueue) : ReadyQueue :=
  { q with front := 0, back := 0 }

/-- The `while (front != back)` loop of `remove_from_ready_queue`; the local
array `new_queue` and its counter `new_back` are threaded through. The loop
runs at most `fuel` times. -/
def remove_loop (tid : Int) : Nat → ReadyQueue → (Nat → Int) → Nat →
    ReadyQueue × (Nat → Int) × Nat
  | 0, q, new_queue, new_back => (q, new_queue, new_back)
  | fuel + 1, q, new_queue, new_back =>
    if q.front = q.back then (q, new_queue, new_back)
    else
      let current := q.ready_queue q.front
      let q1 := { q with front := (q.front + 1) % MAX_THREAD_NUM }
      if current ≠ tid then
        remove_loop tid fuel q1 (setA new_queue new_back current) (new_back + 1)
      else
        remove_loop tid fuel q1 new_queue new_back

/-- The loop `for (; i < new_back; ++i) ready_queue[i] = new_queue[i]`, with
`n` iterations left. -/
def copy_loop (new_queue : Nat → Int) : Nat → Nat → (Nat → Int) → (Nat → Int)
  | 0, _, a => a
  | n + 1, i, a => copy_loop new_queue n (i + 1) (setA a i (new_queue i))

/-- With `back < MAX_THREAD_NUM` the while loop stops by its own condition
within `MAX_THREAD_NUM` iterations (see `remove_loop_exits`). The local array
`new_queue` starts uninitialised in C; only its cells below `new_back` are
read, so its initial contents (here zeros) do not matter. -/
def remove_from_ready_queue (q : ReadyQueue) (tid : Int) : ReadyQueue :=
  let r := remove_loop tid MAX_THREAD_NUM q (fun _ => 0) 0
  { ready_queue := copy_loop r.2.1 r.2.2 0 r.1.ready_queue
    front := 0
    back := r.2.2 }

/-- Number of identifiers between `front` and `back`. -/
def ReadyQueue.size (q : ReadyQueue) : Nat :=
  (q.back + MAX_THREAD_NUM - q.front) % MAX_THREAD_NUM

/-- The queue read from front to back. -/
def ReadyQueue.toList (q : ReadyQueue) : List Int :=
  (List.range q.size).map fun j => q.ready_queue ((q.front + j) % MAX_THREAD_NUM)

/-- Both indices are inside the array. -/
def ReadyQueue.WF (q : ReadyQueue) : Prop :=
  q.front < MAX_THREAD_NUM ∧ q.back < MAX_THREAD_NUM

instance (q : ReadyQueue) : Decidable q.WF := by
  unfold ReadyQueue.WF; exact inferInstance

/-- Advancing `front` by one cell, as `dequeue_ready` does. -/
def ReadyQueue.advance (q : ReadyQueue) : ReadyQueue :=
  { q with front := (q.front + 1) % MAX_THREAD_NUM }

/-! ## uthreads.c -/

/-- The table initialisation loop of `uthread_init`: `n` iterations left,
starting at index `i`. -/
def init_table : Nat → Int → (Int → thread_t) → (Int → thread_t)
  | 0, _, th => th
  | n + 1, i, th =>
    init_table n (i + 1)
      (setT th i { th i with tid := i, state := THREAD_UNUSED, quantums := 0 })

/-- The kernel's answer to `sigaction(SIGVTALRM, &sa, NULL)`: the signal number
and both pointers are valid, so the call returns `0`. -/
def sigaction : Int := 0

/-- The kernel's answer to `setitimer(ITIMER_VIRTUAL, &timer, NULL)` for a timer
with `tv_sec = 0` and the given `tv_usec` in both fields: `-1` (`EINVAL`) when
`tv_usec` is outside `[0, 999999]`, and `0` otherwise. -/
def setitimer (tv_usec : Int) : Int :=
  if 0 ≤ tv_usec ∧ tv_usec ≤ 999999 then 0 else -1

/-- The writes of `uthread_init(usecs)` to the statics, up to
`init_ready_queue()`. -/
def init_statics (s : State) (usecs : Int) : State :=
  let th := init_table MAX_THREAD_NUM 0 s.threads
  let th := setT th 0 { th 0 with state := THREAD_RUNNING }
  let th := setT th 0 { th 0 with quantums := 1 }
  { threads := th
    current_tid := 0
    total_quantums := 1
    quantum_usecs := usecs
    rq := init_ready_queue s.rq }

def uthread_init (s : State) (usecs : Int) : Outcome :=
  if usecs ≤ 0 then .ret (-1) s
  else
    let s1 := init_statics s usecs
    if sigaction < 0 then .exit 1
    else if setitimer s1.quantum_usecs ≠ 0 then .exit 1
    else .ret 0 s1

/-- The search loop of `uthread_spawn`: `n` iterations starting at index `i`;
the result is the first `UNUSED` index met, or `-1`. -/
def find_unused (th : Int → thread_t) : Nat → Int → Int
  | 0, _ => -1
  | n + 1, i => if (th i).state = THREAD_UNUSED then i else find_unused th n (i + 1)

def uthread_spawn (s : State) (entry_point : Nat) : Outcome :=
  if entry_point = 0 then .ret (-1) s
  else
    let tid := find_unused s.threads (MAX_THREAD_NUM - 1) 1
    if tid = -1 then .ret (-1) s
    else
      let th := setT s.threads tid
        { tid := tid, state := THREAD_READY, quantums := 0, sleep_until := 0,
          entry := entry_point }
      .ret tid { s with threads := th, rq := enqueue_ready s.rq tid }

def schedule_next (s : State) : State :=
  let prev_tid := s.current_tid
  let d := dequeue_ready s.rq
  let next_tid := d.1
  let s1 := { s with rq := d.2 }
  if next_tid = -1 then s1
  else
    let s2 :=
      if (s1.threads prev_tid).state = THREAD_RUNNING then
        { s1 with
          threads := setT s1.threads prev_tid
            { s1.threads prev_tid with state := THREAD_READY }
          rq := enqueue_ready s1.rq prev_tid }
      else s1
    let th := setT s2.threads next_tid { s2.threads next_tid with state := THREAD_RUNNING }
    let th := setT th next_tid { th next_tid with quantums := (th next_tid).quantums + 1 }
    { s2 with threads := th, current_tid := next_tid }

def uthread_get_total_quantums (s : State) : Int := s.total_quantums

def uthread_get_quantums (s : State) (tid : Int) : Int :=
  if tid < 0 ∨ tid ≥ MAX_THREAD_NUM ∨ (s.threads tid).state = THREAD_UNUSED then -1
  else (s.threads tid).quantums

def uthread_terminate (s : State) (tid : Int) : Outcome :=
  if tid < 0 ∨ tid ≥ MAX_THREAD_NUM ∨ (s.threads tid).state = THREAD_UNUSED then .ret (-1) s
  else if tid = 0 then .exit 0
  else if tid = s.current_tid then
    let th := setT s.threads tid { s.threads tid with state := THREAD_UNUSED }
    let d := dequeue_ready s.rq
    let next_tid := d.1
    if next_tid = -1 then .exit 0
    else
      let th := setT th next_tid { th next_tid with state := THREAD_RUNNING }
      let th := setT th next_tid { th next_tid with quantums := (th next_tid).quantums + 1 }
      .noreturn { s with threads := th, rq := d.2, current_tid := next_tid }
  else
    let rq1 :=
      if (s.threads tid).state = THREAD_READY then remove_from_ready_queue s.rq tid
      else s.rq
    .ret 0
      { s with
        threads := setT s.threads tid { s.threads tid with state := THREAD_UNUSED }
        rq := rq1 }

def uthread_block (s : State) (tid : Int) : Outcome :=
  if tid < 0 ∨ tid ≥ MAX_THREAD_NUM ∨ (s.threads tid).state = THREAD_UNUSED then .ret (-1) s
  else if tid = 0 then .ret (-1) s
  else if (s.threads tid).state = THREAD_BLOCKED then .ret 0 s
  else
    let rq1 :=
      if (s.threads tid).state = THREAD_READY then remove_from_ready_queue s.rq tid
      else s.rq
    .ret 0
      { s with
        threads := setT s.threads tid { s.threads tid with state := THREAD_BLOCKED }
        rq := rq1 }

def uthread_resume (s : State) (tid : Int) : Outcome :=
  if tid < 0 ∨ tid ≥ MAX_THREAD_NUM ∨ (s.threads tid).state = THREAD_UNUSED then .ret (-1) s
  else if (s.threads tid).state = THREAD_READY ∨ (s.threads tid).state = THREAD_RUNNING then
    .ret 0 s
  else if (s.threads tid).state = THREAD_BLOCKED then
    .ret 0
      { s with
        threads := setT s.threads tid { s.threads tid with state := THREAD_READY }
        rq := enqueue_ready s.rq tid }
  else .ret 0 s

/-- The largest C `int`. -/
def INT_MAX : Int := 2147483647

/-- The sum of two C `int`s as the machine computes it: the mathematical sum
reduced modulo `2^32` into `[-2^31, 2^31)`. -/
def int_add (a b : Int) : Int := (a + b + 2147483648) % 4294967296 - 2147483648

def uthread_sleep (s : State) (num_quantums : Int) : Outcome :=
  if s.current_tid = 0 then .ret (-1) s
  else if num_quantums ≤ 0 then .ret (-1) s
  else
    let th := setT s.threads s.current_tid
      { s.threads s.current_tid with sleep_until := int_add s.total_quantums num_quantums }
    let th := setT th s.current_tid { th s.current_tid with state := THREAD_BLOCKED }
    .ret 0 (schedule_next { s with threads := th })

/-- One iteration of the wake-up loop of `timer_handler`, at index `i`. -/
def wake_one (s : State) (i : Int) : State :=
  if (s.threads i).state = THREAD_BLOCKED ∧ (s.threads i).sleep_until > 0 ∧
      (s.threads i).sleep_until ≤ s.total_quantums then
    let th := setT s.threads i { s.threads i with sleep_until := 0 }
    let th := setT th i { th i with state := THREAD_READY }
    { s with threads := th, rq := enqueue_ready s.rq i }
  else s

/-- The wake-up loop of `timer_handler`: `n` iterations left, starting at
index `i`. -/
def wake_loop : Nat → Int → State → State
  | 0, _, s => s
  | n + 1, i, s => wake_loop n (i + 1) (wake_one s i)

/-- The two counter updates at the head of `timer_handler`:
`total_quantums++; threads[current_tid].quantums++`. -/
def count_tick (s : State) : State :=
  let s1 := { s with total_quantums := s.total_quantums + 1 }
  { s1 with
    threads := setT s1.threads s1.current_tid
      { s1.threads s1.current_tid with
        quantums := (s1.threads s1.current_tid).quantums + 1 } }

def timer_handler (s : State) : State :=
  schedule_next (wake_loop MAX_THREAD_NUM 0 (count_tick s))

/-! ## Executions -/

/-- The events that drive the scheduler: the public calls that change state
(made by the running thread) and the timer signal. -/
inductive Op where
  | spawn (entry_point : Nat)
  | terminate (tid : Int)
  | block (tid : Int)
  | resume (tid : Int)
  | sleep (num_quantums : Int)
  | tick
deriving DecidableEq, Repr

/-- The state in which the process continues, if it does. -/
def Outcome.next : Outcome → Option State
  | .ret _ s => some s
  | .noreturn s => some s
  | .exit _ => none

/-- One event: a public call made by the running thread, or the timer signal.
`none` when the process exits. -/
def step (s : State) : Op → Option State
  | .spawn e => (uthread_spawn s e).next
  | .terminate tid => (uthread_terminate s tid).next
  | .block tid => (uthread_block s tid).next
  | .resume tid => (uthread_resume s tid).next
  | .sleep k => (uthread_sleep s k).next
  | .tick => some (timer_handler s)

/-- Run a sequence of events; `none` when the process has exited. -/
def run : State → List Op → Option State
  | s, [] => some s
  | s, op :: ops =>
    match step s op with
    | some s1 => run s1 ops
    | none => none

/-- The statics at program start (C zero-initialisation). -/
def boot : State :=
  { threads := fun _ =>
      { tid := 0, state := THREAD_UNUSED, quantums := 0, sleep_until := 0, entry := 0 }
    current_tid := 0
    total_quantums := 0
    quantum_usecs := 0
    rq := { ready_queue := fun _ => 0, front := 0, back := 0 } }

/-- The state in which the library starts after `uthread_init(usecs)`,
`usecs > 0`, called in state `pre`: the statics as the call has written them
(it returns `0` in that state when the kernel accepts the timer). -/
def initState (pre : State) (usecs : Int) : State :=
  if usecs ≤ 0 then pre else init_statics pre usecs

/-- States reachable from `uthread_init(usecs)`, `usecs > 0`, at program start
by public calls and timer ticks. -/
def Reachable (s : State) : Prop :=
  ∃ (usecs : Int) (ops : List Op), 0 < usecs ∧ run (initState boot usecs) ops = some s

/-- The call `uthread_block(current_tid)`. -/
def isSelfBlock (s : State) : Op → Bool
  | .block tid => decide (tid = s.current_tid)
  | _ => false

/-- Every event of the run satisfies `p` in the state where it happens. -/
def allOps (p : State → Op → Bool) : State → List Op → Bool
  | _, [] => true
  | s, op :: ops =>
    p s op &&
      match step s op with
      | some s1 => allOps p s1 ops
      | none => true

/-! ## Invariants -/

/-- The scheduler invariant (I1, I2 and I4 of the data model): the running
thread is the only one marked `RUNNING`, the ready queue lists exactly the
`READY` identifiers without repetition, and the main thread is live. -/
structure Inv (s : State) : Prop where
  wf : s.rq.WF
  cur_range : 0 ≤ s.current_tid ∧ s.current_tid < MAX_THREAD_NUM
  cur_running : (s.threads s.current_tid).state = THREAD_RUNNING
  running_unique : ∀ t : Int, 0 ≤ t → t < MAX_THREAD_NUM →
    (s.threads t).state = THREAD_RUNNING → t = s.current_tid
  queue_ready : ∀ t : Int, t ∈ s.rq.toList ↔
    (0 ≤ t ∧ t < MAX_THREAD_NUM ∧ (s.threads t).state = THREAD_READY)
  nodup : s.rq.toList.Nodup
  main_live : (s.threads 0).state = THREAD_RUNNING ∨ (s.threads 0).state = THREAD_READY

/-- The state in the middle of a voluntary switch: the running thread (not the
main thread) has been marked `BLOCKED` or `UNUSED` and the scheduler has not
yet picked its successor. -/
structure Yielding (s : State) : Prop where
  wf : s.rq.WF
  cur_range : 0 ≤ s.current_tid ∧ s.current_tid < MAX_THREAD_NUM
  cur_left : (s.threads s.current_tid).state = THREAD_BLOCKED ∨
    (s.threads s.current_tid).state = THREAD_UNUSED
  no_running : ∀ t : Int, 0 ≤ t → t < MAX_THREAD_NUM →
    (s.threads t).state ≠ THREAD_RUNNING
  queue_ready : ∀ t : Int, t ∈ s.rq.toList ↔
    (0 ≤ t ∧ t < MAX_THREAD_NUM ∧ (s.threads t).state = THREAD_READY)
  nodup : s.rq.toList.Nodup
  main_ready : (s.threads 0).state = THREAD_READY

/-! ## Vocabulary of the properties -/

/-- The event is not a call of `uthread_block` on the running thread. -/
def noSelfBlock (s : State) (op : Op) : Bool := !isSelfBlock s op

/-- The event neither resumes nor terminates thread `t`, and is no self-block. -/
def undisturbed (t : Int) (s : State) (op : Op) : Bool :=
  !isSelfBlock s op && decide (op ≠ Op.resume t) && decide (op ≠ Op.terminate t)

/-- After the event the main thread is (still) the running thread. -/
def staysOnMain (s : State) (op : Op) : Bool :=
  match step s op with
  | some s1 => decide (s1.current_tid = 0)
  | none => true

/-- What `uthread_get_quantums` counts for a slot in a sum over the live
threads: its `quantums`, or nothing when the slot is `UNUSED`. -/
def slotQuantums (t : thread_t) : Int :=
  if t.state = THREAD_UNUSED then 0 else t.quantums

/-- Sum of `uthread_get_quantums(t)` over the live threads, i.e. of
`threads[t].quantums` over the slots that are not `UNUSED`. -/
def liveQuantums (s : State) : Int :=
  ((List.range MAX_THREAD_NUM).map fun i : Nat => slotQuantums (s.threads i)).sum

/-- The event is not a call of `uthread_terminate` and is no self-block. -/
def noTerminate (s : State) : Op → Bool
  | .terminate _ => false
  | op => !isSelfBlock s op

/-- `n` calls of `uthread_spawn(entry_point)` in a row, each of which succeeds;
`none` when one of them returns `-1`. -/
def spawn_all (entry_point : Nat) : Nat → State → Option State
  | 0, s => some s
  | n + 1, s =>
    match uthread_spawn s entry_point with
    | .ret r s1 => if r = -1 then none else spawn_all entry_point n s1
    | .noreturn _ => none
    | .exit _ => none

/-- The main thread has been the running thread all along: only its slot has
counted quantums, and it has counted every one of them. -/
structure OnMain (s : State) : Prop where
  inv : Inv s
  cur : s.current_tid = 0
  main_quantums : (s.threads 0).quantums = s.total_quantums
  others : ∀ i : Int, 1 ≤ i → i < MAX_THREAD_NUM →
    (s.threads i).state = THREAD_UNUSED ∨ (s.threads i).quantums = 0

/-- What holds in every reachable state, self-blocks included: the queue
indices and the queued identifiers are in range, only the running thread can
be marked `RUNNING`, and the main thread is `RUNNING` or `READY`. -/
structure WeakInv (s : State) : Prop where
  wf : s.rq.WF
  cur_range : 0 ≤ s.current_tid ∧ s.current_tid < MAX_THREAD_NUM
  running_cur : ∀ t : Int, 0 ≤ t → t < MAX_THREAD_NUM →
    (s.threads t).state = THREAD_RUNNING → t = s.current_tid
  main_live : (s.threads 0).state = THREAD_RUNNING ∨ (s.threads 0).state = THREAD_READY
  queue_range : ∀ x ∈ s.rq.toList, 0 ≤ x ∧ x < MAX_THREAD_NUM

/-! ## Deciding statements about concrete runs -/

/-- A run has ended in a state that satisfies `p`. -/
def endsWith (o : Option State) (p : State → Bool) : Bool :=
  match o with
  | some s => p s
  | none => false

/-- A call has returned `r` in a state that satisfies `p`. -/
def returnsWith (o : Outcome) (r : Int) (p : State → Bool) : Bool :=
  match o with
  | .ret r1 s => decide (r1 = r) && p s
  | .noreturn _ => false
  | .exit _ => false

instance decRunEnds (o : Option State) (P : State → Prop) [DecidablePred P] :
    Decidable (∃ s, o = some s ∧ P s) :=
  decidable_of_iff (endsWith o (fun s => decide (P s)) = true) (by
    cases o with
    | none => simp [endsWith]
    | some s => simp [endsWith])

instance decReturns (o : Outcome) (r : Int) (P : State → Prop) [DecidablePred P] :
    Decidable (∃ s, o = Outcome.ret r s ∧ P s) :=
  decidable_of_iff (returnsWith o r (fun s => decide (P s)) = true) (by
    cases o with
    | ret r1 s =>
      simp only [returnsWith, Bool.and_eq_true, decide_eq_true_eq, Outcome.ret.injEq]
      constructor
      · rintro ⟨h1, h2⟩
        exact ⟨s, ⟨h1, rfl⟩, h2⟩
      · rintro ⟨s1, ⟨h1, h2⟩, h3⟩
        subst h2
        exact ⟨h1, h3⟩
    | noreturn s => simp [returnsWith]
    | exit c => simp [returnsWith])

/-! ## The ready queue as a list FIFO -/

/-- A call on the ready queue: `enqueue_ready(tid)` or `dequeue_ready()`. -/
inductive QueueCall where
  | enqueue (tid : Int)
  | dequeue
  deriving DecidableEq, Repr

/-- A sequence of calls run on the ring buffer: the values returned by the
`dequeue_ready` calls, in order, and the final queue. -/
def ring_calls : ReadyQueue → List QueueCall → List Int × ReadyQueue
  | q, [] => ([], q)
  | q, .enqueue tid :: cs => ring_calls (enqueue_ready q tid) cs
  | q, .dequeue :: cs =>
    let d := dequeue_ready q
    let r := ring_calls d.2 cs
    (d.1 :: r.1, r.2)

/-- The list FIFO of the specification: enqueue appends at the tail. -/
def fifo_enqueue (l : List Int) (tid : Int) : List Int := l ++ [tid]

/-- The list FIFO of the specification: dequeue returns the head of the list,
or `-1` when the list is empty, leaving it empty. -/
def fifo_dequeue : List Int → Int × List Int
  | [] => (-1, [])
  | h :: t => (h, t)

/-- A sequence of calls run on the list FIFO of the specification: the values
returned by the dequeues, in order, and the final list. -/
def fifo_calls : List Int → List QueueCall → List Int × List Int
  | l, [] => ([], l)
  | l, .enqueue tid :: cs => fifo_calls (fifo_enqueue l tid) cs
  | l, .dequeue :: cs =>
    let d := fifo_dequeue l
    let r := fifo_calls d.2 cs
    (d.1 :: r.1, r.2)

/-- During the calls the list FIFO never holds more than `MAX_THREAD_NUM - 1`
identifiers. -/
def fifo_fits : List Int → List QueueCall → Bool
  | l, [] => decide (l.length ≤ MAX_THREAD_NUM - 1)
  | l, .enqueue tid :: cs =>
    decide (l.length ≤ MAX_THREAD_NUM - 1) && fifo_fits (fifo_enqueue l tid) cs
  | l, .dequeue :: cs =>
    decide (l.length ≤ MAX_THREAD_NUM - 1) && fifo_fits (fifo_dequeue l).2 cs

/-! ## Deadlines and the wake-up scan -/

/-- Every slot with a pending deadline (`sleep_until > 0`) is `BLOCKED` or
`UNUSED`. -/
def Rested (s : State) : Prop :=
  ∀ t : Int, (s.threads t).sleep_until > 0 →
    (s.threads t).state = THREAD_BLOCKED ∨ (s.threads t).state = THREAD_UNUSED

/-- The event is no self-block and no `uthread_resume` of a thread whose
`sleep_until` is still set. -/
def noEarlyResume (s : State) : Op → Bool
  | .resume tid => decide ((s.threads tid).sleep_until ≤ 0)
  | op => !isSelfBlock s op

/-- The wake-up test of `timer_handler` on slot `i`: the slot is `BLOCKED`
and its deadline is set and has been reached. -/
def due (s : State) (i : Int) : Bool :=
  decide ((s.threads i).state = THREAD_BLOCKED ∧ (s.threads i).sleep_until > 0 ∧
    (s.threads i).sleep_until ≤ s.total_quantums)

/-- The slots among `i, i + 1, ..., i + n - 1` that pass the wake-up test, in
increasing order. -/
def due_slots (s : State) : Nat → Int → List Int
  | 0, _ => []
  | n + 1, i => if due s i then i :: due_slots s n (i + 1) else due_slots s n (i + 1)

/-! ## The ring buffer as a FIFO list -/


theorem MAX_val : MAX_THREAD_NUM = 100 := rfl

theorem setA_same (a : Nat → Int) (i : Nat) (v : Int) : setA a i v i = v := by
  simp [setA]

theorem setA_other (a : Nat → Int) (i j : Nat) (v : Int) (h : j ≠ i) : setA a i v j = a j := by
  simp [setA, h]

theorem setT_same (th : Int → thread_t) (i : Int) (v : thread_t) : setT th i v i = v := by
  simp [setT]

theorem setT_other (th : Int → thread_t) (i j : Int) (v : thread_t) (h : j ≠ i) :
    setT th i v j = th j := by
  simp [setT, h]

theorem toList_length (q : ReadyQueue) : q.toList.length = q.size := by
  simp [ReadyQueue.toList]

theorem size_lt (q : ReadyQueue) : q.size < MAX_THREAD_NUM := by
  unfold ReadyQueue.size
  exact Nat.mod_lt _ (by decide)

theorem toList_eq_nil_iff (q : ReadyQueue) (h : q.WF) : q.toList = [] ↔ q.front = q.back := by
  rw [← List.length_eq_zero, toList_length]
  unfold ReadyQueue.WF at h
  unfold ReadyQueue.size
  rw [MAX_val] at *
  omega

theorem init_ready_queue_WF (q : ReadyQueue) : (init_ready_queue q).WF := by
  simp [init_ready_queue, ReadyQueue.WF, MAX_val]

theorem toList_init_ready_queue (q : ReadyQueue) : (init_ready_queue q).toList = [] := by
  simp [init_ready_queue, ReadyQueue.toList, ReadyQueue.size, MAX_val]

theorem enqueue_ready_WF (q : ReadyQueue) (tid : Int) (h : q.WF) : (enqueue_ready q tid).WF := by
  refine ⟨h.1, ?_⟩
  exact Nat.mod_lt _ (by decide)

theorem toList_enqueue_ready (q : ReadyQueue) (tid : Int) (h : q.WF)
    (hs : q.size + 1 < MAX_THREAD_NUM) : (enqueue_ready q tid).toList = q.toList ++ [tid] := by
  have hsz : (enqueue_ready q tid).size = q.size + 1 := by
    unfold ReadyQueue.WF at h
    unfold ReadyQueue.size at *
    simp only [enqueue_ready, MAX_val] at *
    omega
  unfold ReadyQueue.toList
  rw [hsz, List.range_succ, List.map_append]
  congr 1
  · apply List.map_congr_left
    intro j hj
    rw [List.mem_range] at hj
    simp only [enqueue_ready]
    apply setA_other
    unfold ReadyQueue.WF at h
    unfold ReadyQueue.size at *
    rw [MAX_val] at *
    omega
  · simp only [List.map_cons, List.map_nil, enqueue_ready]
    congr 1
    have : (q.front + q.size) % MAX_THREAD_NUM = q.back := by
      unfold ReadyQueue.WF at h
      unfold ReadyQueue.size at *
      rw [MAX_val] at *
      omega
    rw [this, setA_same]

theorem advance_WF (q : ReadyQueue) (h : q.WF) : q.advance.WF :=
  ⟨Nat.mod_lt _ (by decide), h.2⟩

theorem advance_size (q : ReadyQueue) (h : q.WF) (hne : q.front ≠ q.back) :
    q.advance.size + 1 = q.size := by
  unfold ReadyQueue.WF at h
  unfold ReadyQueue.size ReadyQueue.advance at *
  simp only [MAX_val] at *
  omega

theorem toList_front (q : ReadyQueue) (h : q.WF) (hne : q.front ≠ q.back) :
    q.toList = q.ready_queue q.front :: q.advance.toList := by
  have hsz := advance_size q h hne
  unfold ReadyQueue.toList
  rw [← hsz, List.range_succ_eq_map, List.map_cons, List.map_map]
  congr 1
  · have : (q.front + 0) % MAX_THREAD_NUM = q.front := by
      unfold ReadyQueue.WF at h
      rw [MAX_val] at *
      omega
    rw [this]
  · apply List.map_congr_left
    intro j _
    simp only [Function.comp, ReadyQueue.advance]
    congr 1
    rw [MAX_val]
    omega

theorem dequeue_ready_nil (q : ReadyQueue) (h : q.WF) (he : q.toList = []) :
    dequeue_ready q = (-1, q) := by
  rw [toList_eq_nil_iff q h] at he
  simp [dequeue_ready, he]

theorem dequeue_ready_cons (q : ReadyQueue) (h : q.WF) (hd : Int) (tl : List Int)
    (he : q.toList = hd :: tl) :
    (dequeue_ready q).1 = hd ∧ (dequeue_ready q).2.toList = tl ∧ (dequeue_ready q).2.WF := by
  have hne : q.front ≠ q.back := by
    intro hfb
    rw [(toList_eq_nil_iff q h).2 hfb] at he
    cases he
  have hl := toList_front q h hne
  rw [he] at hl
  injection hl with h1 h2
  simp only [dequeue_ready, hne, if_false]
  exact ⟨h1.symm, h2.symm, advance_WF q h⟩

theorem copy_loop_apply (new_queue : Nat → Int) (n : Nat) :
    ∀ (i : Nat) (a : Nat → Int) (j : Nat),
      copy_loop new_queue n i a j = if i ≤ j ∧ j < i + n then new_queue j else a j := by
  induction n with
  | zero =>
    intro i a j
    have : ¬ (i ≤ j ∧ j < i + 0) := by omega
    rw [copy_loop, if_neg this]
  | succ n ih =>
    intro i a j
    rw [copy_loop, ih]
    by_cases hj : j = i
    · subst hj
      have h1 : ¬ (j + 1 ≤ j ∧ j < j + 1 + n) := by omega
      have h2 : j ≤ j ∧ j < j + (n + 1) := by omega
      rw [if_neg h1, if_pos h2, setA_same]
    · rw [setA_other _ _ _ _ hj]
      by_cases hc : i + 1 ≤ j ∧ j < i + 1 + n
      · have h2 : i ≤ j ∧ j < i + (n + 1) := by omega
        rw [if_pos hc, if_pos h2]
      · have h2 : ¬ (i ≤ j ∧ j < i + (n + 1)) := by omega
        rw [if_neg hc, if_neg h2]

/-- What the while loop of `remove_from_ready_queue` computes: it stops with
`front = back`, and `new_queue[0 .. new_back)` has been extended by the queued
identifiers different from `tid`, in order. -/
theorem remove_loop_spec (tid : Int) (fuel : Nat) :
    ∀ (q : ReadyQueue) (new_queue : Nat → Int) (new_back : Nat), q.WF → q.size ≤ fuel →
      (remove_loop tid fuel q new_queue new_back).1.front = q.back ∧
      (remove_loop tid fuel q new_queue new_back).1.back = q.back ∧
      (remove_loop tid fuel q new_queue new_back).1.ready_queue = q.ready_queue ∧
      (List.range (remove_loop tid fuel q new_queue new_back).2.2).map
          (remove_loop tid fuel q new_queue new_back).2.1
        = (List.range new_back).map new_queue ++ q.toList.filter (fun x => x ≠ tid) := by
  induction fuel with
  | zero =>
    intro q nq nb h hs
    have hl : q.toList = [] := by
      rw [← List.length_eq_zero, toList_length]; omega
    have hfb := (toList_eq_nil_iff q h).1 hl
    simp [remove_loop, hfb, hl]
  | succ fuel ih =>
    intro q nq nb h hs
    by_cases hfb : q.front = q.back
    · have hl := (toList_eq_nil_iff q h).2 hfb
      simp [remove_loop, hfb, hl]
    · have hsz := advance_size q h hfb
      have hl := toList_front q h hfb
      have hW := advance_WF q h
      have hfuel : q.advance.size ≤ fuel := by omega
      by_cases hc : q.ready_queue q.front = tid
      · have hstep : remove_loop tid (fuel + 1) q nq nb = remove_loop tid fuel q.advance nq nb := by
          simp [remove_loop, hfb, hc, ReadyQueue.advance]
        rw [hstep, hl]
        obtain ⟨h1, h2, h3, h4⟩ := ih q.advance nq nb hW hfuel
        refine ⟨h1, h2, h3, ?_⟩
        rw [h4]
        simp [hc]
      · have hstep : remove_loop tid (fuel + 1) q nq nb =
            remove_loop tid fuel q.advance (setA nq nb (q.ready_queue q.front)) (nb + 1) := by
          simp [remove_loop, hfb, hc, ReadyQueue.advance]
        rw [hstep, hl]
        obtain ⟨h1, h2, h3, h4⟩ :=
          ih q.advance (setA nq nb (q.ready_queue q.front)) (nb + 1) hW hfuel
        refine ⟨h1, h2, h3, ?_⟩
        rw [h4, List.range_succ, List.map_append]
        have hm : (List.range nb).map (setA nq nb (q.ready_queue q.front))
            = (List.range nb).map nq := by
          apply List.map_congr_left
          intro j hj
          rw [List.mem_range] at hj
          exact setA_other _ _ _ _ (by omega)
        rw [hm]
        simp [hc, setA_same]

/-- The while loop of `remove_from_ready_queue` leaves by its own condition:
the fuel `MAX_THREAD_NUM` is never what stops it on a well-formed queue. -/
theorem remove_loop_exits (tid : Int) (q : ReadyQueue) (h : q.WF) :
    (remove_loop tid MAX_THREAD_NUM q (fun _ => 0) 0).1.front =
      (remove_loop tid MAX_THREAD_NUM q (fun _ => 0) 0).1.back := by
  obtain ⟨h1, h2, _, _⟩ :=
    remove_loop_spec tid MAX_THREAD_NUM q (fun _ => 0) 0 h (Nat.le_of_lt (size_lt q))
  rw [h1, h2]

theorem remove_from_ready_queue_spec (q : ReadyQueue) (tid : Int) (h : q.WF) :
    (remove_from_ready_queue q tid).toList = q.toList.filter (fun x => x ≠ tid) ∧
    (remove_from_ready_queue q tid).WF := by
  obtain ⟨_, _, _, h4⟩ :=
    remove_loop_spec tid MAX_THREAD_NUM q (fun _ => 0) 0 h (Nat.le_of_lt (size_lt q))
  simp only [List.range_zero, List.map_nil, List.nil_append] at h4
  have hlen : (remove_loop tid MAX_THREAD_NUM q (fun _ => 0) 0).2.2
      = (q.toList.filter (fun x => x ≠ tid)).length := by
    have := congrArg List.length h4
    simpa using this
  have hle : (q.toList.filter (fun x => x ≠ tid)).length ≤ q.size := by
    rw [← toList_length]
    exact List.length_filter_le _ _
  have hlt := size_lt q
  have hb : (remove_loop tid MAX_THREAD_NUM q (fun _ => 0) 0).2.2 < MAX_THREAD_NUM := by omega
  constructor
  · rw [← h4]
    unfold ReadyQueue.toList
    have hsz : (remove_from_ready_queue q tid).size
        = (remove_loop tid MAX_THREAD_NUM q (fun _ => 0) 0).2.2 := by
      unfold ReadyQueue.size
      simp only [remove_from_ready_queue]
      rw [MAX_val] at *
      omega
    rw [hsz]
    apply List.map_congr_left
    intro j hj
    rw [List.mem_range] at hj
    simp only [remove_from_ready_queue]
    have hj' : (0 + j) % MAX_THREAD_NUM = j := by
      rw [MAX_val] at *
      omega
    rw [hj', copy_loop_apply]
    simp [hj]
  · exact ⟨by simp [remove_from_ready_queue, MAX_val], hb⟩
/-! ## Preservation of the scheduler invariant -/
/-- A repetition-free list of identifiers of `[0, MAX_THREAD_NUM)` that misses
two distinct identifiers of that range has at most `MAX_THREAD_NUM - 2`
elements. -/
theorem length_add_two_le (l : List Int) (hn : l.Nodup)
    (hr : ∀ x ∈ l, 0 ≤ x ∧ x < MAX_THREAD_NUM) (a b : Int)
    (ha : 0 ≤ a ∧ a < MAX_THREAD_NUM) (hb : 0 ≤ b ∧ b < MAX_THREAD_NUM)
    (hal : a ∉ l) (hbl : b ∉ l) (hab : a ≠ b) : l.length + 2 ≤ MAX_THREAD_NUM := by
  have hnd : (a :: b :: l).Nodup := by
    rw [List.nodup_cons, List.nodup_cons]
    refine ⟨?_, hbl, hn⟩
    simp [hab, hal]
  have hsub : (a :: b :: l).toFinset ⊆ Finset.Ico (0 : Int) MAX_THREAD_NUM := by
    intro x hx
    rw [List.mem_toFinset] at hx
    rw [Finset.mem_Ico]
    rcases List.mem_cons.1 hx with h | h
    · rw [h]; exact ha
    · rcases List.mem_cons.1 h with h | h
      · rw [h]; exact hb
      · exact hr x h
  have hc := Finset.card_le_card hsub
  rw [List.toFinset_card_of_nodup hnd, Int.card_Ico] at hc
  simp only [List.length_cons, sub_zero, Int.toNat_ofNat] at hc
  omega

/-- One identifier missing: at most `MAX_THREAD_NUM - 1` elements. -/
theorem length_add_one_le (l : List Int) (hn : l.Nodup)
    (hr : ∀ x ∈ l, 0 ≤ x ∧ x < MAX_THREAD_NUM) (a : Int)
    (ha : 0 ≤ a ∧ a < MAX_THREAD_NUM) (hal : a ∉ l) : l.length + 1 ≤ MAX_THREAD_NUM := by
  have hnd : (a :: l).Nodup := List.nodup_cons.2 ⟨hal, hn⟩
  have hsub : (a :: l).toFinset ⊆ Finset.Ico (0 : Int) MAX_THREAD_NUM := by
    intro x hx
    rw [List.mem_toFinset] at hx
    rw [Finset.mem_Ico]
    rcases List.mem_cons.1 hx with h | h
    · rw [h]; exact ha
    · exact hr x h
  have hc := Finset.card_le_card hsub
  rw [List.toFinset_card_of_nodup hnd, Int.card_Ico] at hc
  simp only [List.length_cons, sub_zero, Int.toNat_ofNat] at hc
  omega

theorem Inv.cur_not_queued {s : State} (h : Inv s) : s.current_tid ∉ s.rq.toList := by
  intro hm
  have := ((h.queue_ready _).1 hm).2.2
  rw [h.cur_running] at this
  cases this

theorem Inv.queue_range {s : State} (h : Inv s) :
    ∀ x ∈ s.rq.toList, 0 ≤ x ∧ x < MAX_THREAD_NUM := by
  intro x hx
  have := (h.queue_ready x).1 hx
  exact ⟨this.1, this.2.1⟩

/-- Making a `BLOCKED` or `UNUSED` slot `READY` and enqueueing it (spawn,
resume, wake-up) keeps the invariant. -/
theorem Inv.enqueue {s : State} (h : Inv s) (t : Int) (th : Int → thread_t)
    (ht : 0 ≤ t ∧ t < MAX_THREAD_NUM)
    (hs : (s.threads t).state = THREAD_BLOCKED ∨ (s.threads t).state = THREAD_UNUSED)
    (hth : ∀ u, (th u).state = if u = t then THREAD_READY else (s.threads u).state)
    (tq uq : Int) :
    Inv { threads := th, current_tid := s.current_tid, total_quantums := tq,
          quantum_usecs := uq, rq := enqueue_ready s.rq t } := by
  have htl : t ∉ s.rq.toList := by
    intro hm
    have := ((h.queue_ready _).1 hm).2.2
    rcases hs with hs | hs <;> rw [hs] at this <;> cases this
  have htc : t ≠ s.current_tid := by
    intro he
    rw [he, h.cur_running] at hs
    rcases hs with hs | hs <;> cases hs
  have hlen := length_add_two_le _ h.nodup h.queue_range t s.current_tid ht h.cur_range
    htl h.cur_not_queued htc
  rw [toList_length] at hlen
  have hl := toList_enqueue_ready s.rq t h.wf (by omega)
  have ht0 : (0 : Int) ≠ t := by
    intro he
    rw [← he] at hs
    rcases h.main_live with hm | hm <;> rw [hm] at hs <;> rcases hs with hs | hs <;> cases hs
  refine ⟨enqueue_ready_WF _ _ h.wf, h.cur_range, ?_, ?_, ?_, ?_, ?_⟩
  · show (th s.current_tid).state = THREAD_RUNNING
    rw [hth, if_neg (Ne.symm htc)]
    exact h.cur_running
  · intro u hu0 hu1 hu
    change (th u).state = THREAD_RUNNING at hu
    rw [hth] at hu
    by_cases hut : u = t
    · rw [if_pos hut] at hu; cases hu
    · rw [if_neg hut] at hu
      exact h.running_unique u hu0 hu1 hu
  · intro u
    show u ∈ (enqueue_ready s.rq t).toList ↔ _ ∧ _ ∧ (th u).state = THREAD_READY
    rw [hl, List.mem_append, List.mem_singleton, hth]
    by_cases hut : u = t
    · rw [if_pos hut, hut]
      simp [ht.1, ht.2]
    · rw [if_neg hut, h.queue_ready u]
      simp [hut]
  · show (enqueue_ready s.rq t).toList.Nodup
    rw [hl]
    exact List.Nodup.append h.nodup (List.nodup_singleton t) (by simpa using htl)
  · show (th 0).state = THREAD_RUNNING ∨ (th 0).state = THREAD_READY
    rw [hth, if_neg ht0]
    exact h.main_live

/-- Taking a `READY` thread other than the main thread out of the queue and
marking it `BLOCKED` or `UNUSED` keeps the invariant. -/
theorem Inv.remove {s : State} (h : Inv s) (t : Int) (th : Int → thread_t) (x : thread_state)
    (ht0 : t ≠ 0) (hs : (s.threads t).state = THREAD_READY)
    (hx : x = THREAD_BLOCKED ∨ x = THREAD_UNUSED)
    (hth : ∀ u, (th u).state = if u = t then x else (s.threads u).state)
    (tq uq : Int) :
    Inv { threads := th, current_tid := s.current_tid, total_quantums := tq,
          quantum_usecs := uq, rq := remove_from_ready_queue s.rq t } := by
  obtain ⟨hl, hw⟩ := remove_from_ready_queue_spec s.rq t h.wf
  have htc : t ≠ s.current_tid := by
    intro he
    rw [he, h.cur_running] at hs
    cases hs
  refine ⟨hw, h.cur_range, ?_, ?_, ?_, ?_, ?_⟩
  · show (th s.current_tid).state = THREAD_RUNNING
    rw [hth, if_neg (Ne.symm htc)]
    exact h.cur_running
  · intro u hu0 hu1 hu
    change (th u).state = THREAD_RUNNING at hu
    rw [hth] at hu
    by_cases hut : u = t
    · rw [if_pos hut] at hu
      rcases hx with hx | hx <;> rw [hx] at hu <;> cases hu
    · rw [if_neg hut] at hu
      exact h.running_unique u hu0 hu1 hu
  · intro u
    show u ∈ (remove_from_ready_queue s.rq t).toList ↔ _ ∧ _ ∧ (th u).state = THREAD_READY
    rw [hl, List.mem_filter, hth, h.queue_ready u]
    by_cases hut : u = t
    · rw [if_pos hut]
      rcases hx with hx | hx <;> simp [hut, hx]
    · rw [if_neg hut]
      simp [hut]
  · show (remove_from_ready_queue s.rq t).toList.Nodup
    rw [hl]
    exact h.nodup.filter _
  · show (th 0).state = THREAD_RUNNING ∨ (th 0).state = THREAD_READY
    rw [hth, if_neg (Ne.symm ht0)]
    exact h.main_live

/-- Changing a `BLOCKED` slot to `BLOCKED` or `UNUSED` keeps the invariant. -/
theorem Inv.mark {s : State} (h : Inv s) (t : Int) (th : Int → thread_t) (x : thread_state)
    (hs : (s.threads t).state = THREAD_BLOCKED)
    (hx : x = THREAD_BLOCKED ∨ x = THREAD_UNUSED)
    (hth : ∀ u, (th u).state = if u = t then x else (s.threads u).state)
    (tq uq : Int) :
    Inv { threads := th, current_tid := s.current_tid, total_quantums := tq,
          quantum_usecs := uq, rq := s.rq } := by
  have htc : t ≠ s.current_tid := by
    intro he
    rw [he, h.cur_running] at hs
    cases hs
  have ht0 : (0 : Int) ≠ t := by
    intro he
    rw [← he] at hs
    rcases h.main_live with hm | hm <;> rw [hm] at hs <;> cases hs
  refine ⟨h.wf, h.cur_range, ?_, ?_, ?_, h.nodup, ?_⟩
  · show (th s.current_tid).state = THREAD_RUNNING
    rw [hth, if_neg (Ne.symm htc)]
    exact h.cur_running
  · intro u hu0 hu1 hu
    change (th u).state = THREAD_RUNNING at hu
    rw [hth] at hu
    by_cases hut : u = t
    · rw [if_pos hut] at hu
      rcases hx with hx | hx <;> rw [hx] at hu <;> cases hu
    · rw [if_neg hut] at hu
      exact h.running_unique u hu0 hu1 hu
  · intro u
    show u ∈ s.rq.toList ↔ _ ∧ _ ∧ (th u).state = THREAD_READY
    rw [hth, h.queue_ready u]
    by_cases hut : u = t
    · rw [if_pos hut]
      rcases hx with hx | hx <;> simp [hut, hx, hs]
    · rw [if_neg hut]
  · show (th 0).state = THREAD_RUNNING ∨ (th 0).state = THREAD_READY
    rw [hth, if_neg ht0]
    exact h.main_live

/-- The invariant only reads the thread states, `current_tid` and the queue. -/
theorem Inv.frame {s : State} (h : Inv s) (th : Int → thread_t)
    (hth : ∀ u, (th u).state = (s.threads u).state) (tq uq : Int) :
    Inv { threads := th, current_tid := s.current_tid, total_quantums := tq,
          quantum_usecs := uq, rq := s.rq } := by
  refine ⟨h.wf, h.cur_range, ?_, ?_, ?_, h.nodup, ?_⟩
  · show (th s.current_tid).state = THREAD_RUNNING
    rw [hth]; exact h.cur_running
  · intro u hu0 hu1 hu
    change (th u).state = THREAD_RUNNING at hu
    rw [hth] at hu
    exact h.running_unique u hu0 hu1 hu
  · intro u
    show u ∈ s.rq.toList ↔ _ ∧ _ ∧ (th u).state = THREAD_READY
    rw [hth]; exact h.queue_ready u
  · show (th 0).state = THREAD_RUNNING ∨ (th 0).state = THREAD_READY
    rw [hth]; exact h.main_live

/-- A running thread other than the main thread that marks itself `BLOCKED` or
`UNUSED` puts the scheduler in a yielding state. -/
theorem Inv.yield {s : State} (h : Inv s) (th : Int → thread_t) (x : thread_state)
    (hc0 : s.current_tid ≠ 0)
    (hx : x = THREAD_BLOCKED ∨ x = THREAD_UNUSED)
    (hth : ∀ u, (th u).state = if u = s.current_tid then x else (s.threads u).state)
    (tq uq : Int) :
    Yielding { threads := th, current_tid := s.current_tid, total_quantums := tq,
               quantum_usecs := uq, rq := s.rq } := by
  have hm : (s.threads 0).state = THREAD_READY := by
    rcases h.main_live with hm | hm
    · exact absurd (h.running_unique 0 (le_refl _) (by rw [MAX_val]; decide) hm).symm hc0
    · exact hm
  refine ⟨h.wf, h.cur_range, ?_, ?_, ?_, h.nodup, ?_⟩
  · show (th s.current_tid).state = THREAD_BLOCKED ∨ (th s.current_tid).state = THREAD_UNUSED
    rw [hth, if_pos rfl]; exact hx
  · intro u hu0 hu1 hu
    change (th u).state = THREAD_RUNNING at hu
    rw [hth] at hu
    by_cases hut : u = s.current_tid
    · rw [if_pos hut] at hu
      rcases hx with hx | hx <;> rw [hx] at hu <;> cases hu
    · rw [if_neg hut] at hu
      exact hut (h.running_unique u hu0 hu1 hu)
  · intro u
    show u ∈ s.rq.toList ↔ _ ∧ _ ∧ (th u).state = THREAD_READY
    rw [hth, h.queue_ready u]
    by_cases hut : u = s.current_tid
    · rw [if_pos hut]
      rcases hx with hx | hx <;> simp [hut, hx, h.cur_running]
    · rw [if_neg hut]
  · show (th 0).state = THREAD_READY
    rw [hth, if_neg (Ne.symm hc0)]
    exact hm

theorem Yielding.queue_ne_nil {s : State} (h : Yielding s) : s.rq.toList ≠ [] := by
  have h0 : (0 : Int) ∈ s.rq.toList :=
    (h.queue_ready 0).2 ⟨le_refl _, by rw [MAX_val]; decide, h.main_ready⟩
  exact List.ne_nil_of_mem h0

/-- From a yielding state, making the head of the queue the running thread
restores the invariant. -/
theorem Yielding.switch {s : State} (h : Yielding s) (hd : Int) (tl : List Int)
    (he : s.rq.toList = hd :: tl) (th : Int → thread_t)
    (hth : ∀ u, (th u).state = if u = hd then THREAD_RUNNING else (s.threads u).state)
    (tq uq : Int) :
    Inv { threads := th, current_tid := hd, total_quantums := tq,
          quantum_usecs := uq, rq := (dequeue_ready s.rq).2 } := by
  obtain ⟨_, hl, hw⟩ := dequeue_ready_cons s.rq h.wf hd tl he
  have hhd : hd ∈ s.rq.toList := by rw [he]; exact List.mem_cons_self _ _
  have hhr := (h.queue_ready hd).1 hhd
  have hnd := h.nodup
  rw [he, List.nodup_cons] at hnd
  have hc : s.current_tid ≠ hd := by
    intro hc
    have := h.cur_left
    rw [hc, hhr.2.2] at this
    rcases this with h1 | h1 <;> cases h1
  refine ⟨hw, ⟨hhr.1, hhr.2.1⟩, ?_, ?_, ?_, ?_, ?_⟩
  · show (th hd).state = THREAD_RUNNING
    rw [hth, if_pos rfl]
  · intro u hu0 hu1 hu
    change (th u).state = THREAD_RUNNING at hu
    rw [hth] at hu
    by_cases hut : u = hd
    · exact hut
    · rw [if_neg hut] at hu
      exact absurd hu (h.no_running u hu0 hu1)
  · intro u
    show u ∈ (dequeue_ready s.rq).2.toList ↔ _ ∧ _ ∧ (th u).state = THREAD_READY
    rw [hl, hth]
    by_cases hut : u = hd
    · rw [if_pos hut, hut]
      simp [hnd.1]
    · rw [if_neg hut, ← h.queue_ready u, he]
      simp [hut]
  · show (dequeue_ready s.rq).2.toList.Nodup
    rw [hl]; exact hnd.2
  · show (th 0).state = THREAD_RUNNING ∨ (th 0).state = THREAD_READY
    rw [hth]
    by_cases h0 : (0 : Int) = hd
    · rw [if_pos h0]; exact Or.inl rfl
    · rw [if_neg h0]; exact Or.inr h.main_ready

/-- Preemption: the head of the queue becomes the running thread and the
previous one goes to the tail as `READY`. -/
theorem Inv.preempt {s : State} (h : Inv s) (hd : Int) (tl : List Int)
    (he : s.rq.toList = hd :: tl) (th : Int → thread_t)
    (hth : ∀ u, (th u).state =
      if u = hd then THREAD_RUNNING
      else if u = s.current_tid then THREAD_READY else (s.threads u).state)
    (tq uq : Int) :
    Inv { threads := th, current_tid := hd, total_quantums := tq,
          quantum_usecs := uq,
          rq := enqueue_ready (dequeue_ready s.rq).2 s.current_tid } ∧
    (enqueue_ready (dequeue_ready s.rq).2 s.current_tid).toList = tl ++ [s.current_tid] := by
  obtain ⟨_, hl, hw⟩ := dequeue_ready_cons s.rq h.wf hd tl he
  have hhd : hd ∈ s.rq.toList := by rw [he]; exact List.mem_cons_self _ _
  have hhr := (h.queue_ready hd).1 hhd
  have hnd := h.nodup
  rw [he, List.nodup_cons] at hnd
  have hcq := h.cur_not_queued
  rw [he, List.mem_cons, not_or] at hcq
  have htlr : ∀ x ∈ tl, 0 ≤ x ∧ x < MAX_THREAD_NUM := by
    intro x hx
    exact h.queue_range x (by rw [he]; exact List.mem_cons_of_mem _ hx)
  have hlen := length_add_two_le tl hnd.2 htlr hd s.current_tid ⟨hhr.1, hhr.2.1⟩ h.cur_range
    hnd.1 hcq.2 (Ne.symm hcq.1)
  rw [← hl, toList_length] at hlen
  have hl2 := toList_enqueue_ready (dequeue_ready s.rq).2 s.current_tid hw (by omega)
  rw [hl] at hl2
  refine ⟨⟨enqueue_ready_WF _ _ hw, ⟨hhr.1, hhr.2.1⟩, ?_, ?_, ?_, ?_, ?_⟩, hl2⟩
  · show (th hd).state = THREAD_RUNNING
    rw [hth, if_pos rfl]
  · intro u hu0 hu1 hu
    change (th u).state = THREAD_RUNNING at hu
    rw [hth] at hu
    by_cases hut : u = hd
    · exact hut
    · rw [if_neg hut] at hu
      by_cases huc : u = s.current_tid
      · rw [if_pos huc] at hu; cases hu
      · rw [if_neg huc] at hu
        exact absurd (h.running_unique u hu0 hu1 hu) huc
  · intro u
    show u ∈ (enqueue_ready (dequeue_ready s.rq).2 s.current_tid).toList ↔
      _ ∧ _ ∧ (th u).state = THREAD_READY
    rw [hl2, hth, List.mem_append, List.mem_singleton]
    by_cases hut : u = hd
    · rw [if_pos hut, hut]
      simp [hnd.1, Ne.symm hcq.1]
    · rw [if_neg hut]
      by_cases huc : u = s.current_tid
      · rw [if_pos huc, huc]
        simp [h.cur_range.1, h.cur_range.2]
      · rw [if_neg huc, ← h.queue_ready u, he]
        simp [hut, huc]
  · show (enqueue_ready (dequeue_ready s.rq).2 s.current_tid).toList.Nodup
    rw [hl2]
    exact List.Nodup.append hnd.2 (List.nodup_singleton _) (by simpa using hcq.2)
  · show (th 0).state = THREAD_RUNNING ∨ (th 0).state = THREAD_READY
    rw [hth]
    by_cases h0 : (0 : Int) = hd
    · rw [if_pos h0]; exact Or.inl rfl
    · rw [if_neg h0]
      by_cases h1 : (0 : Int) = s.current_tid
      · rw [if_pos h1]; exact Or.inr rfl
      · rw [if_neg h1]; exact h.main_live

/-! ## Closed forms of the loops -/

theorem MAX_pos : (0 : Int) < MAX_THREAD_NUM := by rw [MAX_val]; decide

theorem init_table_apply (n : Nat) :
    ∀ (i : Int) (th : Int → thread_t) (j : Int),
      init_table n i th j =
        if i ≤ j ∧ j < i + n then
          { th j with tid := j, state := THREAD_UNUSED, quantums := 0 }
        else th j := by
  induction n with
  | zero =>
    intro i th j
    have : ¬ (i ≤ j ∧ j < i + ((0 : Nat) : Int)) := by omega
    rw [init_table, if_neg this]
  | succ n ih =>
    intro i th j
    rw [init_table, ih]
    by_cases hj : j = i
    · subst hj
      have h1 : ¬ (j + 1 ≤ j ∧ j < j + 1 + (n : Int)) := by omega
      have h2 : j ≤ j ∧ j < j + ((n + 1 : Nat) : Int) := by omega
      rw [if_neg h1, if_pos h2, setT_same]
    · rw [setT_other _ _ _ _ hj]
      by_cases hc : i + 1 ≤ j ∧ j < i + 1 + (n : Int)
      · have h2 : i ≤ j ∧ j < i + ((n + 1 : Nat) : Int) := by omega
        rw [if_pos hc, if_pos h2]
      · have h2 : ¬ (i ≤ j ∧ j < i + ((n + 1 : Nat) : Int)) := by omega
        rw [if_neg hc, if_neg h2]

/-- The search loop of `uthread_spawn` returns the least `UNUSED` index of
`[i, i + n)`, or `-1` when there is none. -/
theorem find_unused_spec (th : Int → thread_t) (n : Nat) :
    ∀ (i : Int), 0 ≤ i →
      (find_unused th n i = -1 ∧ ∀ j, i ≤ j → j < i + n → (th j).state ≠ THREAD_UNUSED) ∨
      (i ≤ find_unused th n i ∧ find_unused th n i < i + n ∧
        (th (find_unused th n i)).state = THREAD_UNUSED ∧
        ∀ j, i ≤ j → j < find_unused th n i → (th j).state ≠ THREAD_UNUSED) := by
  induction n with
  | zero =>
    intro i _
    left
    refine ⟨rfl, ?_⟩
    intro j h1 h2
    omega
  | succ n ih =>
    intro i hi
    rw [find_unused]
    by_cases hc : (th i).state = THREAD_UNUSED
    · rw [if_pos hc]
      right
      refine ⟨le_refl _, by omega, hc, ?_⟩
      intro j h1 h2
      omega
    · rw [if_neg hc]
      rcases ih (i + 1) (by omega) with ⟨h1, h2⟩ | ⟨h1, h2, h3, h4⟩
      · left
        refine ⟨h1, ?_⟩
        intro j hj1 hj2
        by_cases hji : j = i
        · rw [hji]; exact hc
        · exact h2 j (by omega) (by push_cast at hj2 ⊢; omega)
      · right
        refine ⟨by omega, by push_cast at h2 ⊢; omega, h3, ?_⟩
        intro j hj1 hj2
        by_cases hji : j = i
        · rw [hji]; exact hc
        · exact h4 j (by omega) hj2

theorem initState_threads (pre : State) (usecs : Int) (h : 0 < usecs) (j : Int) :
    (initState pre usecs).threads j =
      if j = 0 then
        { pre.threads 0 with tid := 0, state := THREAD_RUNNING, quantums := 1 }
      else if 0 ≤ j ∧ j < MAX_THREAD_NUM then
        { pre.threads j with tid := j, state := THREAD_UNUSED, quantums := 0 }
      else pre.threads j := by
  have hn : ¬ usecs ≤ 0 := by omega
  simp only [initState, init_statics, hn, if_false]
  by_cases hj : j = 0
  · subst hj
    have : (0 : Int) ≤ 0 ∧ (0 : Int) < 0 + (MAX_THREAD_NUM : Int) :=
      ⟨le_refl _, by rw [zero_add]; exact MAX_pos⟩
    rw [setT_same, setT_same, init_table_apply, if_pos this, if_pos rfl]
  · simp only [setT, if_neg hj, init_table_apply]
    simp

theorem initState_fields (pre : State) (usecs : Int) (h : 0 < usecs) :
    (initState pre usecs).current_tid = 0 ∧ (initState pre usecs).total_quantums = 1 ∧
    (initState pre usecs).quantum_usecs = usecs ∧
    (initState pre usecs).rq = init_ready_queue pre.rq := by
  have hn : ¬ usecs ≤ 0 := by omega
  simp [initState, init_statics, hn]

theorem Inv_initState (pre : State) (usecs : Int) (h : 0 < usecs) :
    Inv (initState pre usecs) := by
  obtain ⟨h1, _, _, h4⟩ := initState_fields pre usecs h
  have hth := initState_threads pre usecs h
  refine ⟨?_, ?_, ?_, ?_, ?_, ?_, ?_⟩
  · rw [h4]; exact init_ready_queue_WF _
  · rw [h1]; exact ⟨le_refl _, MAX_pos⟩
  · rw [h1, hth, if_pos rfl]
  · intro t ht0 ht1 ht
    rw [hth] at ht
    rw [h1]
    by_cases h0 : t = 0
    · exact h0
    · rw [if_neg h0, if_pos ⟨ht0, ht1⟩] at ht
      cases ht
  · intro t
    rw [h4, toList_init_ready_queue, hth]
    constructor
    · intro hm; cases hm
    · rintro ⟨ht0, ht1, ht⟩
      by_cases h0 : t = 0
      · rw [if_pos h0] at ht; cases ht
      · rw [if_neg h0, if_pos ⟨ht0, ht1⟩] at ht
        cases ht
  · rw [h4, toList_init_ready_queue]; exact List.nodup_nil
  · left; rw [hth, if_pos rfl]

/-! ## The scheduler -/

theorem setT_setT (th : Int → thread_t) (i : Int) (a b : thread_t) :
    setT (setT th i a) i b = setT th i b := by
  funext j
  by_cases h : j = i <;> simp [setT, h]

/-- Marking `t` as `RUNNING` and counting one more quantum for it. -/
theorem enter_eq (th : Int → thread_t) (t : Int) :
    setT (setT th t { th t with state := THREAD_RUNNING }) t
      { setT th t { th t with state := THREAD_RUNNING } t with
        quantums := (setT th t { th t with state := THREAD_RUNNING } t).quantums + 1 }
    = setT th t { th t with state := THREAD_RUNNING, quantums := (th t).quantums + 1 } := by
  rw [setT_setT, setT_same]

theorem schedule_next_idle (s : State) (hd : (dequeue_ready s.rq).1 = -1) :
    schedule_next s = { s with rq := (dequeue_ready s.rq).2 } := by
  simp [schedule_next, hd]

theorem schedule_next_preempt (s : State) (hd : (dequeue_ready s.rq).1 ≠ -1)
    (hr : (s.threads s.current_tid).state = THREAD_RUNNING) :
    schedule_next s =
      { threads :=
          setT (setT s.threads s.current_tid { s.threads s.current_tid with state := THREAD_READY })
            (dequeue_ready s.rq).1
            { setT s.threads s.current_tid { s.threads s.current_tid with state := THREAD_READY }
                (dequeue_ready s.rq).1 with
              state := THREAD_RUNNING
              quantums := (setT s.threads s.current_tid
                { s.threads s.current_tid with state := THREAD_READY }
                (dequeue_ready s.rq).1).quantums + 1 }
        current_tid := (dequeue_ready s.rq).1
        total_quantums := s.total_quantums
        quantum_usecs := s.quantum_usecs
        rq := enqueue_ready (dequeue_ready s.rq).2 s.current_tid } := by
  simp only [schedule_next, hd, if_false, hr, if_true, enter_eq]

theorem schedule_next_yield (s : State) (hd : (dequeue_ready s.rq).1 ≠ -1)
    (hr : (s.threads s.current_tid).state ≠ THREAD_RUNNING) :
    schedule_next s =
      { threads :=
          setT s.threads (dequeue_ready s.rq).1
            { s.threads (dequeue_ready s.rq).1 with
              state := THREAD_RUNNING
              quantums := (s.threads (dequeue_ready s.rq).1).quantums + 1 }
        current_tid := (dequeue_ready s.rq).1
        total_quantums := s.total_quantums
        quantum_usecs := s.quantum_usecs
        rq := (dequeue_ready s.rq).2 } := by
  simp only [schedule_next, hd, if_false, hr, enter_eq]

theorem schedule_next_total (s : State) :
    (schedule_next s).total_quantums = s.total_quantums := by
  unfold schedule_next
  simp only
  split
  · rfl
  · split <;> rfl

/-- The scheduler keeps the invariant when called on preemption. -/
theorem Inv_schedule_next {s : State} (h : Inv s) : Inv (schedule_next s) := by
  rcases hl : s.rq.toList with _ | ⟨hd, tl⟩
  · have hq := dequeue_ready_nil s.rq h.wf hl
    rw [schedule_next_idle s (by rw [hq]), hq]
    exact h
  · obtain ⟨h1, _, _⟩ := dequeue_ready_cons s.rq h.wf hd tl hl
    have hhd : hd ∈ s.rq.toList := by rw [hl]; exact List.mem_cons_self _ _
    have hhr := (h.queue_ready hd).1 hhd
    have hne : (dequeue_ready s.rq).1 ≠ -1 := by rw [h1]; omega
    rw [schedule_next_preempt s hne h.cur_running, h1]
    refine (h.preempt hd tl hl _ ?_ _ _).1
    intro u
    by_cases hu : u = hd
    · rw [if_pos hu, hu, setT_same]
    · rw [if_neg hu, setT_other _ _ _ _ hu]
      by_cases hc : u = s.current_tid
      · rw [if_pos hc, hc, setT_same]
      · rw [if_neg hc, setT_other _ _ _ _ hc]

/-- The scheduler restores the invariant when called from a yielding state. -/
theorem Yielding_schedule_next {s : State} (h : Yielding s) : Inv (schedule_next s) := by
  rcases hl : s.rq.toList with _ | ⟨hd, tl⟩
  · exact absurd hl h.queue_ne_nil
  · obtain ⟨h1, _, _⟩ := dequeue_ready_cons s.rq h.wf hd tl hl
    have hhd : hd ∈ s.rq.toList := by rw [hl]; exact List.mem_cons_self _ _
    have hhr := (h.queue_ready hd).1 hhd
    have hne : (dequeue_ready s.rq).1 ≠ -1 := by rw [h1]; omega
    have hnr : (s.threads s.current_tid).state ≠ THREAD_RUNNING :=
      h.no_running _ h.cur_range.1 h.cur_range.2
    rw [schedule_next_yield s hne hnr, h1]
    refine h.switch hd tl hl _ ?_ _ _
    intro u
    by_cases hu : u = hd
    · rw [if_pos hu, hu, setT_same]
    · rw [if_neg hu, setT_other _ _ _ _ hu]

/-! ## Every event other than a self-block keeps the invariant -/

theorem Inv_spawn {s : State} (h : Inv s) (e : Nat) (s1 : State)
    (hs : (uthread_spawn s e).next = some s1) : Inv s1 := by
  unfold uthread_spawn at hs
  by_cases he : e = 0
  · rw [if_pos he] at hs
    cases hs; exact h
  · rw [if_neg he] at hs
    simp only at hs
    by_cases hf : find_unused s.threads (MAX_THREAD_NUM - 1) 1 = -1
    · rw [if_pos hf] at hs
      cases hs; exact h
    · rw [if_neg hf] at hs
      simp only [Outcome.next, Option.some.injEq] at hs
      rw [← hs]
      rcases find_unused_spec s.threads (MAX_THREAD_NUM - 1) 1 (by omega) with ⟨h1, _⟩ | ⟨h1, h2, h3, _⟩
      · exact absurd h1 hf
      · have hr : (0 : Int) ≤ find_unused s.threads (MAX_THREAD_NUM - 1) 1 ∧
            find_unused s.threads (MAX_THREAD_NUM - 1) 1 < MAX_THREAD_NUM := by
          rw [MAX_val] at *
          constructor <;> omega
        refine h.enqueue _ _ hr (Or.inr h3) ?_ _ _
        intro u
        by_cases hu : u = find_unused s.threads (MAX_THREAD_NUM - 1) 1
        · rw [if_pos hu, hu, setT_same]
        · rw [if_neg hu, setT_other _ _ _ _ hu]

theorem Inv_resume {s : State} (h : Inv s) (tid : Int) (s1 : State)
    (hs : (uthread_resume s tid).next = some s1) : Inv s1 := by
  unfold uthread_resume at hs
  by_cases hv : tid < 0 ∨ tid ≥ MAX_THREAD_NUM ∨ (s.threads tid).state = THREAD_UNUSED
  · rw [if_pos hv] at hs
    cases hs; exact h
  · rw [if_neg hv] at hs
    by_cases hr : (s.threads tid).state = THREAD_READY ∨ (s.threads tid).state = THREAD_RUNNING
    · rw [if_pos hr] at hs
      cases hs; exact h
    · rw [if_neg hr] at hs
      by_cases hb : (s.threads tid).state = THREAD_BLOCKED
      · rw [if_pos hb] at hs
        simp only [Outcome.next, Option.some.injEq] at hs
        rw [← hs]
        refine h.enqueue _ _ ⟨by omega, by omega⟩ (Or.inl hb) ?_ _ _
        intro u
        by_cases hu : u = tid
        · rw [if_pos hu, hu, setT_same]
        · rw [if_neg hu, setT_other _ _ _ _ hu]
      · rw [if_neg hb] at hs
        cases hs; exact h

/-- A valid identifier other than the running one is `READY` or `BLOCKED`. -/
theorem Inv.other_state {s : State} (h : Inv s) (tid : Int)
    (hv : ¬ (tid < 0 ∨ tid ≥ MAX_THREAD_NUM ∨ (s.threads tid).state = THREAD_UNUSED))
    (hc : tid ≠ s.current_tid) :
    (s.threads tid).state = THREAD_READY ∨ (s.threads tid).state = THREAD_BLOCKED := by
  have hnr : (s.threads tid).state ≠ THREAD_RUNNING := fun hr =>
    hc (h.running_unique tid (by omega) (by omega) hr)
  have hnu : (s.threads tid).state ≠ THREAD_UNUSED := fun hu => hv (Or.inr (Or.inr hu))
  cases hst : (s.threads tid).state
  · exact absurd hst hnu
  · exact Or.inl rfl
  · exact absurd hst hnr
  · exact Or.inr rfl

theorem Inv_block {s : State} (h : Inv s) (tid : Int) (hc : tid ≠ s.current_tid) (s1 : State)
    (hs : (uthread_block s tid).next = some s1) : Inv s1 := by
  unfold uthread_block at hs
  by_cases hv : tid < 0 ∨ tid ≥ MAX_THREAD_NUM ∨ (s.threads tid).state = THREAD_UNUSED
  · rw [if_pos hv] at hs
    cases hs; exact h
  · rw [if_neg hv] at hs
    by_cases h0 : tid = 0
    · rw [if_pos h0] at hs
      cases hs; exact h
    · rw [if_neg h0] at hs
      by_cases hb : (s.threads tid).state = THREAD_BLOCKED
      · rw [if_pos hb] at hs
        cases hs; exact h
      · rw [if_neg hb] at hs
        have hr : (s.threads tid).state = THREAD_READY := by
          rcases h.other_state tid hv hc with h1 | h1
          · exact h1
          · exact absurd h1 hb
        simp only [hr, if_true, Outcome.next, Option.some.injEq] at hs
        rw [← hs]
        refine h.remove tid _ THREAD_BLOCKED h0 hr (Or.inl rfl) ?_ _ _
        intro u
        by_cases hu : u = tid
        · rw [if_pos hu, hu, setT_same]
        · rw [if_neg hu, setT_other _ _ _ _ hu]

theorem Inv_terminate {s : State} (h : Inv s) (tid : Int) (s1 : State)
    (hs : (uthread_terminate s tid).next = some s1) : Inv s1 := by
  unfold uthread_terminate at hs
  by_cases hv : tid < 0 ∨ tid ≥ MAX_THREAD_NUM ∨ (s.threads tid).state = THREAD_UNUSED
  · rw [if_pos hv] at hs
    cases hs; exact h
  · rw [if_neg hv] at hs
    by_cases h0 : tid = 0
    · rw [if_pos h0] at hs
      cases hs
    · rw [if_neg h0] at hs
      by_cases hc : tid = s.current_tid
      · rw [if_pos hc] at hs
        simp only at hs
        have hy : Yielding
            { threads := setT s.threads tid { s.threads tid with state := THREAD_UNUSED }
              current_tid := s.current_tid
              total_quantums := s.total_quantums
              quantum_usecs := s.quantum_usecs
              rq := s.rq } := by
          refine h.yield _ THREAD_UNUSED (by rw [← hc]; exact h0) (Or.inr rfl) ?_ _ _
          intro u
          by_cases hu : u = s.current_tid
          · rw [if_pos hu, hu, hc, setT_same]
          · rw [if_neg hu, setT_other _ _ _ _ (by rw [hc]; exact hu)]
        rcases hl : s.rq.toList with _ | ⟨hd, tl⟩
        · exact absurd hl hy.queue_ne_nil
        · obtain ⟨h1, _, _⟩ := dequeue_ready_cons s.rq h.wf hd tl hl
          have hhd : hd ∈ s.rq.toList := by rw [hl]; exact List.mem_cons_self _ _
          have hhr := (h.queue_ready hd).1 hhd
          have hne : (dequeue_ready s.rq).1 ≠ -1 := by rw [h1]; omega
          rw [if_neg hne] at hs
          simp only [Outcome.next, Option.some.injEq, enter_eq] at hs
          rw [← hs, h1]
          refine hy.switch hd tl hl _ ?_ _ _
          intro u
          by_cases hu : u = hd
          · rw [if_pos hu, hu, setT_same]
          · rw [if_neg hu, setT_other _ _ _ _ hu]
      · rw [if_neg hc] at hs
        simp only [Outcome.next, Option.some.injEq] at hs
        rw [← hs]
        have hth : ∀ u, (setT s.threads tid { s.threads tid with state := THREAD_UNUSED } u).state
            = if u = tid then THREAD_UNUSED else (s.threads u).state := by
          intro u
          by_cases hu : u = tid
          · rw [if_pos hu, hu, setT_same]
          · rw [if_neg hu, setT_other _ _ _ _ hu]
        rcases h.other_state tid hv hc with hr | hb
        · rw [if_pos hr]
          exact h.remove tid _ THREAD_UNUSED h0 hr (Or.inr rfl) hth _ _
        · have hnr : ¬ (s.threads tid).state = THREAD_READY := by rw [hb]; intro hx; cases hx
          rw [if_neg hnr]
          exact h.mark tid _ THREAD_UNUSED hb (Or.inr rfl) hth _ _

theorem Inv_sleep {s : State} (h : Inv s) (k : Int) (s1 : State)
    (hs : (uthread_sleep s k).next = some s1) : Inv s1 := by
  unfold uthread_sleep at hs
  by_cases h0 : s.current_tid = 0
  · rw [if_pos h0] at hs
    cases hs; exact h
  · rw [if_neg h0] at hs
    by_cases hk : k ≤ 0
    · rw [if_pos hk] at hs
      cases hs; exact h
    · rw [if_neg hk] at hs
      simp only [Outcome.next, Option.some.injEq] at hs
      rw [← hs]
      apply Yielding_schedule_next
      refine h.yield _ THREAD_BLOCKED h0 (Or.inl rfl) ?_ _ _
      intro u
      by_cases hu : u = s.current_tid
      · rw [if_pos hu, hu, setT_same]
      · rw [if_neg hu, setT_other _ _ _ _ hu, setT_other _ _ _ _ hu]

theorem Inv_wake_one {s : State} (h : Inv s) (i : Int) (hi : 0 ≤ i ∧ i < MAX_THREAD_NUM) :
    Inv (wake_one s i) := by
  unfold wake_one
  split
  · rename_i hc
    refine h.enqueue i _ hi (Or.inl hc.1) ?_ _ _
    intro u
    by_cases hu : u = i
    · rw [if_pos hu, hu, setT_same]
    · rw [if_neg hu, setT_other _ _ _ _ hu, setT_other _ _ _ _ hu]
  · exact h

theorem Inv_wake_loop (n : Nat) :
    ∀ (i : Int) (s : State), Inv s → 0 ≤ i → i + n ≤ MAX_THREAD_NUM → Inv (wake_loop n i s) := by
  induction n with
  | zero => intro i s h _ _; exact h
  | succ n ih =>
    intro i s h hi hn
    rw [wake_loop]
    push_cast at hn
    exact ih (i + 1) _ (Inv_wake_one h i ⟨hi, by omega⟩) (by omega) (by omega)

theorem count_tick_total (s : State) :
    (count_tick s).total_quantums = s.total_quantums + 1 := rfl

theorem count_tick_current (s : State) : (count_tick s).current_tid = s.current_tid := rfl

theorem count_tick_rq (s : State) : (count_tick s).rq = s.rq := rfl

theorem count_tick_threads_other (s : State) (u : Int) (h : u ≠ s.current_tid) :
    (count_tick s).threads u = s.threads u :=
  setT_other _ _ _ _ h

theorem count_tick_threads_same (s : State) :
    (count_tick s).threads s.current_tid =
      { s.threads s.current_tid with quantums := (s.threads s.current_tid).quantums + 1 } :=
  setT_same _ _ _

theorem count_tick_state (s : State) (u : Int) :
    ((count_tick s).threads u).state = (s.threads u).state := by
  by_cases hu : u = s.current_tid
  · rw [hu, count_tick_threads_same]
  · rw [count_tick_threads_other s u hu]

theorem Inv_count_tick {s : State} (h : Inv s) : Inv (count_tick s) :=
  h.frame _ (count_tick_state s) _ _

theorem Inv_timer_handler {s : State} (h : Inv s) : Inv (timer_handler s) := by
  unfold timer_handler
  apply Inv_schedule_next
  exact Inv_wake_loop _ _ _ (Inv_count_tick h) (le_refl _) (by omega)

/-- Every event other than a self-block keeps the scheduler invariant. -/
theorem Inv_step {s : State} (h : Inv s) (op : Op) (hop : isSelfBlock s op = false)
    (s1 : State) (hs : step s op = some s1) : Inv s1 := by
  cases op with
  | spawn e => exact Inv_spawn h e s1 hs
  | terminate tid => exact Inv_terminate h tid s1 hs
  | block tid =>
    have hc : tid ≠ s.current_tid := by simpa [isSelfBlock] using hop
    exact Inv_block h tid hc s1 hs
  | resume tid => exact Inv_resume h tid s1 hs
  | sleep k => exact Inv_sleep h k s1 hs
  | tick =>
    simp only [step, Option.some.injEq] at hs
    rw [← hs]; exact Inv_timer_handler h

/-! ## Frame lemmas -/

theorem schedule_next_current (s : State) :
    (schedule_next s).current_tid =
      if (dequeue_ready s.rq).1 = -1 then s.current_tid else (dequeue_ready s.rq).1 := by
  unfold schedule_next
  simp only
  split
  · rfl
  · split <;> rfl

/-- The scheduler only writes the slots of the previous and the next thread. -/
theorem schedule_next_threads_other (s : State) (u : Int) (h1 : u ≠ s.current_tid)
    (h2 : u ≠ (dequeue_ready s.rq).1) : (schedule_next s).threads u = s.threads u := by
  unfold schedule_next
  simp only
  split
  · rfl
  · split
    · show setT (setT (setT _ _ _) _ _) _ _ u = _
      rw [setT_other _ _ _ _ h2, setT_other _ _ _ _ h2, setT_other _ _ _ _ h1]
    · show setT (setT _ _ _) _ _ u = _
      rw [setT_other _ _ _ _ h2, setT_other _ _ _ _ h2]

theorem wake_one_total (s : State) (i : Int) :
    (wake_one s i).total_quantums = s.total_quantums := by
  unfold wake_one
  split <;> rfl

theorem wake_one_current (s : State) (i : Int) :
    (wake_one s i).current_tid = s.current_tid := by
  unfold wake_one
  split <;> rfl

theorem wake_one_threads_other (s : State) (i u : Int) (h : u ≠ i) :
    (wake_one s i).threads u = s.threads u := by
  unfold wake_one
  split
  · show setT (setT _ _ _) _ _ u = _
    rw [setT_other _ _ _ _ h, setT_other _ _ _ _ h]
  · rfl

theorem wake_one_threads_same (s : State) (i : Int) :
    (wake_one s i).threads i =
      if (s.threads i).state = THREAD_BLOCKED ∧ (s.threads i).sleep_until > 0 ∧
          (s.threads i).sleep_until ≤ s.total_quantums then
        { s.threads i with sleep_until := 0, state := THREAD_READY }
      else s.threads i := by
  unfold wake_one
  split
  · show setT (setT _ _ _) _ _ i = _
    rw [setT_same, setT_same]
  · rfl

theorem wake_loop_total (n : Nat) :
    ∀ (i : Int) (s : State), (wake_loop n i s).total_quantums = s.total_quantums := by
  induction n with
  | zero => intro i s; rfl
  | succ n ih => intro i s; rw [wake_loop, ih, wake_one_total]

theorem wake_loop_current (n : Nat) :
    ∀ (i : Int) (s : State), (wake_loop n i s).current_tid = s.current_tid := by
  induction n with
  | zero => intro i s; rfl
  | succ n ih => intro i s; rw [wake_loop, ih, wake_one_current]

/-- The wake-up loop over `[i, i + n)` wakes exactly the `BLOCKED` slots of that
range whose deadline is set and has been reached, and leaves every other slot
as it is. -/
theorem wake_loop_threads (n : Nat) :
    ∀ (i : Int) (s : State) (u : Int),
      (wake_loop n i s).threads u =
        if (i ≤ u ∧ u < i + n) ∧ (s.threads u).state = THREAD_BLOCKED ∧
            (s.threads u).sleep_until > 0 ∧ (s.threads u).sleep_until ≤ s.total_quantums then
          { s.threads u with sleep_until := 0, state := THREAD_READY }
        else s.threads u := by
  induction n with
  | zero =>
    intro i s u
    have : ¬ (i ≤ u ∧ u < i + ((0 : Nat) : Int)) := by omega
    rw [wake_loop, if_neg (fun h => this h.1)]
  | succ n ih =>
    intro i s u
    rw [wake_loop, ih, wake_one_total]
    by_cases hu : u = i
    · subst hu
      have h1 : ¬ (u + 1 ≤ u ∧ u < u + 1 + (n : Int)) := by omega
      have h2 : u ≤ u ∧ u < u + ((n + 1 : Nat) : Int) := by omega
      rw [if_neg (fun h => h1 h.1), wake_one_threads_same]
      simp only [h2, true_and]
    · rw [wake_one_threads_other _ _ _ hu]
      have h3 : (i + 1 ≤ u ∧ u < i + 1 + (n : Int)) ↔ (i ≤ u ∧ u < i + ((n + 1 : Nat) : Int)) := by
        omega
      simp only [h3]

theorem wake_loop_threads_keep (n : Nat) (i : Int) (s : State) (u : Int)
    (h : ¬ ((s.threads u).state = THREAD_BLOCKED ∧ (s.threads u).sleep_until > 0 ∧
      (s.threads u).sleep_until ≤ s.total_quantums)) :
    (wake_loop n i s).threads u = s.threads u := by
  rw [wake_loop_threads, if_neg (fun hc => h hc.2)]

/-- What each event does to `total_quantums`: a timer tick adds one, nothing
else changes it. -/
theorem step_total (s : State) (op : Op) (s1 : State) (h : step s op = some s1) :
    s1.total_quantums = if op = Op.tick then s.total_quantums + 1 else s.total_quantums := by
  cases op with
  | spawn e =>
    simp only [step] at h
    unfold uthread_spawn at h
    rw [if_neg (by intro hx; cases hx)]
    split at h
    · cases h; rfl
    · simp only at h
      split at h <;> (cases h; rfl)
  | terminate tid =>
    simp only [step] at h
    unfold uthread_terminate at h
    rw [if_neg (by intro hx; cases hx)]
    split at h
    · cases h; rfl
    · split at h
      · cases h
      · split at h
        · simp only at h
          split at h
          · cases h
          · cases h; rfl
        · cases h; rfl
  | block tid =>
    simp only [step] at h
    unfold uthread_block at h
    rw [if_neg (by intro hx; cases hx)]
    split at h
    · cases h; rfl
    · split at h
      · cases h; rfl
      · split at h <;> (cases h; rfl)
  | resume tid =>
    simp only [step] at h
    unfold uthread_resume at h
    rw [if_neg (by intro hx; cases hx)]
    split at h
    · cases h; rfl
    · split at h
      · cases h; rfl
      · split at h <;> (cases h; rfl)
  | sleep k =>
    simp only [step] at h
    unfold uthread_sleep at h
    rw [if_neg (by intro hx; cases hx)]
    split at h
    · cases h; rfl
    · split at h
      · cases h; rfl
      · simp only [Outcome.next, Option.some.injEq] at h
        rw [← h, schedule_next_total]
  | tick =>
    simp only [step, Option.some.injEq] at h
    rw [if_pos rfl, ← h]
    unfold timer_handler
    rw [schedule_next_total, wake_loop_total, count_tick_total]

/-- Along a run `total_quantums` never decreases. -/
theorem run_total_mono (ops : List Op) :
    ∀ (s s1 : State), run s ops = some s1 → s.total_quantums ≤ s1.total_quantums := by
  induction ops with
  | nil =>
    intro s s1 h
    simp only [run, Option.some.injEq] at h
    rw [h]
  | cons op ops ih =>
    intro s s1 h
    rw [run] at h
    cases hs : step s op with
    | none => rw [hs] at h; cases h
    | some s2 =>
      rw [hs] at h
      have h1 := step_total s op s2 hs
      have h2 := ih s2 s1 h
      split at h1 <;> omega

/-- A run without self-block keeps the scheduler invariant. -/
theorem Inv_run (ops : List Op) :
    ∀ (s s1 : State), Inv s → allOps noSelfBlock s ops = true → run s ops = some s1 →
      Inv s1 := by
  induction ops with
  | nil =>
    intro s s1 hI _ h
    simp only [run, Option.some.injEq] at h
    rw [← h]; exact hI
  | cons op ops ih =>
    intro s s1 hI ha h
    rw [run] at h
    rw [allOps, Bool.and_eq_true] at ha
    cases hs : step s op with
    | none => rw [hs] at h; cases h
    | some s2 =>
      rw [hs] at h ha
      have hn : isSelfBlock s op = false := by
        have := ha.1
        unfold noSelfBlock at this
        simpa using this
      exact ih s2 s1 (Inv_step hI op hn s2 hs) ha.2 h
/-! ## uthread_spawn and uthread_terminate -/
/-- The search loop of `uthread_spawn` never yields `0` or a negative value
other than `-1`. -/
theorem find_unused_cases (th : Int → thread_t) :
    find_unused th (MAX_THREAD_NUM - 1) 1 = -1 ∨
    (1 ≤ find_unused th (MAX_THREAD_NUM - 1) 1 ∧
      find_unused th (MAX_THREAD_NUM - 1) 1 < MAX_THREAD_NUM) := by
  rcases find_unused_spec th (MAX_THREAD_NUM - 1) 1 (by omega) with ⟨h1, _⟩ | ⟨h1, h2, _, _⟩
  · exact Or.inl h1
  · refine Or.inr ⟨h1, ?_⟩
    rw [MAX_val] at *
    omega

/-- What `uthread_spawn` returns and writes, in every state. -/
theorem uthread_spawn_effect (s : State) (e : Nat) :
    ∃ (r : Int) (s1 : State), uthread_spawn s e = .ret r s1 ∧ r ≠ 0 ∧
      (r = -1 ↔ (e = 0 ∨
        ∀ i : Int, 1 ≤ i → i < MAX_THREAD_NUM → (s.threads i).state ≠ THREAD_UNUSED)) ∧
      (r = -1 → s1 = s) ∧
      (r ≠ -1 →
        1 ≤ r ∧ r < MAX_THREAD_NUM ∧ (s.threads r).state = THREAD_UNUSED ∧
        (∀ j : Int, 1 ≤ j → j < r → (s.threads j).state ≠ THREAD_UNUSED) ∧
        s1.threads r =
          { tid := r, state := THREAD_READY, quantums := 0, sleep_until := 0, entry := e } ∧
        (∀ j : Int, j ≠ r → s1.threads j = s.threads j) ∧
        s1.current_tid = s.current_tid ∧ s1.total_quantums = s.total_quantums ∧
        s1.quantum_usecs = s.quantum_usecs ∧
        s1.rq = enqueue_ready s.rq r ∧
        (s.rq.WF → s.rq.size + 1 < MAX_THREAD_NUM → s1.rq.toList = s.rq.toList ++ [r])) := by
  unfold uthread_spawn
  by_cases he : e = 0
  · rw [if_pos he]
    exact ⟨-1, s, rfl, by omega, ⟨fun _ => Or.inl he, fun _ => rfl⟩, fun _ => rfl,
      fun h => absurd rfl h⟩
  · rw [if_neg he]
    simp only
    rcases find_unused_spec s.threads (MAX_THREAD_NUM - 1) 1 (by omega) with
      ⟨h1, h2⟩ | ⟨h1, h2, h3, h4⟩
    · rw [if_pos h1]
      refine ⟨-1, s, rfl, by omega, ⟨fun _ => Or.inr ?_, fun _ => rfl⟩, fun _ => rfl,
        fun h => absurd rfl h⟩
      intro i hi1 hi2
      exact h2 i hi1 (by rw [MAX_val] at *; omega)
    · have hne : find_unused s.threads (MAX_THREAD_NUM - 1) 1 ≠ -1 := by omega
      have hlt : find_unused s.threads (MAX_THREAD_NUM - 1) 1 < MAX_THREAD_NUM := by
        rw [MAX_val] at *; omega
      rw [if_neg hne]
      refine ⟨_, _, rfl, by omega, ⟨fun h => absurd h hne, ?_⟩, fun h => absurd h hne, ?_⟩
      · rintro (h | h)
        · exact absurd h he
        · exact absurd h3 (h _ h1 hlt)
      · intro _
        refine ⟨h1, hlt, h3, h4, ?_, ?_, rfl, rfl, rfl, rfl, ?_⟩
        · exact setT_same _ _ _
        · intro j hj
          exact setT_other _ _ _ _ hj
        · intro hw hs
          exact toList_enqueue_ready _ _ hw hs

/-- Terminating a live thread that is neither the main thread nor the running
one. -/
theorem uthread_terminate_other (s : State) (tid : Int)
    (hv : ¬ (tid < 0 ∨ tid ≥ MAX_THREAD_NUM ∨ (s.threads tid).state = THREAD_UNUSED))
    (h0 : tid ≠ 0) (hc : tid ≠ s.current_tid) :
    uthread_terminate s tid = .ret 0
      { threads := setT s.threads tid { s.threads tid with state := THREAD_UNUSED }
        current_tid := s.current_tid
        total_quantums := s.total_quantums
        quantum_usecs := s.quantum_usecs
        rq := if (s.threads tid).state = THREAD_READY then remove_from_ready_queue s.rq tid
              else s.rq } := by
  unfold uthread_terminate
  rw [if_neg hv, if_neg h0, if_neg hc]

/-- `uthread_spawn` returns `r` when `r` is the least `UNUSED` index. -/
theorem uthread_spawn_least (s : State) (e : Nat) (r : Int) (he : e ≠ 0)
    (hr : 1 ≤ r ∧ r < MAX_THREAD_NUM) (hu : (s.threads r).state = THREAD_UNUSED)
    (hlow : ∀ j : Int, 1 ≤ j → j < r → (s.threads j).state ≠ THREAD_UNUSED) :
    ∃ s1, uthread_spawn s e = .ret r s1 ∧
      s1.threads r =
        { tid := r, state := THREAD_READY, quantums := 0, sleep_until := 0, entry := e } ∧
      (∀ j : Int, j ≠ r → s1.threads j = s.threads j) ∧
      s1.current_tid = s.current_tid := by
  obtain ⟨r1, s1, h1, _, h3, _, h5⟩ := uthread_spawn_effect s e
  have hne : r1 ≠ -1 := by
    intro h
    rcases h3.1 h with h | h
    · exact he h
    · exact h r hr.1 hr.2 hu
  obtain ⟨a1, a2, a3, a4, a5, a6, a7, _⟩ := h5 hne
  have heq : r1 = r := by
    by_contra hd
    rcases lt_or_gt_of_ne hd with hlt | hgt
    · exact hlow r1 a1 hlt a3
    · exact a4 r hr.1 hgt hu
  subst heq
  exact ⟨s1, h1, a5, a6, a7⟩

/-- Spawning `k` times in a row when exactly the slots `1 .. m` are in use. -/
theorem spawn_all_fills (e : Nat) (he : e ≠ 0) (k : Nat) :
    ∀ (m : Nat) (s : State), m + k + 1 ≤ MAX_THREAD_NUM →
      (∀ j : Int, 1 ≤ j → j ≤ m → (s.threads j).state ≠ THREAD_UNUSED) →
      (∀ j : Int, m < j → j < MAX_THREAD_NUM → (s.threads j).state = THREAD_UNUSED) →
      ∃ s1, spawn_all e k s = some s1 ∧ s1.current_tid = s.current_tid ∧
        s1.threads 0 = s.threads 0 ∧
        (∀ j : Int, 1 ≤ j → j ≤ (m + k : Nat) → (s1.threads j).state ≠ THREAD_UNUSED) ∧
        (∀ j : Int, (m + k : Nat) < j → j < MAX_THREAD_NUM →
          (s1.threads j).state = THREAD_UNUSED) := by
  induction k with
  | zero =>
    intro m s _ h1 h2
    exact ⟨s, rfl, rfl, rfl, by simpa using h1, by simpa using h2⟩
  | succ k ih =>
    intro m s hm h1 h2
    have hr : (1 : Int) ≤ (m : Int) + 1 ∧ (m : Int) + 1 < MAX_THREAD_NUM := by
      constructor <;> omega
    obtain ⟨s1, hs1, ht, hoth, hcur⟩ := uthread_spawn_least s e ((m : Int) + 1) he hr
      (h2 _ (by omega) hr.2) (fun j hj1 hj2 => h1 j hj1 (by omega))
    have hA : ∀ j : Int, 1 ≤ j → j ≤ ((m + 1 : Nat) : Int) →
        (s1.threads j).state ≠ THREAD_UNUSED := by
      intro j hj1 hj2
      by_cases hj : j = (m : Int) + 1
      · rw [hj, ht]; intro hx; cases hx
      · rw [hoth j hj]; exact h1 j hj1 (by omega)
    have hB : ∀ j : Int, ((m + 1 : Nat) : Int) < j → j < MAX_THREAD_NUM →
        (s1.threads j).state = THREAD_UNUSED := by
      intro j hj1 hj2
      rw [hoth j (by omega)]
      exact h2 j (by omega) hj2
    obtain ⟨s2, hs2, hc2, h02, hA2, hB2⟩ := ih (m + 1) s1 (by omega) hA hB
    refine ⟨s2, ?_, by rw [hc2, hcur], ?_, ?_, ?_⟩
    · rw [spawn_all, hs1]
      simp only
      rw [if_neg (by omega)]
      exact hs2
    · rw [h02, hoth 0 (by omega)]
    · intro j hj1 hj2
      exact hA2 j hj1 (by omega)
    · intro j hj1 hj2
      exact hB2 j (by omega) hj2

/-! ## Blocked threads -/

/-- The identifier the scheduler would pick next is not that of a slot which is
not `READY`. -/
theorem head_ne_of_not_ready (s : State) (u : Int) (hw : s.rq.WF)
    (hq : ∀ t ∈ s.rq.toList, (s.threads t).state = THREAD_READY)
    (hu0 : 0 ≤ u) (hu : (s.threads u).state ≠ THREAD_READY) :
    u ≠ (dequeue_ready s.rq).1 := by
  rcases hl : s.rq.toList with _ | ⟨hd, tl⟩
  · rw [dequeue_ready_nil s.rq hw hl]
    show u ≠ -1
    omega
  · obtain ⟨h1, _, _⟩ := dequeue_ready_cons s.rq hw hd tl hl
    rw [h1]
    intro he
    apply hu
    rw [he]
    exact hq hd (by rw [hl]; exact List.mem_cons_self _ _)

theorem Inv.queue_states {s : State} (h : Inv s) :
    ∀ t ∈ s.rq.toList, (s.threads t).state = THREAD_READY :=
  fun t ht => ((h.queue_ready t).1 ht).2.2

/-- A `BLOCKED` thread is left alone by every event that is not its own
`uthread_resume` or `uthread_terminate`, except by the tick that reaches its
deadline. -/
theorem blocked_thread_untouched {s : State} (hI : Inv s) (t : Int) (ht0 : 0 ≤ t)
    (hb : (s.threads t).state = THREAD_BLOCKED) (op : Op)
    (h1 : op ≠ Op.resume t) (h2 : op ≠ Op.terminate t)
    (h3 : op = Op.tick → ¬ ((s.threads t).sleep_until > 0 ∧
      (s.threads t).sleep_until ≤ s.total_quantums + 1))
    (s1 : State) (hs : step s op = some s1) : s1.threads t = s.threads t := by
  have htc : t ≠ s.current_tid := by
    intro he
    rw [he, hI.cur_running] at hb
    cases hb
  have hnr : (s.threads t).state ≠ THREAD_READY := by rw [hb]; intro hx; cases hx
  have hhd := head_ne_of_not_ready s t hI.wf hI.queue_states ht0 hnr
  cases op with
  | spawn e =>
    simp only [step] at hs
    obtain ⟨r, s2, e1, _, _, e4, e5⟩ := uthread_spawn_effect s e
    rw [e1] at hs
    simp only [Outcome.next, Option.some.injEq] at hs
    subst hs
    by_cases hr : r = -1
    · rw [e4 hr]
    · obtain ⟨_, _, a3, _, _, a6, _⟩ := e5 hr
      refine a6 t ?_
      intro he
      rw [he, a3] at hb
      cases hb
  | terminate tid =>
    have hne : t ≠ tid := fun he => h2 (by rw [he])
    simp only [step] at hs
    unfold uthread_terminate at hs
    split at hs
    · cases hs; rfl
    · split at hs
      · cases hs
      · split at hs
        · simp only at hs
          split at hs
          · cases hs
          · simp only [Outcome.next, Option.some.injEq] at hs
            rw [← hs]
            show setT (setT (setT _ _ _) _ _) _ _ t = _
            rw [setT_other _ _ _ _ hhd, setT_other _ _ _ _ hhd, setT_other _ _ _ _ hne]
        · simp only [Outcome.next, Option.some.injEq] at hs
          rw [← hs]
          show setT _ _ _ t = _
          rw [setT_other _ _ _ _ hne]
  | block tid =>
    simp only [step] at hs
    unfold uthread_block at hs
    split at hs
    · cases hs; rfl
    · split at hs
      · cases hs; rfl
      · split at hs
        · cases hs; rfl
        · rename_i hnb
          have hne : t ≠ tid := fun he => hnb (by rw [← he]; exact hb)
          simp only [Outcome.next, Option.some.injEq] at hs
          rw [← hs]
          show setT _ _ _ t = _
          rw [setT_other _ _ _ _ hne]
  | resume tid =>
    have hne : t ≠ tid := fun he => h1 (by rw [he])
    simp only [step] at hs
    unfold uthread_resume at hs
    split at hs
    · cases hs; rfl
    · split at hs
      · cases hs; rfl
      · split at hs
        · simp only [Outcome.next, Option.some.injEq] at hs
          rw [← hs]
          show setT _ _ _ t = _
          rw [setT_other _ _ _ _ hne]
        · cases hs; rfl
  | sleep k =>
    simp only [step] at hs
    unfold uthread_sleep at hs
    split at hs
    · cases hs; rfl
    · split at hs
      · cases hs; rfl
      · simp only [Outcome.next, Option.some.injEq] at hs
        rw [← hs]
        refine Eq.trans (schedule_next_threads_other _ t htc hhd) ?_
        show setT (setT _ _ _) _ _ t = _
        rw [setT_other _ _ _ _ htc, setT_other _ _ _ _ htc]
  | tick =>
    simp only [step, Option.some.injEq] at hs
    rw [← hs]
    unfold timer_handler
    have hI3 := Inv_wake_loop MAX_THREAD_NUM 0 _ (Inv_count_tick hI) (le_refl _) (by omega)
    have ht2 : (count_tick s).threads t = s.threads t := count_tick_threads_other s t htc
    have ht3 : (wake_loop MAX_THREAD_NUM 0 (count_tick s)).threads t = s.threads t := by
      rw [wake_loop_threads_keep, ht2]
      rw [ht2, count_tick_total]
      exact fun hc => h3 rfl hc.2
    refine Eq.trans (schedule_next_threads_other _ t ?_ ?_) ht3
    · rw [wake_loop_current]; exact htc
    · exact head_ne_of_not_ready _ t hI3.wf hI3.queue_states ht0 (by rw [ht3]; exact hnr)

/-- A thread that gives up the processor keeps its slot as it marked it. -/
theorem schedule_next_threads_prev (s : State)
    (h1 : (s.threads s.current_tid).state ≠ THREAD_RUNNING)
    (h2 : s.current_tid ≠ (dequeue_ready s.rq).1) :
    (schedule_next s).threads s.current_tid = s.threads s.current_tid := by
  by_cases hd : (dequeue_ready s.rq).1 = -1
  · rw [schedule_next_idle s hd]
  · rw [schedule_next_yield s hd h1]
    exact setT_other _ _ _ _ h2

theorem undisturbed_iff (t : Int) (s : State) (op : Op) :
    undisturbed t s op = true ↔
      isSelfBlock s op = false ∧ op ≠ Op.resume t ∧ op ≠ Op.terminate t := by
  unfold undisturbed
  simp [and_assoc]

/-- When the sum fits in an `int`, `int_add` is the sum. -/
theorem int_add_fits (a b : Int) (h1 : -2147483648 ≤ a + b) (h2 : a + b ≤ INT_MAX) :
    int_add a b = a + b := by
  unfold INT_MAX at h2
  unfold int_add
  omega

/-- When the sum of two `int`s exceeds `INT_MAX`, `int_add` is negative. -/
theorem int_add_wraps (a b : Int) (ha : a ≤ INT_MAX) (hb : b ≤ INT_MAX)
    (h : INT_MAX < a + b) : int_add a b = a + b - 4294967296 ∧ int_add a b < 0 := by
  unfold INT_MAX at ha hb h
  unfold int_add
  omega

/-- A successful `uthread_sleep(k)`: the caller's slot is `BLOCKED` with
deadline `int_add total_quantums k`, `total_quantums` is unchanged and the invariant
holds again. -/
theorem uthread_sleep_effect {s : State} (hI : Inv s) (k : Int) (hc : s.current_tid ≠ 0)
    (hk : 0 < k) :
    ∃ s1, uthread_sleep s k = .ret 0 s1 ∧ Inv s1 ∧
      s1.total_quantums = s.total_quantums ∧
      (s1.threads s.current_tid).state = THREAD_BLOCKED ∧
      (s1.threads s.current_tid).sleep_until = int_add s.total_quantums k := by
  have hnk : ¬ k ≤ 0 := by omega
  have he : uthread_sleep s k = .ret 0 (schedule_next
      { threads := setT (setT s.threads s.current_tid
            { s.threads s.current_tid with sleep_until := int_add s.total_quantums k })
          s.current_tid
          { setT s.threads s.current_tid
              { s.threads s.current_tid with sleep_until := int_add s.total_quantums k }
              s.current_tid with state := THREAD_BLOCKED }
        current_tid := s.current_tid
        total_quantums := s.total_quantums
        quantum_usecs := s.quantum_usecs
        rq := s.rq }) := by
    unfold uthread_sleep
    rw [if_neg hc, if_neg hnk]
  have hI1 : Inv (schedule_next _) := Inv_sleep hI k _ (by rw [he]; rfl)
  have hy : Yielding
      { threads := setT (setT s.threads s.current_tid
            { s.threads s.current_tid with sleep_until := int_add s.total_quantums k })
          s.current_tid
          { setT s.threads s.current_tid
              { s.threads s.current_tid with sleep_until := int_add s.total_quantums k }
              s.current_tid with state := THREAD_BLOCKED }
        current_tid := s.current_tid
        total_quantums := s.total_quantums
        quantum_usecs := s.quantum_usecs
        rq := s.rq } := by
    refine hI.yield _ THREAD_BLOCKED hc (Or.inl rfl) ?_ _ _
    intro u
    by_cases hu : u = s.current_tid
    · rw [if_pos hu, hu, setT_same]
    · rw [if_neg hu, setT_other _ _ _ _ hu, setT_other _ _ _ _ hu]
  have hself : ∀ (x : thread_t) (th : Int → thread_t), setT th s.current_tid x s.current_tid = x :=
    fun x th => setT_same th s.current_tid x
  have hprev := schedule_next_threads_prev _
    (hy.no_running _ hy.cur_range.1 hy.cur_range.2)
    (head_ne_of_not_ready _ _ hy.wf (fun t ht => ((hy.queue_ready t).1 ht).2.2) hy.cur_range.1
      (by rcases hy.cur_left with h | h <;> rw [h] <;> intro hx <;> cases hx))
  refine ⟨_, he, hI1, schedule_next_total _, ?_, ?_⟩
  · refine Eq.trans (congrArg thread_t.state hprev) ?_
    show (setT _ _ _ s.current_tid).state = _
    rw [setT_same]
  · refine Eq.trans (congrArg thread_t.sleep_until hprev) ?_
    show (setT _ _ _ s.current_tid).sleep_until = _
    rw [setT_same, setT_same]

/-- Along a run that neither resumes nor terminates `t` and has no self-block,
a thread `t` that is `BLOCKED` with deadline `d` stays so as long as
`total_quantums < d`. -/
theorem asleep_run (t d : Int) (ht0 : 0 ≤ t) (ops : List Op) :
    ∀ (s s1 : State), Inv s →
      (s.total_quantums < d →
        (s.threads t).state = THREAD_BLOCKED ∧ (s.threads t).sleep_until = d) →
      allOps (undisturbed t) s ops = true → run s ops = some s1 →
      Inv s1 ∧ (s1.total_quantums < d →
        (s1.threads t).state = THREAD_BLOCKED ∧ (s1.threads t).sleep_until = d) := by
  induction ops with
  | nil =>
    intro s s1 hI hb _ h
    simp only [run, Option.some.injEq] at h
    rw [← h]; exact ⟨hI, hb⟩
  | cons op ops ih =>
    intro s s1 hI hb ha h
    rw [run] at h
    rw [allOps, Bool.and_eq_true] at ha
    cases hs : step s op with
    | none => rw [hs] at h; cases h
    | some s2 =>
      rw [hs] at h ha
      obtain ⟨u1, u2, u3⟩ := (undisturbed_iff t s op).1 ha.1
      have hI2 := Inv_step hI op u1 s2 hs
      have htot := step_total s op s2 hs
      refine ih s2 s1 hI2 ?_ ha.2 h
      intro hlt
      have hlt0 : s.total_quantums < d := by
        split at htot <;> omega
      obtain ⟨b1, b2⟩ := hb hlt0
      have hsame := blocked_thread_untouched hI t ht0 b1 op u2 u3
        (by
          intro hop
          rw [if_pos hop] at htot
          rw [b2]
          omega) s2 hs
      rw [hsame]
      exact ⟨b1, b2⟩

/-- Along a run that neither resumes nor terminates `t` and has no self-block,
a thread `t` that is `BLOCKED` without a positive deadline is left as it is. -/
theorem asleep_run_unset (t : Int) (ht0 : 0 ≤ t) (ops : List Op) :
    ∀ (s s1 : State), Inv s → (s.threads t).state = THREAD_BLOCKED →
      (s.threads t).sleep_until ≤ 0 →
      allOps (undisturbed t) s ops = true → run s ops = some s1 →
      Inv s1 ∧ s1.threads t = s.threads t := by
  induction ops with
  | nil =>
    intro s s1 hI _ _ _ h
    simp only [run, Option.some.injEq] at h
    rw [← h]; exact ⟨hI, rfl⟩
  | cons op ops ih =>
    intro s s1 hI hb hd ha h
    rw [run] at h
    rw [allOps, Bool.and_eq_true] at ha
    cases hs : step s op with
    | none => rw [hs] at h; cases h
    | some s2 =>
      rw [hs] at h ha
      obtain ⟨u1, u2, u3⟩ := (undisturbed_iff t s op).1 ha.1
      have hI2 := Inv_step hI op u1 s2 hs
      have hsame := blocked_thread_untouched hI t ht0 hb op u2 u3
        (fun _ hx => by omega) s2 hs
      obtain ⟨r1, r2⟩ := ih s2 s1 hI2 (by rw [hsame]; exact hb) (by rw [hsame]; exact hd) ha.2 h
      exact ⟨r1, r2.trans hsame⟩

/-! ## Accounting while the main thread runs -/

theorem wake_loop_quantums (n : Nat) (i : Int) (s : State) (u : Int) :
    ((wake_loop n i s).threads u).quantums = (s.threads u).quantums := by
  rw [wake_loop_threads]
  split <;> rfl

theorem wake_loop_unused (n : Nat) (i : Int) (s : State) (u : Int)
    (h : (s.threads u).state = THREAD_UNUSED) :
    ((wake_loop n i s).threads u).state = THREAD_UNUSED := by
  rw [wake_loop_threads_keep]
  · exact h
  · rw [h]
    intro hc
    cases hc.1

theorem OnMain_initState (pre : State) (usecs : Int) (hu : 0 < usecs) :
    OnMain (initState pre usecs) := by
  obtain ⟨h1, h2, _, _⟩ := initState_fields pre usecs hu
  have hth := initState_threads pre usecs hu
  refine ⟨Inv_initState pre usecs hu, h1, ?_, ?_⟩
  · rw [hth, if_pos rfl, h2]
  · intro i hi1 hi2
    left
    rw [hth, if_neg (by omega), if_pos ⟨by omega, hi2⟩]

theorem OnMain_step {s : State} (h : OnMain s) (op : Op) (s1 : State)
    (hs : step s op = some s1) (hc : s1.current_tid = 0) : OnMain s1 := by
  have hI := h.inv
  have hcur := h.cur
  cases op with
  | spawn e =>
    have hI1 := Inv_spawn hI e s1 hs
    simp only [step] at hs
    obtain ⟨r, s2, e1, _, _, e4, e5⟩ := uthread_spawn_effect s e
    rw [e1] at hs
    simp only [Outcome.next, Option.some.injEq] at hs
    subst hs
    by_cases hr : r = -1
    · rw [e4 hr]; exact h
    · obtain ⟨a1, _, _, _, a5, a6, _, a8, _⟩ := e5 hr
      refine ⟨hI1, hc, ?_, ?_⟩
      · rw [a6 0 (by omega), a8]; exact h.main_quantums
      · intro i hi1 hi2
        by_cases hi : i = r
        · right; rw [hi, a5]
        · rw [a6 i hi]; exact h.others i hi1 hi2
  | terminate tid =>
    have hI1 := Inv_terminate hI tid s1 hs
    simp only [step] at hs
    unfold uthread_terminate at hs
    split at hs
    · cases hs; exact h
    · split at hs
      · cases hs
      · rename_i h0
        rw [if_neg (by rw [hcur]; exact h0)] at hs
        simp only [Outcome.next, Option.some.injEq] at hs
        subst hs
        refine ⟨hI1, hc, ?_, ?_⟩
        · show (setT _ _ _ 0).quantums = _
          rw [setT_other _ _ _ _ (Ne.symm h0)]
          exact h.main_quantums
        · intro i hi1 hi2
          show (setT _ _ _ i).state = _ ∨ (setT _ _ _ i).quantums = _
          by_cases hi : i = tid
          · left; rw [hi, setT_same]
          · rw [setT_other _ _ _ _ hi]; exact h.others i hi1 hi2
  | block tid =>
    simp only [step] at hs
    unfold uthread_block at hs
    split at hs
    · cases hs; exact h
    · split at hs
      · cases hs; exact h
      · rename_i h0
        have hI1 := Inv_block hI tid (by rw [hcur]; exact h0) s1
          (by unfold uthread_block; rw [if_neg (by assumption), if_neg h0]; exact hs)
        split at hs
        · cases hs; exact h
        · simp only [Outcome.next, Option.some.injEq] at hs
          subst hs
          refine ⟨hI1, hc, ?_, ?_⟩
          · show (setT _ _ _ 0).quantums = _
            rw [setT_other _ _ _ _ (Ne.symm h0)]
            exact h.main_quantums
          · intro i hi1 hi2
            show (setT _ _ _ i).state = _ ∨ (setT _ _ _ i).quantums = _
            by_cases hi : i = tid
            · rw [hi, setT_same]
              rcases h.others tid (by omega) (by omega) with ho | ho
              · exact absurd (Or.inr (Or.inr ho)) (by assumption)
              · right; exact ho
            · rw [setT_other _ _ _ _ hi]; exact h.others i hi1 hi2
  | resume tid =>
    have hI1 := Inv_resume hI tid s1 hs
    simp only [step] at hs
    unfold uthread_resume at hs
    split at hs
    · cases hs; exact h
    · split at hs
      · cases hs; exact h
      · split at hs
        · rename_i hv hrr hb
          have h0 : tid ≠ 0 := by
            intro he
            rw [he] at hb
            rcases hI.main_live with hm | hm <;> rw [hm] at hb <;> cases hb
          simp only [Outcome.next, Option.some.injEq] at hs
          subst hs
          refine ⟨hI1, hc, ?_, ?_⟩
          · show (setT _ _ _ 0).quantums = _
            rw [setT_other _ _ _ _ (Ne.symm h0)]
            exact h.main_quantums
          · intro i hi1 hi2
            show (setT _ _ _ i).state = _ ∨ (setT _ _ _ i).quantums = _
            by_cases hi : i = tid
            · rw [hi, setT_same]
              rcases h.others tid (by omega) (by omega) with ho | ho
              · exact absurd (Or.inr (Or.inr ho)) hv
              · right; exact ho
            · rw [setT_other _ _ _ _ hi]; exact h.others i hi1 hi2
        · cases hs; exact h
  | sleep k =>
    simp only [step] at hs
    unfold uthread_sleep at hs
    rw [if_pos hcur] at hs
    cases hs; exact h
  | tick =>
    simp only [step, Option.some.injEq] at hs
    have hI1 : Inv s1 := by rw [← hs]; exact Inv_timer_handler hI
    have hI3 := Inv_wake_loop MAX_THREAD_NUM 0 _ (Inv_count_tick hI) (le_refl _) (by omega)
    have hc3 := wake_loop_current MAX_THREAD_NUM 0 (count_tick s)
    rw [count_tick_current, hcur] at hc3
    have ht3 := wake_loop_total MAX_THREAD_NUM 0 (count_tick s)
    rw [count_tick_total] at ht3
    have hq3 := wake_loop_quantums MAX_THREAD_NUM 0 (count_tick s)
    have hu3 := wake_loop_unused MAX_THREAD_NUM 0 (count_tick s)
    unfold timer_handler at hs
    generalize wake_loop MAX_THREAD_NUM 0 (count_tick s) = w at hs hI3 hc3 ht3 hq3 hu3
    have hd : (dequeue_ready w.rq).1 = -1 := by
      by_contra hne
      have hcc := schedule_next_current w
      rw [if_neg hne, hs, hc] at hcc
      rcases hl : w.rq.toList with _ | ⟨hd, tl⟩
      · rw [dequeue_ready_nil _ hI3.wf hl] at hne
        exact hne rfl
      · obtain ⟨q1, _, _⟩ := dequeue_ready_cons _ hI3.wf hd tl hl
        have hmem : hd ∈ w.rq.toList := by
          rw [hl]; exact List.mem_cons_self _ _
        rw [q1] at hcc
        have hnq := hI3.cur_not_queued
        rw [hc3, hcc] at hnq
        exact hnq hmem
    rw [schedule_next_idle _ hd] at hs
    have hth : s1.threads = w.threads := by rw [← hs]
    have htq : s1.total_quantums = w.total_quantums := by rw [← hs]
    have h0 : ((count_tick s).threads 0).quantums = (s.threads 0).quantums + 1 := by
      have := count_tick_threads_same s
      rw [hcur] at this
      rw [this]
    refine ⟨hI1, hc, ?_, ?_⟩
    · rw [hth, htq, hq3, ht3, h0, h.main_quantums]
    · intro i hi1 hi2
      rw [hth]
      have hi : i ≠ s.current_tid := by rw [hcur]; omega
      rcases h.others i hi1 hi2 with ho | ho
      · left
        apply hu3
        rw [count_tick_threads_other s i hi]; exact ho
      · right
        rw [hq3, count_tick_threads_other s i hi]; exact ho

theorem OnMain_run (ops : List Op) :
    ∀ (s s1 : State), OnMain s → allOps staysOnMain s ops = true → run s ops = some s1 →
      OnMain s1 := by
  induction ops with
  | nil =>
    intro s s1 hI _ h
    simp only [run, Option.some.injEq] at h
    rw [← h]; exact hI
  | cons op ops ih =>
    intro s s1 hI ha h
    rw [run] at h
    rw [allOps, Bool.and_eq_true] at ha
    cases hs : step s op with
    | none => rw [hs] at h; cases h
    | some s2 =>
      rw [hs] at h ha
      have hc : s2.current_tid = 0 := by
        have := ha.1
        unfold staysOnMain at this
        rw [hs] at this
        simpa using this
      exact ih s2 s1 (OnMain_step hI op s2 hs hc) ha.2 h

/-- The sum of a list of zeros. -/
theorem sum_map_eq_zero (l : List Nat) (f : Nat → Int) (h : ∀ i ∈ l, f i = 0) :
    (l.map f).sum = 0 := by
  induction l with
  | nil => rfl
  | cons a l ih =>
    rw [List.map_cons, List.sum_cons, h a (List.mem_cons_self _ _),
      ih (fun i hi => h i (List.mem_cons_of_mem _ hi)), add_zero]

theorem OnMain.liveQuantums_eq {s : State} (h : OnMain s) :
    liveQuantums s = s.total_quantums := by
  unfold liveQuantums
  have hN : MAX_THREAD_NUM = (MAX_THREAD_NUM - 1) + 1 := by rw [MAX_val]
  rw [hN, List.range_succ_eq_map, List.map_cons, List.sum_cons, List.map_map]
  rw [sum_map_eq_zero]
  · have h0 : (s.threads ((0 : Nat) : Int)).state ≠ THREAD_UNUSED := by
      show (s.threads 0).state ≠ _
      rcases h.inv.main_live with hm | hm <;> rw [hm] <;> intro hx <;> cases hx
    unfold slotQuantums
    rw [if_neg h0, add_zero]
    exact h.main_quantums
  · intro i hi
    rw [List.mem_range] at hi
    simp only [Function.comp]
    unfold slotQuantums
    rcases h.others ((i.succ : Nat) : Int) (by push_cast; omega)
      (by rw [MAX_val] at *; push_cast; omega) with ho | ho
    · rw [if_pos ho]
    · rw [ho]; simp

/-! ## Accounting in general: the sum of quantums never falls behind -/

theorem slotQuantums_of_live (t : thread_t) (h : t.state ≠ THREAD_UNUSED) :
    slotQuantums t = t.quantums := by
  unfold slotQuantums
  rw [if_neg h]

theorem slotQuantums_of_unused (t : thread_t) (h : t.state = THREAD_UNUSED) :
    slotQuantums t = 0 := by
  unfold slotQuantums
  rw [if_pos h]

/-- A sum grows by at least one when no term shrinks and one term grows. -/
theorem sum_map_add_one_le (l : List Nat) (f g : Nat → Int) (h : ∀ i ∈ l, f i ≤ g i)
    (j : Nat) (hj : j ∈ l) (hs : f j + 1 ≤ g j) : (l.map f).sum + 1 ≤ (l.map g).sum := by
  induction l with
  | nil => cases hj
  | cons a l ih =>
    rw [List.map_cons, List.sum_cons, List.map_cons, List.sum_cons]
    have hrest : (l.map f).sum ≤ (l.map g).sum :=
      List.sum_le_sum (fun i hi => h i (List.mem_cons_of_mem _ hi))
    rcases List.mem_cons.1 hj with hja | hjl
    · rw [hja] at hs
      omega
    · have h1 := ih (fun i hi => h i (List.mem_cons_of_mem _ hi)) hjl
      have h2 := h a (List.mem_cons_self _ _)
      omega

theorem liveQuantums_mono (s s1 : State)
    (h : ∀ i : Int, 0 ≤ i → i < MAX_THREAD_NUM →
      slotQuantums (s.threads i) ≤ slotQuantums (s1.threads i)) :
    liveQuantums s ≤ liveQuantums s1 := by
  unfold liveQuantums
  apply List.sum_le_sum
  intro i hi
  rw [List.mem_range] at hi
  exact h i (by omega) (by omega)

theorem liveQuantums_add_one_le (s s1 : State)
    (h : ∀ i : Int, 0 ≤ i → i < MAX_THREAD_NUM →
      slotQuantums (s.threads i) ≤ slotQuantums (s1.threads i))
    (j : Int) (hj : 0 ≤ j ∧ j < MAX_THREAD_NUM)
    (hs : slotQuantums (s.threads j) + 1 ≤ slotQuantums (s1.threads j)) :
    liveQuantums s + 1 ≤ liveQuantums s1 := by
  unfold liveQuantums
  have hjn : ((j.toNat : Nat) : Int) = j := Int.toNat_of_nonneg hj.1
  apply sum_map_add_one_le _ _ _ _ j.toNat
  · rw [List.mem_range]; omega
  · rw [hjn]; exact hs
  · intro i hi
    rw [List.mem_range] at hi
    exact h i (by omega) (by omega)

/-- The scheduler never lowers what a slot counts, on preemption. -/
theorem schedule_next_grows {s : State} (h : Inv s) (u : Int) :
    slotQuantums (s.threads u) ≤ slotQuantums ((schedule_next s).threads u) := by
  rcases hl : s.rq.toList with _ | ⟨hd, tl⟩
  · have hq := dequeue_ready_nil s.rq h.wf hl
    rw [schedule_next_idle s (by rw [hq])]
  · obtain ⟨h1, _, _⟩ := dequeue_ready_cons s.rq h.wf hd tl hl
    have hhd : hd ∈ s.rq.toList := by rw [hl]; exact List.mem_cons_self _ _
    have hhr := (h.queue_ready hd).1 hhd
    have hne : (dequeue_ready s.rq).1 ≠ -1 := by rw [h1]; omega
    have hdc : hd ≠ s.current_tid := by
      intro he
      rw [he] at hhd
      exact h.cur_not_queued hhd
    rw [schedule_next_preempt s hne h.cur_running, h1]
    show _ ≤ slotQuantums (setT (setT _ _ _) _ _ u)
    by_cases hu : u = hd
    · rw [hu, setT_same, setT_other _ _ _ _ hdc]
      rw [slotQuantums_of_live _ (by rw [hhr.2.2]; intro hx; cases hx),
        slotQuantums_of_live _ (by intro hx; cases hx)]
      show _ ≤ (s.threads hd).quantums + 1
      omega
    · rw [setT_other _ _ _ _ hu]
      by_cases hc : u = s.current_tid
      · rw [hc, setT_same]
        rw [slotQuantums_of_live _ (by rw [h.cur_running]; intro hx; cases hx),
          slotQuantums_of_live _ (by intro hx; cases hx)]
      · rw [setT_other _ _ _ _ hc]

/-- The scheduler never lowers what a slot counts, on a voluntary switch. -/
theorem schedule_next_grows_yield {s : State} (h : Yielding s) (u : Int) :
    slotQuantums (s.threads u) ≤ slotQuantums ((schedule_next s).threads u) := by
  rcases hl : s.rq.toList with _ | ⟨hd, tl⟩
  · exact absurd hl h.queue_ne_nil
  · obtain ⟨h1, _, _⟩ := dequeue_ready_cons s.rq h.wf hd tl hl
    have hhd : hd ∈ s.rq.toList := by rw [hl]; exact List.mem_cons_self _ _
    have hhr := (h.queue_ready hd).1 hhd
    have hne : (dequeue_ready s.rq).1 ≠ -1 := by rw [h1]; omega
    have hnr : (s.threads s.current_tid).state ≠ THREAD_RUNNING :=
      h.no_running _ h.cur_range.1 h.cur_range.2
    rw [schedule_next_yield s hne hnr, h1]
    show _ ≤ slotQuantums (setT _ _ _ u)
    by_cases hu : u = hd
    · rw [hu, setT_same]
      rw [slotQuantums_of_live _ (by rw [hhr.2.2]; intro hx; cases hx),
        slotQuantums_of_live _ (by intro hx; cases hx)]
      show _ ≤ (s.threads hd).quantums + 1
      omega
    · rw [setT_other _ _ _ _ hu]

theorem wake_loop_slotQuantums (n : Nat) (i : Int) (s : State) (u : Int) :
    slotQuantums ((wake_loop n i s).threads u) = slotQuantums (s.threads u) := by
  rw [wake_loop_threads]
  split
  · rename_i hc
    rw [slotQuantums_of_live _ (by intro hx; cases hx),
      slotQuantums_of_live _ (by rw [hc.2.1]; intro hx; cases hx)]
  · rfl

theorem noTerminate_iff (s : State) (op : Op) :
    noTerminate s op = true ↔ isSelfBlock s op = false ∧ ∀ tid, op ≠ Op.terminate tid := by
  cases op <;> simp [noTerminate, isSelfBlock]

/-- An event that is neither a `uthread_terminate` nor a self-block lowers the
count of no slot, and a timer tick raises the count of the thread it
interrupts. -/
theorem step_grows {s : State} (hI : Inv s) (op : Op) (hn : noTerminate s op = true)
    (s1 : State) (hs : step s op = some s1) :
    (∀ u : Int, slotQuantums (s.threads u) ≤ slotQuantums (s1.threads u)) ∧
    (op = Op.tick →
      slotQuantums (s.threads s.current_tid) + 1 ≤ slotQuantums (s1.threads s.current_tid)) := by
  obtain ⟨hsb, hnt⟩ := (noTerminate_iff s op).1 hn
  cases op with
  | spawn e =>
    refine ⟨?_, fun hx => by cases hx⟩
    simp only [step] at hs
    obtain ⟨r, s2, e1, _, _, e4, e5⟩ := uthread_spawn_effect s e
    rw [e1] at hs
    simp only [Outcome.next, Option.some.injEq] at hs
    subst hs
    intro u
    by_cases hr : r = -1
    · rw [e4 hr]
    · obtain ⟨_, _, a3, _, a5, a6, _⟩ := e5 hr
      by_cases hu : u = r
      · rw [hu, a5, slotQuantums_of_unused _ a3, slotQuantums_of_live _ (by intro hx; cases hx)]
      · rw [a6 u hu]
  | terminate tid => exact absurd rfl (hnt tid)
  | block tid =>
    refine ⟨?_, fun hx => by cases hx⟩
    have hc : tid ≠ s.current_tid := by simpa [isSelfBlock] using hsb
    simp only [step] at hs
    unfold uthread_block at hs
    split at hs
    · cases hs; exact fun u => le_refl _
    · rename_i hv
      split at hs
      · cases hs; exact fun u => le_refl _
      · split at hs
        · cases hs; exact fun u => le_refl _
        · simp only [Outcome.next, Option.some.injEq] at hs
          subst hs
          intro u
          show _ ≤ slotQuantums (setT _ _ _ u)
          by_cases hu : u = tid
          · rw [hu, setT_same, slotQuantums_of_live _ (fun hx => hv (Or.inr (Or.inr hx))),
              slotQuantums_of_live _ (by intro hx; cases hx)]
          · rw [setT_other _ _ _ _ hu]
  | resume tid =>
    refine ⟨?_, fun hx => by cases hx⟩
    simp only [step] at hs
    unfold uthread_resume at hs
    split at hs
    · cases hs; exact fun u => le_refl _
    · rename_i hv
      split at hs
      · cases hs; exact fun u => le_refl _
      · split at hs
        · simp only [Outcome.next, Option.some.injEq] at hs
          subst hs
          intro u
          show _ ≤ slotQuantums (setT _ _ _ u)
          by_cases hu : u = tid
          · rw [hu, setT_same, slotQuantums_of_live _ (fun hx => hv (Or.inr (Or.inr hx))),
              slotQuantums_of_live _ (by intro hx; cases hx)]
          · rw [setT_other _ _ _ _ hu]
        · cases hs; exact fun u => le_refl _
  | sleep k =>
    refine ⟨?_, fun hx => by cases hx⟩
    simp only [step] at hs
    unfold uthread_sleep at hs
    split at hs
    · cases hs; exact fun u => le_refl _
    · rename_i hc0
      split at hs
      · cases hs; exact fun u => le_refl _
      · simp only [Outcome.next, Option.some.injEq] at hs
        have hy : Yielding
            { threads := setT (setT s.threads s.current_tid
                  { s.threads s.current_tid with sleep_until := int_add s.total_quantums k })
                s.current_tid
                { setT s.threads s.current_tid
                    { s.threads s.current_tid with sleep_until := int_add s.total_quantums k }
                    s.current_tid with state := THREAD_BLOCKED }
              current_tid := s.current_tid
              total_quantums := s.total_quantums
              quantum_usecs := s.quantum_usecs
              rq := s.rq } := by
          refine hI.yield _ THREAD_BLOCKED hc0 (Or.inl rfl) ?_ _ _
          intro u
          by_cases hu : u = s.current_tid
          · rw [if_pos hu, hu, setT_same]
          · rw [if_neg hu, setT_other _ _ _ _ hu, setT_other _ _ _ _ hu]
        intro u
        rw [← hs]
        refine le_trans ?_ (schedule_next_grows_yield hy u)
        show _ ≤ slotQuantums (setT (setT _ _ _) _ _ u)
        by_cases hu : u = s.current_tid
        · rw [hu, setT_same, setT_same,
            slotQuantums_of_live _ (by rw [hI.cur_running]; intro hx; cases hx),
            slotQuantums_of_live _ (by intro hx; cases hx)]
        · rw [setT_other _ _ _ _ hu, setT_other _ _ _ _ hu]
  | tick =>
    simp only [step, Option.some.injEq] at hs
    have hI3 := Inv_wake_loop MAX_THREAD_NUM 0 _ (Inv_count_tick hI) (le_refl _) (by omega)
    have hq3 := wake_loop_slotQuantums MAX_THREAD_NUM 0 (count_tick s)
    unfold timer_handler at hs
    generalize wake_loop MAX_THREAD_NUM 0 (count_tick s) = w at hs hI3 hq3
    have hcur : slotQuantums ((count_tick s).threads s.current_tid)
        = slotQuantums (s.threads s.current_tid) + 1 := by
      rw [count_tick_threads_same,
        slotQuantums_of_live _ (by rw [hI.cur_running]; intro hx; cases hx),
        slotQuantums_of_live _ (by
          show (s.threads s.current_tid).state ≠ _
          rw [hI.cur_running]; intro hx; cases hx)]
    have key : ∀ u : Int, slotQuantums ((count_tick s).threads u) ≤
        slotQuantums (s1.threads u) := by
      intro u
      rw [← hs, ← hq3 u]
      exact schedule_next_grows hI3 u
    constructor
    · intro u
      refine le_trans ?_ (key u)
      by_cases hu : u = s.current_tid
      · rw [hu, hcur]; omega
      · rw [count_tick_threads_other s u hu]
    · intro _
      have := key s.current_tid
      rw [hcur] at this
      exact this

/-- Along a run without `uthread_terminate` and without self-block the sum of
the quantums of the live threads is never below `total_quantums`. -/
theorem run_grows (ops : List Op) :
    ∀ (s s1 : State), Inv s → s.total_quantums ≤ liveQuantums s →
      allOps noTerminate s ops = true → run s ops = some s1 →
      s1.total_quantums ≤ liveQuantums s1 := by
  induction ops with
  | nil =>
    intro s s1 _ hle _ h
    simp only [run, Option.some.injEq] at h
    rw [← h]; exact hle
  | cons op ops ih =>
    intro s s1 hI hle ha h
    rw [run] at h
    rw [allOps, Bool.and_eq_true] at ha
    cases hs : step s op with
    | none => rw [hs] at h; cases h
    | some s2 =>
      rw [hs] at h ha
      obtain ⟨hsb, _⟩ := (noTerminate_iff s op).1 ha.1
      obtain ⟨g1, g2⟩ := step_grows hI op ha.1 s2 hs
      have htot := step_total s op s2 hs
      refine ih s2 s1 (Inv_step hI op hsb s2 hs) ?_ ha.2 h
      by_cases hop : op = Op.tick
      · rw [if_pos hop] at htot
        have := liveQuantums_add_one_le s s2 (fun i _ _ => g1 i) s.current_tid hI.cur_range
          (g2 hop)
        omega
      · rw [if_neg hop] at htot
        have := liveQuantums_mono s s2 (fun i _ _ => g1 i)
        omega

/-! ## What holds in every reachable state -/

/-- An enqueue on a full ring makes it read as empty. -/
theorem toList_enqueue_ready_full (q : ReadyQueue) (tid : Int)
    (hs : q.size + 1 = MAX_THREAD_NUM) : (enqueue_ready q tid).toList = [] := by
  rw [← List.length_eq_zero, toList_length]
  unfold ReadyQueue.size at *
  simp only [enqueue_ready, MAX_val] at *
  omega

theorem mem_toList_enqueue_ready (q : ReadyQueue) (tid x : Int) (h : q.WF)
    (hx : x ∈ (enqueue_ready q tid).toList) : x ∈ q.toList ∨ x = tid := by
  have hlt := size_lt q
  by_cases hs : q.size + 1 < MAX_THREAD_NUM
  · rw [toList_enqueue_ready q tid h hs, List.mem_append, List.mem_singleton] at hx
    exact hx
  · rw [toList_enqueue_ready_full q tid (by omega)] at hx
    cases hx

theorem WeakInv_initState (pre : State) (usecs : Int) (hu : 0 < usecs) :
    WeakInv (initState pre usecs) := by
  have hI := Inv_initState pre usecs hu
  exact ⟨hI.wf, hI.cur_range, hI.running_unique, hI.main_live, hI.queue_range⟩

theorem Inv.weak {s : State} (h : Inv s) : WeakInv s :=
  ⟨h.wf, h.cur_range, h.running_unique, h.main_live, h.queue_range⟩

/-- The head of a queue whose identifiers are in range is not the sentinel. -/
theorem WeakInv.head_cases {s : State} (h : WeakInv s) :
    (s.rq.toList = [] ∧ dequeue_ready s.rq = (-1, s.rq)) ∨
    (∃ tl, s.rq.toList = (dequeue_ready s.rq).1 :: tl ∧
      (dequeue_ready s.rq).1 ≠ -1 ∧
      (0 ≤ (dequeue_ready s.rq).1 ∧ (dequeue_ready s.rq).1 < MAX_THREAD_NUM) ∧
      (dequeue_ready s.rq).2.toList = tl ∧ (dequeue_ready s.rq).2.WF) := by
  rcases hl : s.rq.toList with _ | ⟨hd, tl⟩
  · exact Or.inl ⟨rfl, dequeue_ready_nil s.rq h.wf hl⟩
  · obtain ⟨h1, h2, h3⟩ := dequeue_ready_cons s.rq h.wf hd tl hl
    have hr := h.queue_range hd (by rw [hl]; exact List.mem_cons_self _ _)
    right
    refine ⟨tl, by rw [h1], by rw [h1]; omega, by rw [h1]; exact hr, h2, h3⟩

theorem WeakInv_schedule_next {s : State} (h : WeakInv s) : WeakInv (schedule_next s) := by
  rcases h.head_cases with ⟨_, hq⟩ | ⟨tl, hl, hne, hr, htl, hw⟩
  · rw [schedule_next_idle s (by rw [hq]), hq]
    exact h
  · have htlr : ∀ x ∈ tl, 0 ≤ x ∧ x < MAX_THREAD_NUM := fun x hx =>
      h.queue_range x (by rw [hl]; exact List.mem_cons_of_mem _ hx)
    by_cases hrun : (s.threads s.current_tid).state = THREAD_RUNNING
    · rw [schedule_next_preempt s hne hrun]
      refine ⟨enqueue_ready_WF _ _ hw, hr, ?_, ?_, ?_⟩
      · intro t ht0 ht1 ht
        change (setT (setT _ _ _) _ _ t).state = _ at ht
        by_contra hne2
        rw [setT_other _ _ _ _ hne2] at ht
        by_cases hc : t = s.current_tid
        · rw [hc, setT_same] at ht
          cases ht
        · rw [setT_other _ _ _ _ hc] at ht
          exact hc (h.running_cur t ht0 ht1 ht)
      · show (setT (setT _ _ _) _ _ 0).state = _ ∨ (setT (setT _ _ _) _ _ 0).state = _
        by_cases h0 : (0 : Int) = (dequeue_ready s.rq).1
        · left; rw [← h0, setT_same]
        · rw [setT_other _ _ _ _ h0]
          by_cases hc : (0 : Int) = s.current_tid
          · right; rw [← hc, setT_same]
          · rw [setT_other _ _ _ _ hc]; exact h.main_live
      · intro x hx
        rcases mem_toList_enqueue_ready _ _ _ hw hx with hx1 | hx1
        · rw [htl] at hx1; exact htlr x hx1
        · rw [hx1]; exact h.cur_range
    · rw [schedule_next_yield s hne hrun]
      refine ⟨hw, hr, ?_, ?_, ?_⟩
      · intro t ht0 ht1 ht
        change (setT _ _ _ t).state = _ at ht
        by_contra hne2
        rw [setT_other _ _ _ _ hne2] at ht
        have := h.running_cur t ht0 ht1 ht
        rw [this] at ht
        exact hrun ht
      · show (setT _ _ _ 0).state = _ ∨ (setT _ _ _ 0).state = _
        by_cases h0 : (0 : Int) = (dequeue_ready s.rq).1
        · left; rw [← h0, setT_same]
        · rw [setT_other _ _ _ _ h0]; exact h.main_live
      · intro x hx
        rw [htl] at hx; exact htlr x hx

/-- Writing a state other than `RUNNING` into one slot other than the main
thread's, with the queue unchanged or shrunk. -/
theorem WeakInv.write_slot {s : State} (h : WeakInv s) (t : Int) (v : thread_t) (q : ReadyQueue)
    (ht0 : t ≠ 0 ∨ v.state = THREAD_READY) (hv : v.state ≠ THREAD_RUNNING) (hw : q.WF)
    (hq : ∀ x ∈ q.toList, 0 ≤ x ∧ x < MAX_THREAD_NUM) (tq uq : Int) :
    WeakInv { threads := setT s.threads t v, current_tid := s.current_tid,
              total_quantums := tq, quantum_usecs := uq, rq := q } := by
  refine ⟨hw, h.cur_range, ?_, ?_, hq⟩
  · intro u hu0 hu1 hu
    change (setT _ _ _ u).state = _ at hu
    by_cases hut : u = t
    · rw [hut, setT_same] at hu
      exact absurd hu hv
    · rw [setT_other _ _ _ _ hut] at hu
      exact h.running_cur u hu0 hu1 hu
  · show (setT _ _ _ 0).state = _ ∨ (setT _ _ _ 0).state = _
    by_cases h0 : (0 : Int) = t
    · rw [← h0, setT_same]
      rcases ht0 with h1 | h1
      · exact absurd h0.symm h1
      · exact Or.inr h1
    · rw [setT_other _ _ _ _ h0]; exact h.main_live

theorem WeakInv.enqueue_range {s : State} (h : WeakInv s) (t : Int)
    (ht : 0 ≤ t ∧ t < MAX_THREAD_NUM) :
    ∀ x ∈ (enqueue_ready s.rq t).toList, 0 ≤ x ∧ x < MAX_THREAD_NUM := by
  intro x hx
  rcases mem_toList_enqueue_ready _ _ _ h.wf hx with hx1 | hx1
  · exact h.queue_range x hx1
  · rw [hx1]; exact ht

theorem WeakInv.remove_range {s : State} (h : WeakInv s) (t : Int) :
    (remove_from_ready_queue s.rq t).WF ∧
    ∀ x ∈ (remove_from_ready_queue s.rq t).toList, 0 ≤ x ∧ x < MAX_THREAD_NUM := by
  obtain ⟨hl, hw⟩ := remove_from_ready_queue_spec s.rq t h.wf
  refine ⟨hw, ?_⟩
  intro x hx
  rw [hl] at hx
  exact h.queue_range x (List.mem_of_mem_filter hx)

theorem WeakInv_spawn {s : State} (h : WeakInv s) (e : Nat) (s1 : State)
    (hs : (uthread_spawn s e).next = some s1) : WeakInv s1 := by
  unfold uthread_spawn at hs
  split at hs
  · cases hs; exact h
  · simp only at hs
    split at hs
    · cases hs; exact h
    · simp only [Outcome.next, Option.some.injEq] at hs
      rw [← hs]
      rcases find_unused_cases s.threads with hf | ⟨h1, h2⟩
      · rename_i hne; exact absurd hf hne
      · exact h.write_slot _ _ _ (Or.inr rfl) (by intro hx; cases hx) (enqueue_ready_WF _ _ h.wf)
          (h.enqueue_range _ ⟨by omega, h2⟩) _ _

theorem WeakInv_resume {s : State} (h : WeakInv s) (tid : Int) (s1 : State)
    (hs : (uthread_resume s tid).next = some s1) : WeakInv s1 := by
  unfold uthread_resume at hs
  split at hs
  · cases hs; exact h
  · rename_i hv
    split at hs
    · cases hs; exact h
    · split at hs
      · simp only [Outcome.next, Option.some.injEq] at hs
        rw [← hs]
        exact h.write_slot _ _ _ (Or.inr rfl) (by intro hx; cases hx) (enqueue_ready_WF _ _ h.wf)
          (h.enqueue_range _ ⟨by omega, by omega⟩) _ _
      · cases hs; exact h

theorem WeakInv_block {s : State} (h : WeakInv s) (tid : Int) (s1 : State)
    (hs : (uthread_block s tid).next = some s1) : WeakInv s1 := by
  unfold uthread_block at hs
  split at hs
  · cases hs; exact h
  · split at hs
    · cases hs; exact h
    · rename_i h0
      split at hs
      · cases hs; exact h
      · simp only [Outcome.next, Option.some.injEq] at hs
        rw [← hs]
        split
        · exact h.write_slot _ _ _ (Or.inl h0) (by intro hx; cases hx) (h.remove_range tid).1
            (h.remove_range tid).2 _ _
        · exact h.write_slot _ _ _ (Or.inl h0) (by intro hx; cases hx) h.wf h.queue_range _ _

theorem WeakInv_terminate {s : State} (h : WeakInv s) (tid : Int) (s1 : State)
    (hs : (uthread_terminate s tid).next = some s1) : WeakInv s1 := by
  unfold uthread_terminate at hs
  split at hs
  · cases hs; exact h
  · split at hs
    · cases hs
    · rename_i h0
      split at hs
      · rename_i hc
        simp only at hs
        split at hs
        · cases hs
        · rename_i hne
          simp only [Outcome.next, Option.some.injEq, enter_eq] at hs
          rw [← hs]
          rcases h.head_cases with ⟨_, hq⟩ | ⟨tl, hl, _, hr, htl, hw⟩
          · rw [hq] at hne; exact absurd rfl hne
          · refine ⟨hw, hr, ?_, ?_, ?_⟩
            · intro t ht0 ht1 ht
              change (setT (setT _ _ _) _ _ t).state = _ at ht
              by_contra hne2
              rw [setT_other _ _ _ _ hne2] at ht
              by_cases htt : t = tid
              · rw [htt, setT_same] at ht
                cases ht
              · rw [setT_other _ _ _ _ htt] at ht
                exact htt ((h.running_cur t ht0 ht1 ht).trans hc.symm)
            · show (setT (setT _ _ _) _ _ 0).state = _ ∨ (setT (setT _ _ _) _ _ 0).state = _
              by_cases h1 : (0 : Int) = (dequeue_ready s.rq).1
              · left; rw [← h1, setT_same]
              · rw [setT_other _ _ _ _ h1, setT_other _ _ _ _ (Ne.symm h0)]
                exact h.main_live
            · intro x hx
              rw [htl] at hx
              exact h.queue_range x (by rw [hl]; exact List.mem_cons_of_mem _ hx)
      · simp only [Outcome.next, Option.some.injEq] at hs
        rw [← hs]
        split
        · exact h.write_slot _ _ _ (Or.inl h0) (by intro hx; cases hx) (h.remove_range tid).1
            (h.remove_range tid).2 _ _
        · exact h.write_slot _ _ _ (Or.inl h0) (by intro hx; cases hx) h.wf h.queue_range _ _

theorem WeakInv_sleep {s : State} (h : WeakInv s) (k : Int) (s1 : State)
    (hs : (uthread_sleep s k).next = some s1) : WeakInv s1 := by
  unfold uthread_sleep at hs
  split at hs
  · cases hs; exact h
  · rename_i hc0
    split at hs
    · cases hs; exact h
    · simp only [Outcome.next, Option.some.injEq] at hs
      rw [← hs]
      apply WeakInv_schedule_next
      rw [setT_setT]
      exact h.write_slot _ _ _ (Or.inl hc0) (by intro hx; cases hx) h.wf h.queue_range _ _

theorem WeakInv_wake_one {s : State} (h : WeakInv s) (i : Int)
    (hi : 0 ≤ i ∧ i < MAX_THREAD_NUM) : WeakInv (wake_one s i) := by
  unfold wake_one
  split
  · simp only
    rw [setT_setT]
    exact h.write_slot _ _ _ (Or.inr rfl) (by intro hx; cases hx) (enqueue_ready_WF _ _ h.wf)
      (h.enqueue_range _ hi) _ _
  · exact h

theorem WeakInv_wake_loop (n : Nat) :
    ∀ (i : Int) (s : State), WeakInv s → 0 ≤ i → i + n ≤ MAX_THREAD_NUM →
      WeakInv (wake_loop n i s) := by
  induction n with
  | zero => intro i s h _ _; exact h
  | succ n ih =>
    intro i s h hi hn
    rw [wake_loop]
    push_cast at hn
    exact ih (i + 1) _ (WeakInv_wake_one h i ⟨hi, by omega⟩) (by omega) (by omega)

theorem WeakInv_count_tick {s : State} (h : WeakInv s) : WeakInv (count_tick s) := by
  refine ⟨h.wf, h.cur_range, ?_, ?_, h.queue_range⟩
  · intro t ht0 ht1 ht
    rw [count_tick_state] at ht
    exact h.running_cur t ht0 ht1 ht
  · rw [count_tick_state]; exact h.main_live

theorem WeakInv_timer_handler {s : State} (h : WeakInv s) : WeakInv (timer_handler s) := by
  unfold timer_handler
  apply WeakInv_schedule_next
  exact WeakInv_wake_loop _ _ _ (WeakInv_count_tick h) (le_refl _) (by omega)

/-- Every event keeps the weak invariant. -/
theorem WeakInv_step {s : State} (h : WeakInv s) (op : Op) (s1 : State)
    (hs : step s op = some s1) : WeakInv s1 := by
  cases op with
  | spawn e => exact WeakInv_spawn h e s1 hs
  | terminate tid => exact WeakInv_terminate h tid s1 hs
  | block tid => exact WeakInv_block h tid s1 hs
  | resume tid => exact WeakInv_resume h tid s1 hs
  | sleep k => exact WeakInv_sleep h k s1 hs
  | tick =>
    simp only [step, Option.some.injEq] at hs
    rw [← hs]; exact WeakInv_timer_handler h

theorem WeakInv_run (ops : List Op) :
    ∀ (s s1 : State), WeakInv s → run s ops = some s1 → WeakInv s1 := by
  induction ops with
  | nil =>
    intro s s1 hI h
    simp only [run, Option.some.injEq] at h
    rw [← h]; exact hI
  | cons op ops ih =>
    intro s s1 hI h
    rw [run] at h
    cases hs : step s op with
    | none => rw [hs] at h; cases h
    | some s2 =>
      rw [hs] at h
      exact ih s2 s1 (WeakInv_step hI op s2 hs) h

/-- The weak invariant holds in every reachable state. -/
theorem WeakInv_of_reachable {s : State} (h : Reachable s) : WeakInv s := by
  obtain ⟨usecs, ops, hu, hr⟩ := h
  exact WeakInv_run ops _ s (WeakInv_initState boot usecs hu) hr

/-! ## Ticks counted by `total_quantums` -/

theorem run_total_count (ops : List Op) :
    ∀ (s s1 : State), run s ops = some s1 →
      s1.total_quantums = s.total_quantums + ops.count Op.tick := by
  induction ops with
  | nil =>
    intro s s1 h
    simp only [run, Option.some.injEq] at h
    subst h; simp
  | cons op ops ih =>
    intro s s1 h
    rw [run] at h
    cases hs : step s op with
    | none => rw [hs] at h; cases h
    | some s2 =>
      rw [hs] at h
      have h1 := ih s2 s1 h
      have h2 := step_total s op s2 hs
      rw [h1, h2, List.count_cons]
      by_cases ht : op = Op.tick
      · subst ht; simp; omega
      · rw [if_neg ht]
        have : (op == Op.tick) = false := by simpa using ht
        rw [this]; simp

/-! ## The ring buffer against the list FIFO -/

theorem filter_ne_eq_erase (a : Int) (l : List Int) (h : l.count a ≤ 1) :
    l.filter (fun x => x ≠ a) = l.erase a := by
  induction l with
  | nil => rfl
  | cons x xs ih =>
    by_cases hx : x = a
    · subst hx
      rw [List.count_cons_self] at h
      have h0 : xs.count x = 0 := by omega
      have hn : x ∉ xs := List.count_eq_zero.mp h0
      rw [List.erase_cons_head, List.filter_cons_of_neg (by simp)]
      rw [List.filter_eq_self]
      intro y hy
      have : y ≠ x := fun e => hn (e ▸ hy)
      simpa using this
    · rw [List.count_cons_of_ne (fun e => hx e.symm)] at h
      rw [List.filter_cons_of_pos (by simpa using hx), ih h, List.erase_cons_tail]
      simpa using hx

theorem fifo_fits_length (cs : List QueueCall) (l : List Int) (h : fifo_fits l cs = true) :
    l.length ≤ MAX_THREAD_NUM - 1 := by
  cases cs with
  | nil => simpa [fifo_fits] using h
  | cons c cs =>
    cases c with
    | enqueue tid =>
      rw [fifo_fits, Bool.and_eq_true] at h
      simpa using h.1
    | dequeue =>
      rw [fifo_fits, Bool.and_eq_true] at h
      simpa using h.1

theorem ring_calls_eq_fifo_calls (cs : List QueueCall) :
    ∀ (q : ReadyQueue) (l : List Int), q.WF → q.toList = l → fifo_fits l cs = true →
      (ring_calls q cs).1 = (fifo_calls l cs).1 ∧
      (ring_calls q cs).2.toList = (fifo_calls l cs).2 ∧ (ring_calls q cs).2.WF := by
  induction cs with
  | nil =>
    intro q l hw hl _
    exact ⟨rfl, hl, hw⟩
  | cons c cs ih =>
    intro q l hw hl hf
    cases c with
    | enqueue tid =>
      rw [fifo_fits, Bool.and_eq_true] at hf
      have hlen := fifo_fits_length cs _ hf.2
      rw [fifo_enqueue, List.length_append, List.length_singleton] at hlen
      have hs : q.size + 1 < MAX_THREAD_NUM := by
        have := toList_length q
        rw [hl] at this
        rw [MAX_val] at *
        omega
      have he := toList_enqueue_ready q tid hw hs
      rw [hl] at he
      exact ih (enqueue_ready q tid) (fifo_enqueue l tid) (enqueue_ready_WF q tid hw) he hf.2
    | dequeue =>
      rw [fifo_fits, Bool.and_eq_true] at hf
      cases l with
      | nil =>
        have hd := dequeue_ready_nil q hw hl
        obtain ⟨h1, h2, h3⟩ := ih q [] hw hl hf.2
        show (dequeue_ready q).1 :: (ring_calls (dequeue_ready q).2 cs).1 = _ ∧
          (ring_calls (dequeue_ready q).2 cs).2.toList = _ ∧
          (ring_calls (dequeue_ready q).2 cs).2.WF
        rw [hd]
        exact ⟨congrArg (List.cons (-1)) h1, h2, h3⟩
      | cons hd tl =>
        obtain ⟨d1, d2, d3⟩ := dequeue_ready_cons q hw hd tl hl
        obtain ⟨h1, h2, h3⟩ := ih (dequeue_ready q).2 tl d3 d2 hf.2
        show (dequeue_ready q).1 :: (ring_calls (dequeue_ready q).2 cs).1 = _ ∧
          (ring_calls (dequeue_ready q).2 cs).2.toList = _ ∧
          (ring_calls (dequeue_ready q).2 cs).2.WF
        rw [d1]
        exact ⟨congrArg (List.cons hd) h1, h2, h3⟩

/-! ## The scheduling step -/

/-- What `schedule_next` does to a state whose queue indices are in range. -/
theorem schedule_next_effect (s : State) (hw : s.rq.WF) :
    (s.rq.toList = [] → schedule_next s = s) ∧
    (∀ (h : Int) (tl : List Int), s.rq.toList = h :: tl → h ≠ -1 →
      (schedule_next s).current_tid = h ∧
      (schedule_next s).total_quantums = s.total_quantums ∧
      (schedule_next s).threads h =
        { s.threads h with state := THREAD_RUNNING, quantums := (s.threads h).quantums + 1 } ∧
      (∀ u : Int, u ≠ h → u ≠ s.current_tid →
        (schedule_next s).threads u = s.threads u) ∧
      ((s.threads s.current_tid).state = THREAD_RUNNING →
        (schedule_next s).rq.toList = tl ++ [s.current_tid] ∧
        (s.current_tid ≠ h → (schedule_next s).threads s.current_tid =
          { s.threads s.current_tid with state := THREAD_READY })) ∧
      ((s.threads s.current_tid).state ≠ THREAD_RUNNING →
        (schedule_next s).rq.toList = tl ∧
        (s.current_tid ≠ h →
          (schedule_next s).threads s.current_tid = s.threads s.current_tid))) := by
  constructor
  · intro he
    have hd := dequeue_ready_nil s.rq hw he
    rw [schedule_next_idle s (by rw [hd]), hd]
  · intro h tl he hne
    obtain ⟨d1, d2, d3⟩ := dequeue_ready_cons s.rq hw h tl he
    have hd : (dequeue_ready s.rq).1 ≠ -1 := by rw [d1]; exact hne
    have hsz : (dequeue_ready s.rq).2.size + 1 < MAX_THREAD_NUM := by
      have a1 := toList_length (dequeue_ready s.rq).2
      have a2 := toList_length s.rq
      have a3 := size_lt s.rq
      rw [d2] at a1
      rw [he, List.length_cons] at a2
      omega
    by_cases hr : (s.threads s.current_tid).state = THREAD_RUNNING
    · rw [schedule_next_preempt s hd hr, d1]
      refine ⟨rfl, rfl, ?_, ?_, ?_, fun hn => absurd hr hn⟩
      · show setT _ _ _ h = _
        rw [setT_same]
        by_cases hc : h = s.current_tid
        · rw [hc, setT_same]
        · rw [setT_other _ _ _ _ hc]
      · intro u hu1 hu2
        show setT _ _ _ u = _
        rw [setT_other _ _ _ _ hu1, setT_other _ _ _ _ hu2]
      · intro _
        refine ⟨?_, ?_⟩
        · show (enqueue_ready (dequeue_ready s.rq).2 s.current_tid).toList = _
          rw [toList_enqueue_ready _ _ d3 hsz, d2]
        · intro hc
          show setT _ _ _ s.current_tid = _
          rw [setT_other _ _ _ _ hc, setT_same]
    · rw [schedule_next_yield s hd hr, d1]
      refine ⟨rfl, rfl, ?_, ?_, fun hn => absurd hn hr, ?_⟩
      · show setT _ _ _ h = _
        rw [setT_same]
      · intro u hu1 _
        show setT _ _ _ u = _
        rw [setT_other _ _ _ _ hu1]
      · intro _
        refine ⟨d2, ?_⟩
        intro hc
        show setT _ _ _ s.current_tid = _
        rw [setT_other _ _ _ _ hc]

/-! ## Deadlines and states -/

theorem Rested.awake {s : State} (h : Rested s) (t : Int)
    (ht : (s.threads t).state = THREAD_READY ∨ (s.threads t).state = THREAD_RUNNING) :
    (s.threads t).sleep_until ≤ 0 := by
  by_contra hn
  rcases h t (by omega) with h1 | h1 <;> rcases ht with h2 | h2 <;> rw [h1] at h2 <;> cases h2

theorem Rested_schedule_next (s : State) (hw : s.rq.WF)
    (hq : ∀ t ∈ s.rq.toList, 0 ≤ t ∧ (s.threads t).state = THREAD_READY)
    (hR : Rested s) : Rested (schedule_next s) := by
  obtain ⟨e1, e2⟩ := schedule_next_effect s hw
  cases hl : s.rq.toList with
  | nil => rw [e1 hl]; exact hR
  | cons h tl =>
    have hh := hq h (by rw [hl]; exact List.mem_cons_self _ _)
    obtain ⟨_, _, a3, a4, a5, a6⟩ := e2 h tl hl (by omega)
    have hsl := hR.awake h (Or.inl hh.2)
    intro t ht
    by_cases hth : t = h
    · rw [hth, a3] at ht
      exact absurd ht (by show ¬ (s.threads h).sleep_until > 0; omega)
    · by_cases htc : t = s.current_tid
      · by_cases hr : (s.threads s.current_tid).state = THREAD_RUNNING
        · have := hR.awake _ (Or.inr hr)
          rw [htc, (a5 hr).2 (fun e => hth (htc.trans e))] at ht
          exact absurd ht (by show ¬ (s.threads s.current_tid).sleep_until > 0; omega)
        · rw [htc, (a6 hr).2 (fun e => hth (htc.trans e))] at ht ⊢
          exact hR _ ht
      · rw [a4 t hth htc] at ht ⊢
        exact hR t ht

/-- Writing a slot that is `BLOCKED`, `UNUSED` or without deadline. -/
theorem Rested.set_slot {s : State} (h : Rested s) (t : Int) (v : thread_t)
    (hv : v.sleep_until > 0 → v.state = THREAD_BLOCKED ∨ v.state = THREAD_UNUSED)
    (c tq uq : Int) (q : ReadyQueue) :
    Rested { threads := setT s.threads t v, current_tid := c,
             total_quantums := tq, quantum_usecs := uq, rq := q } := by
  intro u hu
  change (setT _ _ _ u).sleep_until > 0 at hu
  show (setT _ _ _ u).state = _ ∨ (setT _ _ _ u).state = _
  by_cases hut : u = t
  · rw [hut, setT_same] at hu ⊢
    exact hv hu
  · rw [setT_other _ _ _ _ hut] at hu ⊢
    exact h u hu

theorem Rested_initState (usecs : Int) (hu : 0 < usecs) : Rested (initState boot usecs) := by
  intro t ht
  rw [initState_threads boot usecs hu] at ht
  have hb : (boot.threads t).sleep_until = 0 := rfl
  have h0 : (boot.threads 0).sleep_until = 0 := rfl
  exfalso
  split at ht
  · change (boot.threads 0).sleep_until > 0 at ht
    omega
  · split at ht
    · change (boot.threads t).sleep_until > 0 at ht
      omega
    · omega

theorem Rested_spawn {s : State} (h : Rested s) (e : Nat) (s1 : State)
    (hs : (uthread_spawn s e).next = some s1) : Rested s1 := by
  unfold uthread_spawn at hs
  split at hs
  · cases hs; exact h
  · simp only at hs
    split at hs
    · cases hs; exact h
    · simp only [Outcome.next, Option.some.injEq] at hs
      rw [← hs]
      refine h.set_slot _ _ (fun hx => ?_) _ _ _ _
      change (0 : Int) > 0 at hx
      omega

theorem Rested_resume {s : State} (h : Rested s) (tid : Int)
    (hop : (s.threads tid).sleep_until ≤ 0) (s1 : State)
    (hs : (uthread_resume s tid).next = some s1) : Rested s1 := by
  unfold uthread_resume at hs
  split at hs
  · cases hs; exact h
  · split at hs
    · cases hs; exact h
    · split at hs
      · simp only [Outcome.next, Option.some.injEq] at hs
        rw [← hs]
        refine h.set_slot _ _ (fun hx => ?_) _ _ _ _
        change (s.threads tid).sleep_until > 0 at hx
        omega
      · cases hs; exact h

theorem Rested_block {s : State} (h : Rested s) (tid : Int) (s1 : State)
    (hs : (uthread_block s tid).next = some s1) : Rested s1 := by
  unfold uthread_block at hs
  split at hs
  · cases hs; exact h
  · split at hs
    · cases hs; exact h
    · split at hs
      · cases hs; exact h
      · simp only [Outcome.next, Option.some.injEq] at hs
        rw [← hs]
        exact h.set_slot _ _ (fun _ => Or.inl rfl) _ _ _ _

theorem Rested_terminate {s : State} (hI : Inv s) (h : Rested s) (tid : Int) (s1 : State)
    (hs : (uthread_terminate s tid).next = some s1) : Rested s1 := by
  unfold uthread_terminate at hs
  split at hs
  · cases hs; exact h
  · split at hs
    · cases hs
    · split at hs
      · rename_i hc
        simp only at hs
        split at hs
        · cases hs
        · rename_i hne
          simp only [Outcome.next, Option.some.injEq, enter_eq] at hs
          rw [← hs]
          have hW := hI.weak
          rcases hW.head_cases with ⟨_, hq⟩ | ⟨tl, hl, _, _, _, _⟩
          · rw [hq] at hne; exact absurd rfl hne
          · have hrd := hI.queue_states _ (by rw [hl]; exact List.mem_cons_self _ _)
            have hsl := h.awake _ (Or.inl hrd)
            have hnc : (dequeue_ready s.rq).1 ≠ tid := by
              intro e
              apply hI.cur_not_queued
              rw [← hc, ← e, hl]
              exact List.mem_cons_self _ _
            intro u hu
            change (setT (setT _ _ _) _ _ u).sleep_until > 0 at hu
            show (setT (setT _ _ _) _ _ u).state = _ ∨ (setT (setT _ _ _) _ _ u).state = _
            by_cases hun : u = (dequeue_ready s.rq).1
            · rw [hun, setT_same] at hu
              change (setT _ _ _ _).sleep_until > 0 at hu
              rw [setT_other _ _ _ _ hnc] at hu
              omega
            · rw [setT_other _ _ _ _ hun] at hu ⊢
              by_cases hut : u = tid
              · rw [hut, setT_same]
                exact Or.inr rfl
              · rw [setT_other _ _ _ _ hut] at hu ⊢
                exact h u hu
      · simp only [Outcome.next, Option.some.injEq] at hs
        rw [← hs]
        exact h.set_slot _ _ (fun _ => Or.inr rfl) _ _ _ _

theorem Rested_sleep {s : State} (hI : Inv s) (h : Rested s) (k : Int) (s1 : State)
    (hs : (uthread_sleep s k).next = some s1) : Rested s1 := by
  unfold uthread_sleep at hs
  by_cases h0 : s.current_tid = 0
  · rw [if_pos h0] at hs
    cases hs; exact h
  · rw [if_neg h0] at hs
    by_cases hk : k ≤ 0
    · rw [if_pos hk] at hs
      cases hs; exact h
    · rw [if_neg hk] at hs
      simp only [Outcome.next, Option.some.injEq] at hs
      rw [← hs]
      apply Rested_schedule_next
      · exact hI.wf
      · intro t ht
        change t ∈ s.rq.toList at ht
        have htc : t ≠ s.current_tid := fun e => hI.cur_not_queued (e ▸ ht)
        refine ⟨((hI.queue_ready t).mp ht).1, ?_⟩
        show (setT (setT _ _ _) _ _ t).state = _
        rw [setT_other _ _ _ _ htc, setT_other _ _ _ _ htc]
        exact hI.queue_states t ht
      · rw [setT_setT]
        exact h.set_slot _ _ (fun _ => Or.inl rfl) _ _ _ _

theorem Rested_count_tick {s : State} (h : Rested s) : Rested (count_tick s) := by
  intro u hu
  rw [count_tick_state]
  by_cases hc : u = s.current_tid
  · rw [hc, count_tick_threads_same] at hu
    rw [hc]
    exact h _ hu
  · rw [count_tick_threads_other s u hc] at hu
    exact h u hu

theorem Rested_wake_loop (n : Nat) (i : Int) {s : State} (h : Rested s) :
    Rested (wake_loop n i s) := by
  intro u hu
  rw [wake_loop_threads] at hu ⊢
  split at hu
  · change (0 : Int) > 0 at hu
    omega
  · rename_i hn
    rw [if_neg hn]
    exact h u hu

theorem Rested_timer_handler {s : State} (hI : Inv s) (h : Rested s) :
    Rested (timer_handler s) := by
  unfold timer_handler
  have hIw : Inv (wake_loop MAX_THREAD_NUM 0 (count_tick s)) :=
    Inv_wake_loop _ _ _ (Inv_count_tick hI) (le_refl _) (by omega)
  apply Rested_schedule_next _ hIw.wf
  · intro t ht
    exact ⟨((hIw.queue_ready t).mp ht).1, hIw.queue_states t ht⟩
  · exact Rested_wake_loop _ _ (Rested_count_tick h)

theorem noEarlyResume_noSelfBlock (s : State) (op : Op) (h : noEarlyResume s op = true) :
    isSelfBlock s op = false := by
  cases op <;> simp_all [noEarlyResume, isSelfBlock]

theorem Rested_step {s : State} (hI : Inv s) (h : Rested s) (op : Op)
    (hop : noEarlyResume s op = true) (s1 : State) (hs : step s op = some s1) :
    Rested s1 := by
  cases op with
  | spawn e => exact Rested_spawn h e s1 hs
  | terminate tid => exact Rested_terminate hI h tid s1 hs
  | block tid => exact Rested_block h tid s1 hs
  | resume tid =>
    refine Rested_resume h tid ?_ s1 hs
    simpa [noEarlyResume] using hop
  | sleep k => exact Rested_sleep hI h k s1 hs
  | tick =>
    simp only [step, Option.some.injEq] at hs
    rw [← hs]; exact Rested_timer_handler hI h

theorem Rested_run (ops : List Op) :
    ∀ (s s1 : State), Inv s → Rested s → allOps noEarlyResume s ops = true →
      run s ops = some s1 → Inv s1 ∧ Rested s1 := by
  induction ops with
  | nil =>
    intro s s1 hI hR _ h
    simp only [run, Option.some.injEq] at h
    rw [← h]; exact ⟨hI, hR⟩
  | cons op ops ih =>
    intro s s1 hI hR ha h
    rw [run] at h
    cases hs : step s op with
    | none => rw [hs] at h; cases h
    | some s2 =>
      rw [hs] at h
      rw [allOps, hs, Bool.and_eq_true] at ha
      exact ih s2 s1 (Inv_step hI op (noEarlyResume_noSelfBlock s op ha.1) s2 hs)
        (Rested_step hI hR op ha.1 s2 hs) ha.2 h

/-! ## The wake-up scan of the timer handler -/

theorem due_iff (s : State) (i : Int) :
    due s i = true ↔ ((s.threads i).state = THREAD_BLOCKED ∧ (s.threads i).sleep_until > 0 ∧
      (s.threads i).sleep_until ≤ s.total_quantums) := by
  unfold due
  exact decide_eq_true_iff

theorem wake_one_eq (s : State) (i : Int) :
    wake_one s i =
      if due s i = true then
        { threads := setT s.threads i { s.threads i with sleep_until := 0, state := THREAD_READY }
          current_tid := s.current_tid
          total_quantums := s.total_quantums
          quantum_usecs := s.quantum_usecs
          rq := enqueue_ready s.rq i }
      else s := by
  unfold wake_one
  by_cases h : due s i = true
  · rw [if_pos h, if_pos ((due_iff s i).mp h)]
    simp only
    rw [setT_setT, setT_same]
  · rw [if_neg h, if_neg (fun hh => h ((due_iff s i).mpr hh))]

theorem due_wake_one (s : State) (i u : Int) (h : u ≠ i) : due (wake_one s i) u = due s u := by
  unfold due
  rw [wake_one_threads_other s i u h, wake_one_total]

theorem due_slots_congr (s s1 : State) (n : Nat) :
    ∀ i : Int, (∀ u : Int, i ≤ u → due s1 u = due s u) → due_slots s1 n i = due_slots s n i := by
  induction n with
  | zero => intro i _; rfl
  | succ n ih =>
    intro i h
    rw [due_slots, due_slots, h i (le_refl _), ih (i + 1) (fun u hu => h u (by omega))]

theorem mem_due_slots (s : State) (n : Nat) :
    ∀ (i u : Int), u ∈ due_slots s n i ↔ (i ≤ u ∧ u < i + n ∧ due s u = true) := by
  induction n with
  | zero =>
    intro i u
    simp only [due_slots, List.not_mem_nil, Nat.cast_zero, add_zero, false_iff]
    omega
  | succ n ih =>
    intro i u
    rw [due_slots]
    push_cast
    by_cases hd : due s i = true
    · rw [if_pos hd, List.mem_cons, ih]
      constructor
      · rintro (h | ⟨h1, h2, h3⟩)
        · subst h; exact ⟨le_refl _, by omega, hd⟩
        · exact ⟨by omega, by omega, h3⟩
      · rintro ⟨h1, h2, h3⟩
        by_cases hu : u = i
        · exact Or.inl hu
        · exact Or.inr ⟨by omega, by omega, h3⟩
    · rw [if_neg hd, ih]
      constructor
      · rintro ⟨h1, h2, h3⟩
        exact ⟨by omega, by omega, h3⟩
      · rintro ⟨h1, h2, h3⟩
        have hu : u ≠ i := fun e => hd (e ▸ h3)
        exact ⟨by omega, by omega, h3⟩

theorem due_slots_increasing (s : State) (n : Nat) :
    ∀ i : Int, (due_slots s n i).Pairwise (fun a b => a < b) := by
  induction n with
  | zero => intro i; exact List.Pairwise.nil
  | succ n ih =>
    intro i
    rw [due_slots]
    split
    · refine List.Pairwise.cons ?_ (ih (i + 1))
      intro b hb
      have := ((mem_due_slots s n (i + 1) b).mp hb).1
      omega
    · exact ih (i + 1)

theorem wake_loop_rq (n : Nat) :
    ∀ (i : Int) (s : State),
      (wake_loop n i s).rq = (due_slots s n i).foldl enqueue_ready s.rq := by
  induction n with
  | zero => intro i s; rfl
  | succ n ih =>
    intro i s
    rw [wake_loop, ih, due_slots,
      due_slots_congr s (wake_one s i) n (i + 1) (fun u hu => due_wake_one s i u (by omega)),
      wake_one_eq]
    by_cases hd : due s i = true
    · rw [if_pos hd, if_pos hd, List.foldl_cons]
    · rw [if_neg hd, if_neg hd]

theorem foldl_enqueue_ready (l : List Int) :
    ∀ q : ReadyQueue, q.WF → q.size + l.length < MAX_THREAD_NUM →
      (l.foldl enqueue_ready q).toList = q.toList ++ l ∧ (l.foldl enqueue_ready q).WF := by
  induction l with
  | nil =>
    intro q hw _
    exact ⟨by simp, hw⟩
  | cons a l ih =>
    intro q hw hs
    rw [List.length_cons] at hs
    have he := toList_enqueue_ready q a hw (by omega)
    have hsz : (enqueue_ready q a).size = q.size + 1 := by
      have h1 := toList_length (enqueue_ready q a)
      have h2 := toList_length q
      rw [he, List.length_append, List.length_singleton] at h1
      omega
    obtain ⟨h1, h2⟩ := ih (enqueue_ready q a) (enqueue_ready_WF q a hw) (by omega)
    rw [List.foldl_cons]
    refine ⟨?_, h2⟩
    rw [h1, he, List.append_assoc, List.singleton_append]

theorem count_tick_sleep_until (s : State) (u : Int) :
    ((count_tick s).threads u).sleep_until = (s.threads u).sleep_until := by
  by_cases hc : u = s.current_tid
  · rw [hc, count_tick_threads_same]
  · rw [count_tick_threads_other s u hc]

theorem due_count_tick (s : State) (u : Int) :
    due (count_tick s) u = true ↔
      ((s.threads u).state = THREAD_BLOCKED ∧ (s.threads u).sleep_until > 0 ∧
        (s.threads u).sleep_until ≤ s.total_quantums + 1) := by
  rw [due_iff, count_tick_state, count_tick_sleep_until, count_tick_total]

theorem wake_scan_threads (c : State) (u : Int) :
    (wake_loop MAX_THREAD_NUM 0 c).threads u =
      if (0 ≤ u ∧ u < MAX_THREAD_NUM) ∧ due c u = true then
        { c.threads u with sleep_until := 0, state := THREAD_READY }
      else c.threads u := by
  rw [wake_loop_threads]
  by_cases h : (0 ≤ u ∧ u < MAX_THREAD_NUM) ∧ due c u = true
  · rw [if_pos h, if_pos ⟨⟨h.1.1, by omega⟩, (due_iff c u).mp h.2⟩]
  · rw [if_neg h, if_neg]
    rintro ⟨⟨h1, h2⟩, h3⟩
    exact h ⟨⟨h1, by omega⟩, (due_iff c u).mpr h3⟩

theorem wake_scan_queue (c : State) (hw : c.rq.WF)
    (hroom : c.rq.size + (due_slots c MAX_THREAD_NUM 0).length < MAX_THREAD_NUM) :
    (wake_loop MAX_THREAD_NUM 0 c).rq.toList = c.rq.toList ++ due_slots c MAX_THREAD_NUM 0 ∧
    (wake_loop MAX_THREAD_NUM 0 c).rq.WF := by
  rw [wake_loop_rq]
  exact foldl_enqueue_ready _ c.rq hw hroom

theorem wake_scan_current_state (c : State) :
    ((wake_loop MAX_THREAD_NUM 0 c).threads c.current_tid).state = THREAD_RUNNING ↔
      (c.threads c.current_tid).state = THREAD_RUNNING := by
  rw [wake_scan_threads]
  split
  · rename_i h
    have := ((due_iff c _).mp h.2).1
    rw [this]
    constructor <;> intro hx <;> cases hx
  · exact Iff.rfl

/-- The switch at the end of a timer tick, when the wake-up scan had room in
the ready queue: the head of the old queue followed by the woken slots is
scheduled, and a thread that was still `RUNNING` goes behind them. -/
theorem tick_switch (c : State) (hw : c.rq.WF)
    (hroom : c.rq.size + (due_slots c MAX_THREAD_NUM 0).length < MAX_THREAD_NUM)
    (hq : ∀ x ∈ c.rq.toList, 0 ≤ x) (h : Int) (tl : List Int)
    (he : c.rq.toList ++ due_slots c MAX_THREAD_NUM 0 = h :: tl) :
    (schedule_next (wake_loop MAX_THREAD_NUM 0 c)).current_tid = h ∧
    ((schedule_next (wake_loop MAX_THREAD_NUM 0 c)).threads h).state = THREAD_RUNNING ∧
    ((c.threads c.current_tid).state = THREAD_RUNNING →
      (schedule_next (wake_loop MAX_THREAD_NUM 0 c)).rq.toList = tl ++ [c.current_tid]) ∧
    ((c.threads c.current_tid).state ≠ THREAD_RUNNING →
      (schedule_next (wake_loop MAX_THREAD_NUM 0 c)).rq.toList = tl) ∧
    (∀ u : Int, u ≠ h → u ≠ c.current_tid →
      (schedule_next (wake_loop MAX_THREAD_NUM 0 c)).threads u =
        (wake_loop MAX_THREAD_NUM 0 c).threads u) := by
  obtain ⟨q1, q2⟩ := wake_scan_queue c hw hroom
  have hc := wake_loop_current MAX_THREAD_NUM 0 c
  have hr := wake_scan_current_state c
  have hh : h ≠ -1 := by
    have hm : h ∈ c.rq.toList ++ due_slots c MAX_THREAD_NUM 0 := by
      rw [he]; exact List.mem_cons_self _ _
    rcases List.mem_append.mp hm with h1 | h1
    · have := hq h h1
      omega
    · have := ((mem_due_slots c _ 0 h).mp h1).1
      omega
  rw [he] at q1
  rw [← hc] at hr
  generalize wake_loop MAX_THREAD_NUM 0 c = w at q1 q2 hc hr ⊢
  obtain ⟨a1, _, a3, a4, a5, a6⟩ := (schedule_next_effect w q2).2 h tl q1 hh
  rw [← hc]
  refine ⟨a1, ?_, ?_, ?_, ?_⟩
  · rw [a3]
  · intro hx
    exact (a5 (hr.mpr hx)).1
  · intro hx
    exact (a6 (fun hy => hx (hr.mp hy))).1
  · intro u hu1 hu2
    exact a4 u hu1 hu2

/-- In a state of the invariant the wake-up scan has room in the ready queue:
the queued, the due and the running identifiers are all different. -/
theorem Inv.wake_room {s : State} (h : Inv s) :
    s.rq.size + (due_slots (count_tick s) MAX_THREAD_NUM 0).length < MAX_THREAD_NUM := by
  have hD : ∀ x ∈ due_slots (count_tick s) MAX_THREAD_NUM 0,
      (0 ≤ x ∧ x < MAX_THREAD_NUM) ∧ (s.threads x).state = THREAD_BLOCKED := by
    intro x hx
    obtain ⟨h1, h2, h3⟩ := (mem_due_slots _ _ _ _).mp hx
    exact ⟨⟨h1, by omega⟩, ((due_count_tick s x).mp h3).1⟩
  have hn : (due_slots (count_tick s) MAX_THREAD_NUM 0).Nodup :=
    (due_slots_increasing (count_tick s) MAX_THREAD_NUM 0).imp (fun hab => ne_of_lt hab)
  generalize due_slots (count_tick s) MAX_THREAD_NUM 0 = D at hD hn ⊢
  have hnd : (s.rq.toList ++ D).Nodup := by
    refine List.Nodup.append h.nodup hn ?_
    intro a ha1 ha2
    have := h.queue_states a ha1
    rw [(hD a ha2).2] at this
    cases this
  have hlen := length_add_one_le (s.rq.toList ++ D) hnd
    (by
      intro x hx
      rcases List.mem_append.mp hx with h1 | h1
      · exact h.queue_range x h1
      · exact (hD x h1).1)
    s.current_tid h.cur_range
    (by
      intro hx
      rcases List.mem_append.mp hx with h1 | h1
      · exact h.cur_not_queued h1
      · have := (hD _ h1).2
        rw [h.cur_running] at this
        cases this)
  rw [List.length_append, toList_length] at hlen
  omega

/-- A sleeper at a timer tick in a state of the invariant: before its deadline
the tick leaves its slot alone, at its deadline the scan makes it `READY`
with `sleep_until = 0` and enqueues it. -/
theorem sleeper_at_tick {s : State} (hI : Inv s) (t d : Int)
    (ht : 0 ≤ t ∧ t < MAX_THREAD_NUM)
    (hb : (s.threads t).state = THREAD_BLOCKED) (hd : (s.threads t).sleep_until = d)
    (hpos : 0 < d) :
    (s.total_quantums + 1 < d → (timer_handler s).threads t = s.threads t) ∧
    (s.total_quantums + 1 = d →
      t ∈ due_slots (count_tick s) MAX_THREAD_NUM 0 ∧
      ((wake_loop MAX_THREAD_NUM 0 (count_tick s)).threads t).state = THREAD_READY ∧
      ((wake_loop MAX_THREAD_NUM 0 (count_tick s)).threads t).sleep_until = 0 ∧
      t ∈ (wake_loop MAX_THREAD_NUM 0 (count_tick s)).rq.toList ∧
      (timer_handler s).total_quantums = d ∧
      ((timer_handler s).threads t).sleep_until = 0 ∧
      (((timer_handler s).threads t).state = THREAD_READY ∨
        ((timer_handler s).threads t).state = THREAD_RUNNING)) := by
  constructor
  · intro hlt
    exact blocked_thread_untouched hI t ht.1 hb Op.tick (fun e => by cases e)
      (fun e => by cases e) (fun _ hx => by rw [hd] at hx; omega) (timer_handler s) rfl
  · intro heq
    have hdue : due (count_tick s) t = true :=
      (due_count_tick s t).mpr ⟨hb, by omega, by omega⟩
    have hmem : t ∈ due_slots (count_tick s) MAX_THREAD_NUM 0 :=
      (mem_due_slots _ _ _ _).mpr ⟨ht.1, by omega, hdue⟩
    have hwt := wake_scan_threads (count_tick s) t
    rw [if_pos ⟨ht, hdue⟩] at hwt
    have hws : ((wake_loop MAX_THREAD_NUM 0 (count_tick s)).threads t).state = THREAD_READY := by
      rw [hwt]
    have hwu : ((wake_loop MAX_THREAD_NUM 0 (count_tick s)).threads t).sleep_until = 0 := by
      rw [hwt]
    have hIw : Inv (wake_loop MAX_THREAD_NUM 0 (count_tick s)) :=
      Inv_wake_loop _ _ _ (Inv_count_tick hI) (le_refl _) (by omega)
    have htot : (timer_handler s).total_quantums = d := by
      have := step_total s Op.tick (timer_handler s) rfl
      rw [if_pos rfl] at this
      omega
    refine ⟨hmem, hws, hwu, (hIw.queue_ready t).mpr ⟨ht.1, ht.2, hws⟩, htot, ?_⟩
    unfold timer_handler
    generalize wake_loop MAX_THREAD_NUM 0 (count_tick s) = w at hws hwu hIw ⊢
    have hq : t ∈ w.rq.toList := (hIw.queue_ready t).mpr ⟨ht.1, ht.2, hws⟩
    cases hl : w.rq.toList with
    | nil => rw [hl] at hq; cases hq
    | cons h tl =>
      have hh := hIw.queue_range h (by rw [hl]; exact List.mem_cons_self _ _)
      obtain ⟨_, _, a3, a4, _, _⟩ := (schedule_next_effect w hIw.wf).2 h tl hl (by omega)
      by_cases hth : t = h
      · rw [hth, a3]
        rw [hth] at hwu
        exact ⟨hwu, Or.inr rfl⟩
      · have htc : t ≠ w.current_tid := by
          intro e
          have := hIw.cur_running
          rw [← e, hws] at this
          cases this
        rw [a4 t hth htc]
        exact ⟨hwu, Or.inl hws⟩

/-! ## Room in the ready queue -/

/-- In a state of the invariant, wherever `enqueue_ready(t)` is called for a
`BLOCKED` or `UNUSED` slot `t` (spawn, resume, wake-up) the queue holds at most
`MAX_THREAD_NUM - 2` identifiers, and the call appends `t` at its tail. -/
theorem Inv.room {s : State} (h : Inv s) (t : Int) (ht : 0 ≤ t ∧ t < MAX_THREAD_NUM)
    (hs : (s.threads t).state = THREAD_BLOCKED ∨ (s.threads t).state = THREAD_UNUSED) :
    s.rq.size + 2 ≤ MAX_THREAD_NUM ∧ (enqueue_ready s.rq t).toList = s.rq.toList ++ [t] ∧
    (enqueue_ready s.rq t).back ≠ (enqueue_ready s.rq t).front := by
  have htl : t ∉ s.rq.toList := by
    intro hm
    have := ((h.queue_ready _).1 hm).2.2
    rcases hs with hs | hs <;> rw [hs] at this <;> cases this
  have htc : t ≠ s.current_tid := by
    intro he
    rw [he, h.cur_running] at hs
    rcases hs with hs | hs <;> cases hs
  have hlen := length_add_two_le _ h.nodup h.queue_range t s.current_tid ht h.cur_range
    htl h.cur_not_queued htc
  rw [toList_length] at hlen
  have hl := toList_enqueue_ready s.rq t h.wf (by omega)
  refine ⟨hlen, hl, ?_⟩
  intro he
  have h1 := (toList_eq_nil_iff _ (enqueue_ready_WF _ _ h.wf)).mpr he.symm
  rw [hl] at h1
  simp at h1

/-! ## A sleep whose deadline does not fit in an `int` -/

/-- Thread `1` calls `uthread_sleep(INT_MAX)` at `total_quantums = 2`: the
stored deadline is `-2147483647`, and the thread is still `BLOCKED` after the
following ticks. -/
theorem sleep_int_max_is_never_due :
    ∃ s, run (initState boot 1) [.spawn 1, .tick, .sleep 2147483647] = some s ∧
      (s.threads 1).sleep_until = -2147483647 ∧ (s.threads 1).state = THREAD_BLOCKED ∧
      ∃ s1, run s [.tick, .tick, .tick] = some s1 ∧
        (s1.threads 1).state = THREAD_BLOCKED ∧ s1.current_tid = 0 := by
  decide!

/-! ## The claims

Statements about concrete runs are decided by evaluation in the kernel. -/

/-- C1, failing input. After `uthread_init(1)`, `uthread_spawn(f)` and one timer
tick, thread `1` runs; its call `uthread_block(1)` returns with
`current_tid = 1` still, its slot `BLOCKED`, and no slot `RUNNING`. -/
theorem self_block_leaves_no_running_thread :
    ∃ s, run (initState boot 1) [.spawn 1, .tick, .block 1] = some s ∧ Reachable s ∧
      s.current_tid = 1 ∧ (s.threads 1).state = THREAD_BLOCKED ∧
      ∀ i : Nat, i < MAX_THREAD_NUM → (s.threads i).state ≠ THREAD_RUNNING := by
  obtain ⟨s, h, hp⟩ : ∃ s, run (initState boot 1) [.spawn 1, .tick, .block 1] = some s ∧
      (s.current_tid = 1 ∧ (s.threads 1).state = THREAD_BLOCKED ∧
        ∀ i : Nat, i < MAX_THREAD_NUM → (s.threads i).state ≠ THREAD_RUNNING) := by
    decide!
  exact ⟨s, h, ⟨1, _, by decide, h⟩, hp⟩

/-- C2, failing input. Thread `1` blocks itself, is resumed (which enqueues it
while it is still running) and then sleeps: the ready queue now holds the
identifier `1` of a `BLOCKED` slot. -/
theorem ready_queue_holds_blocked_thread :
    ∃ s, run (initState boot 1) [.spawn 1, .tick, .block 1, .resume 1, .sleep 3] = some s ∧
      Reachable s ∧
      s.rq.toList = [1] ∧ (s.threads 1).state = THREAD_BLOCKED ∧ s.current_tid = 0 := by
  obtain ⟨s, h, hp⟩ : ∃ s,
      run (initState boot 1) [.spawn 1, .tick, .block 1, .resume 1, .sleep 3] = some s ∧
      (s.rq.toList = [1] ∧ (s.threads 1).state = THREAD_BLOCKED ∧ s.current_tid = 0) := by
    decide!
  exact ⟨s, h, ⟨1, _, by decide, h⟩, hp⟩

/-- C3, failing input. With thread `1` running and the ready queue holding the
main thread, `uthread_block(1)` returns `0` without a scheduling decision: the
running thread is still `1`, the head `0` of the queue is still `READY` in the
queue with its quantums unchanged. -/
theorem self_block_does_not_schedule :
    ∃ s, run (initState boot 1) [.spawn 1, .tick] = some s ∧ Reachable s ∧
      s.current_tid = 1 ∧ (s.threads 1).state = THREAD_RUNNING ∧ s.rq.toList = [0] ∧
      ∃ s1, uthread_block s 1 = .ret 0 s1 ∧
        s1.current_tid = 1 ∧ (s1.threads 1).state = THREAD_BLOCKED ∧
        (s1.threads 0).state = THREAD_READY ∧
        (s1.threads 0).quantums = (s.threads 0).quantums ∧ s1.rq.toList = [0] := by
  obtain ⟨s, h, hp⟩ : ∃ s, run (initState boot 1) [.spawn 1, .tick] = some s ∧
      (s.current_tid = 1 ∧ (s.threads 1).state = THREAD_RUNNING ∧ s.rq.toList = [0] ∧
      ∃ s1, uthread_block s 1 = .ret 0 s1 ∧
        (s1.current_tid = 1 ∧ (s1.threads 1).state = THREAD_BLOCKED ∧
        (s1.threads 0).state = THREAD_READY ∧
        (s1.threads 0).quantums = (s.threads 0).quantums ∧ s1.rq.toList = [0])) := by
    decide!
  exact ⟨s, h, ⟨1, _, by decide, h⟩, hp⟩

/-- C4, counterexample. Thread `1` calls `uthread_sleep(5)` when
`total_quantums = 2`; the main thread resumes it and the next tick makes it
the running thread at `total_quantums = 3 < 2 + 5`. -/
theorem sleep_cut_short_by_resume :
    ∃ s, run (initState boot 1) [.spawn 1, .tick] = some s ∧
      s.current_tid = 1 ∧ s.total_quantums = 2 ∧
      ∃ s2, run s [.sleep 5, .resume 1, .tick] = some s2 ∧
        s2.current_tid = 1 ∧ (s2.threads 1).state = THREAD_RUNNING ∧
        s2.total_quantums < s.total_quantums + 5 := by
  decide!

/-- C4, amended. In an execution from `uthread_init` without self-block, let
the running thread `t` call `uthread_sleep(k)`, `k > 0`, at
`total_quantums = T` (both C `int`s, so at most `INT_MAX`). As long as no
`uthread_resume(t)` and no `uthread_terminate(t)` is called, in every later
state whose `total_quantums` is below `T + k` the slot of `t` is `BLOCKED` and
`t` is not the running thread. -/
theorem sleeper_waits_for_deadline (pre : State) (usecs : Int) (ops1 ops2 : List Op)
    (s s2 : State) (k : Int) (hu : 0 < usecs)
    (h1 : allOps noSelfBlock (initState pre usecs) ops1 = true)
    (hs : run (initState pre usecs) ops1 = some s)
    (hc : s.current_tid ≠ 0) (hk : 0 < k)
    (hT : s.total_quantums ≤ INT_MAX) (hkI : k ≤ INT_MAX)
    (h2 : allOps (undisturbed s.current_tid) s (Op.sleep k :: ops2) = true)
    (hr : run s (Op.sleep k :: ops2) = some s2)
    (hlt : s2.total_quantums < s.total_quantums + k) :
    (s2.threads s.current_tid).state = THREAD_BLOCKED ∧ s2.current_tid ≠ s.current_tid ∧
    ¬ (s2.current_tid = s.current_tid ∧
        (s2.threads s.current_tid).state = THREAD_RUNNING) := by
  have hI : Inv s := Inv_run ops1 _ s (Inv_initState pre usecs hu) h1 hs
  have hT1 : 1 ≤ s.total_quantums := by
    have := run_total_mono ops1 _ s hs
    rw [(initState_fields pre usecs hu).2.1] at this
    exact this
  obtain ⟨s1, e1, hI1, e3, e4, e5⟩ := uthread_sleep_effect hI k hc hk
  have hstep : step s (Op.sleep k) = some s1 := by
    show (uthread_sleep s k).next = some s1
    rw [e1]; rfl
  rw [run, hstep] at hr
  rw [allOps, hstep, Bool.and_eq_true] at h2
  have key : Inv s2 ∧ (s2.threads s.current_tid).state = THREAD_BLOCKED := by
    by_cases hf : s.total_quantums + k ≤ INT_MAX
    · rw [int_add_fits _ _ (by omega) hf] at e5
      obtain ⟨hI2, hb2⟩ := asleep_run s.current_tid (s.total_quantums + k) hI.cur_range.1
        ops2 s1 s2 hI1 (fun _ => ⟨e4, e5⟩) h2.2 hr
      exact ⟨hI2, (hb2 hlt).1⟩
    · have hw := (int_add_wraps _ _ hT hkI (by omega)).2
      rw [← e5] at hw
      obtain ⟨hI2, hsame⟩ := asleep_run_unset s.current_tid hI.cur_range.1 ops2 s1 s2 hI1 e4
        (by omega) h2.2 hr
      exact ⟨hI2, by rw [hsame]; exact e4⟩
  obtain ⟨hI2, b1⟩ := key
  have hne : s2.current_tid ≠ s.current_tid := by
    intro he
    have := hI2.cur_running
    rw [he, b1] at this
    cases this
  exact ⟨b1, hne, fun h => hne h.1⟩

/-- Witness for C4: thread `1` sleeps for 3 quantums at `total_quantums = 2`;
one tick later (`total_quantums = 3`) it is `BLOCKED` and not running. -/
theorem sleeper_waits_for_deadline_witness :
    ∃ s, run (initState boot 1) [.spawn 1, .tick] = some s ∧ s.current_tid = 1 ∧
      ∃ s2, run s [.sleep 3, .tick] = some s2 ∧ s2.total_quantums = 3 ∧
        ((s2.threads s.current_tid).state = THREAD_BLOCKED ∧
          s2.current_tid ≠ s.current_tid ∧
          ¬ (s2.current_tid = s.current_tid ∧
            (s2.threads s.current_tid).state = THREAD_RUNNING)) := by
  obtain ⟨s, h1, hc, hT, s2, h2, ha, hc0, ht, hlt⟩ :
      ∃ s, run (initState boot 1) [.spawn 1, .tick] = some s ∧ s.current_tid = 1 ∧
        s.total_quantums ≤ INT_MAX ∧
        ∃ s2, run s [.sleep 3, .tick] = some s2 ∧
          (allOps (undisturbed s.current_tid) s [.sleep 3, .tick] = true ∧
            s.current_tid ≠ 0 ∧ s2.total_quantums = 3 ∧
            s2.total_quantums < s.total_quantums + 3) := by
    decide!
  exact ⟨s, h1, hc, s2, h2, ht,
    sleeper_waits_for_deadline boot 1 [.spawn 1, .tick] [.tick] s s2 3 (by decide)
      (by decide!) h1 hc0 (by decide) hT (by decide) ha h2 hlt⟩

/-- C5, failing input. Thread `1` sleeps until quantum 4 and is resumed at
quantum 2, which leaves `sleep_until = 4` behind; `uthread_block(1)` then
blocks it. With no `uthread_resume(1)` the tick that brings `total_quantums`
to 4 wakes it up and it becomes the running thread. -/
theorem stale_deadline_wakes_blocked_thread :
    ∃ s1, run (initState boot 1) [.spawn 1, .tick, .sleep 2, .resume 1] = some s1 ∧
      (s1.threads 1).state = THREAD_READY ∧ (s1.threads 1).sleep_until = 4 ∧
      ∃ s2, uthread_block s1 1 = .ret 0 s2 ∧
        (s2.threads 1).state = THREAD_BLOCKED ∧ s2.current_tid = 0 ∧
        s2.total_quantums = 2 ∧
        ∃ s3, run s2 [.tick, .tick] = some s3 ∧
          s3.total_quantums = 4 ∧ s3.current_tid = 1 ∧
          (s3.threads 1).state = THREAD_RUNNING := by
  decide!

/-- C6, counterexample. After `uthread_init(1)`, `uthread_spawn(f)` and one
timer tick the quantums of the live threads add up to 3 while
`total_quantums` is 2. -/
theorem quantum_sum_exceeds_total :
    ∃ s, run (initState boot 1) [.spawn 1, .tick] = some s ∧
      liveQuantums s = 3 ∧ uthread_get_total_quantums s = 2 ∧
      uthread_get_quantums s 0 = 2 ∧ uthread_get_quantums s 1 = 1 := by
  decide!

/-- C6, amended. In a state reached from `uthread_init` by public calls and
timer ticks, the sum of `threads[t].quantums` over the slots that are not
`UNUSED` equals `total_quantums` as long as the main thread has been the
running thread throughout (no event has switched to another thread), and it
is at least `total_quantums` as long as no `uthread_terminate` and no
self-block has been called. -/
theorem quantum_sum_accounting (pre : State) (usecs : Int) (ops : List Op) (s : State)
    (hu : 0 < usecs) (hs : run (initState pre usecs) ops = some s) :
    (allOps staysOnMain (initState pre usecs) ops = true →
      liveQuantums s = uthread_get_total_quantums s ∧
      uthread_get_quantums s 0 = uthread_get_total_quantums s) ∧
    (allOps noTerminate (initState pre usecs) ops = true →
      uthread_get_total_quantums s ≤ liveQuantums s) := by
  constructor
  · intro h1
    have h := OnMain_run ops _ s (OnMain_initState pre usecs hu) h1 hs
    refine ⟨h.liveQuantums_eq, ?_⟩
    unfold uthread_get_quantums uthread_get_total_quantums
    have hn : ¬ ((0 : Int) < 0 ∨ (0 : Int) ≥ MAX_THREAD_NUM ∨
        (s.threads 0).state = THREAD_UNUSED) := by
      rintro (hx | hx | hx)
      · omega
      · rw [MAX_val] at hx; omega
      · rcases h.inv.main_live with hm | hm <;> rw [hm] at hx <;> cases hx
    rw [if_neg hn]
    exact h.main_quantums
  · intro h2
    have h0 := OnMain_initState pre usecs hu
    exact run_grows ops _ s h0.inv (le_of_eq h0.liveQuantums_eq.symm) h2 hs

/-- Witness for C6. First run: the main thread spawns thread `1`, blocks it,
lets two ticks pass and resumes it; it has run all along and the sum of
quantums equals `total_quantums` (both are 3). Second run: two threads are
spawned and three ticks rotate the processor; the sum is 7, `total_quantums`
is 4. -/
theorem quantum_sum_accounting_witness :
    (∃ s, run (initState boot 1) [.spawn 1, .block 1, .tick, .tick, .resume 1] = some s ∧
      s.total_quantums = 3 ∧ (s.threads 1).state = THREAD_READY ∧
      (liveQuantums s = uthread_get_total_quantums s ∧
        uthread_get_quantums s 0 = uthread_get_total_quantums s)) ∧
    (∃ s, run (initState boot 1) [.spawn 1, .spawn 1, .tick, .tick, .tick] = some s ∧
      liveQuantums s = 7 ∧ uthread_get_total_quantums s = 4 ∧
      uthread_get_total_quantums s ≤ liveQuantums s) := by
  obtain ⟨s, h1, ht, h1s⟩ :
      ∃ s, run (initState boot 1) [.spawn 1, .block 1, .tick, .tick, .resume 1] = some s ∧
        (s.total_quantums = 3 ∧ (s.threads 1).state = THREAD_READY) := by
    decide!
  obtain ⟨w, h2, hq, hw⟩ :
      ∃ s, run (initState boot 1) [.spawn 1, .spawn 1, .tick, .tick, .tick] = some s ∧
        (liveQuantums s = 7 ∧ uthread_get_total_quantums s = 4) := by
    decide!
  exact ⟨⟨s, h1, ht, h1s,
      (quantum_sum_accounting boot 1 [.spawn 1, .block 1, .tick, .tick, .resume 1] s
        (by decide) h1).1 (by decide!)⟩,
    ⟨w, h2, hq, hw,
      (quantum_sum_accounting boot 1 [.spawn 1, .spawn 1, .tick, .tick, .tick] w
        (by decide) h2).2 (by decide!)⟩⟩

/-- C7. A public call that returns `-1` hands back the scheduler state it was
given, untouched (`uthread_get_quantums` only reads the state), and each of
the listed usage errors is such a call:
`uthread_init` with `usecs <= 0`, `uthread_spawn` with a null entry or without
a free slot, `uthread_terminate`, `uthread_block`, `uthread_resume` and
`uthread_get_quantums` with an identifier out of range or of an `UNUSED`
slot, `uthread_block(0)`, and `uthread_sleep` from the main thread or with
`num_quantums <= 0`. -/
theorem error_return_leaves_state (s : State) :
    (∀ (usecs : Int) (s1 : State), uthread_init s usecs = .ret (-1) s1 → s1 = s) ∧
    (∀ (e : Nat) (s1 : State), uthread_spawn s e = .ret (-1) s1 → s1 = s) ∧
    (∀ (tid : Int) (s1 : State), uthread_terminate s tid = .ret (-1) s1 → s1 = s) ∧
    (∀ (tid : Int) (s1 : State), uthread_block s tid = .ret (-1) s1 → s1 = s) ∧
    (∀ (tid : Int) (s1 : State), uthread_resume s tid = .ret (-1) s1 → s1 = s) ∧
    (∀ (k : Int) (s1 : State), uthread_sleep s k = .ret (-1) s1 → s1 = s) ∧
    (∀ usecs : Int, usecs ≤ 0 → uthread_init s usecs = .ret (-1) s) ∧
    uthread_spawn s 0 = .ret (-1) s ∧
    (∀ e : Nat, (∀ i : Int, 1 ≤ i → i < MAX_THREAD_NUM → (s.threads i).state ≠ THREAD_UNUSED) →
      uthread_spawn s e = .ret (-1) s) ∧
    (∀ tid : Int, (tid < 0 ∨ tid ≥ MAX_THREAD_NUM ∨ (s.threads tid).state = THREAD_UNUSED) →
      uthread_terminate s tid = .ret (-1) s ∧ uthread_block s tid = .ret (-1) s ∧
      uthread_resume s tid = .ret (-1) s ∧ uthread_get_quantums s tid = -1) ∧
    uthread_block s 0 = .ret (-1) s ∧
    (∀ k : Int, s.current_tid = 0 → uthread_sleep s k = .ret (-1) s) ∧
    (∀ k : Int, k ≤ 0 → uthread_sleep s k = .ret (-1) s) := by
  refine ⟨?_, ?_, ?_, ?_, ?_, ?_, ?_, ?_, ?_, ?_, ?_, ?_, ?_⟩
  · intro usecs s1 h
    unfold uthread_init at h
    split at h
    · injection h with _ h2; exact h2.symm
    · simp only at h
      split at h
      · cases h
      · split at h
        · cases h
        · injection h with h1 _; omega
  · intro e s1 h
    unfold uthread_spawn at h
    split at h
    · injection h with _ h2; exact h2.symm
    · simp only at h
      split at h
      · injection h with _ h2; exact h2.symm
      · rename_i hne
        injection h with h1 _
        exact absurd h1 hne
  · intro tid s1 h
    unfold uthread_terminate at h
    split at h
    · injection h with _ h2; exact h2.symm
    · split at h
      · cases h
      · split at h
        · simp only at h
          split at h <;> cases h
        · injection h with h1 _; omega
  · intro tid s1 h
    unfold uthread_block at h
    split at h
    · injection h with _ h2; exact h2.symm
    · split at h
      · injection h with _ h2; exact h2.symm
      · split at h
        · injection h with h1 _; omega
        · injection h with h1 _; omega
  · intro tid s1 h
    unfold uthread_resume at h
    split at h
    · injection h with _ h2; exact h2.symm
    · split at h
      · injection h with h1 _; omega
      · split at h
        · injection h with h1 _; omega
        · injection h with h1 _; omega
  · intro k s1 h
    unfold uthread_sleep at h
    split at h
    · injection h with _ h2; exact h2.symm
    · split at h
      · injection h with _ h2; exact h2.symm
      · injection h with h1 _; omega
  · intro usecs hu
    unfold uthread_init
    rw [if_pos hu]
  · unfold uthread_spawn
    rw [if_pos rfl]
  · intro e hfull
    unfold uthread_spawn
    split
    · rfl
    · have hf : find_unused s.threads (MAX_THREAD_NUM - 1) 1 = -1 := by
        rcases find_unused_spec s.threads (MAX_THREAD_NUM - 1) 1 (by omega) with
          ⟨h1, _⟩ | ⟨h1, h2, h3, _⟩
        · exact h1
        · exact absurd h3 (hfull _ h1 (by rw [MAX_val] at *; omega))
      simp only [hf, if_true]
  · intro tid hv
    refine ⟨?_, ?_, ?_, ?_⟩
    · unfold uthread_terminate; rw [if_pos hv]
    · unfold uthread_block; rw [if_pos hv]
    · unfold uthread_resume; rw [if_pos hv]
    · unfold uthread_get_quantums; rw [if_pos hv]
  · unfold uthread_block
    split
    · rfl
    · rw [if_pos rfl]
  · intro k hc
    unfold uthread_sleep
    rw [if_pos hc]
  · intro k hk
    unfold uthread_sleep
    by_cases hc : s.current_tid = 0
    · rw [if_pos hc]
    · rw [if_neg hc, if_pos hk]

/-- C8, counterexample. After 98 spawns, a tick, and a self-block of thread
`1` followed by `uthread_resume(1)`, the ready queue holds 99 identifiers and
slot 99 is `UNUSED`; `uthread_spawn` returns 99 and the queue then reads as
empty instead of having 99 appended. -/
theorem spawn_on_full_queue_empties_it :
    ∃ s, run (initState boot 1)
        (List.replicate 98 (.spawn 1) ++ [.tick, .block 1, .resume 1]) = some s ∧
      s.rq.WF ∧ s.rq.toList.length = 99 ∧ (s.threads 99).state = THREAD_UNUSED ∧
      ∃ s1, uthread_spawn s 1 = .ret 99 s1 ∧
        s1.rq.toList = [] ∧ s1.rq.toList ≠ s.rq.toList ++ [99] := by
  decide!

/-- C8, amended. For every state and entry, `uthread_spawn` returns `-1`
exactly when the entry is null or no slot of `[1, MAX_THREAD_NUM)` is `UNUSED`,
and never `0`; otherwise it returns the least `UNUSED` index `i >= 1`, sets
that slot to `READY` with `quantums = 0` and `sleep_until = 0`, changes no
other slot, and calls `enqueue_ready(i)`: when the queue holds fewer than
`MAX_THREAD_NUM - 1` identifiers this appends `i` at the tail. -/
theorem uthread_spawn_spec (s : State) (e : Nat) :
    ∃ (r : Int) (s1 : State), uthread_spawn s e = .ret r s1 ∧ r ≠ 0 ∧
      (r = -1 ↔ (e = 0 ∨
        ∀ i : Int, 1 ≤ i → i < MAX_THREAD_NUM → (s.threads i).state ≠ THREAD_UNUSED)) ∧
      (r = -1 → s1 = s) ∧
      (r ≠ -1 →
        1 ≤ r ∧ r < MAX_THREAD_NUM ∧ (s.threads r).state = THREAD_UNUSED ∧
        (∀ j : Int, 1 ≤ j → j < r → (s.threads j).state ≠ THREAD_UNUSED) ∧
        s1.threads r =
          { tid := r, state := THREAD_READY, quantums := 0, sleep_until := 0, entry := e } ∧
        (∀ j : Int, j ≠ r → s1.threads j = s.threads j) ∧
        s1.current_tid = s.current_tid ∧ s1.total_quantums = s.total_quantums ∧
        s1.quantum_usecs = s.quantum_usecs ∧
        s1.rq = enqueue_ready s.rq r ∧
        (s.rq.WF → s.rq.size + 1 < MAX_THREAD_NUM → s1.rq.toList = s.rq.toList ++ [r])) :=
  uthread_spawn_effect s e

/-- C9. Spawn/terminate round trip. (1) In any state, when `uthread_spawn`
returns `tid` and another thread then calls `uthread_terminate(tid)`, the call
returns `0`, the slot is `UNUSED` and the next `uthread_spawn` returns `tid`
again. (2) From a fresh init: spawn gives `1`, `terminate(1)` gives `0`, spawn
gives `1`. (3) After `MAX_THREAD_NUM - 1` successful spawns from a fresh init
the next spawn returns `-1`, and after `uthread_terminate(t)` of any thread
`t` other than the running one the next spawn returns `t`. -/
theorem spawn_terminate_round_trip :
    (∀ (s : State) (e e2 : Nat) (tid : Int) (s1 : State), e2 ≠ 0 →
      uthread_spawn s e = .ret tid s1 → tid ≠ -1 → s1.current_tid ≠ tid →
      ∃ s2, uthread_terminate s1 tid = .ret 0 s2 ∧
        (s2.threads tid).state = THREAD_UNUSED ∧ uthread_get_quantums s2 tid = -1 ∧
        ∃ s3, uthread_spawn s2 e2 = .ret tid s3) ∧
    (∀ (pre : State) (usecs : Int) (e : Nat), 0 < usecs → e ≠ 0 →
      ∃ s1 s2 s3, uthread_spawn (initState pre usecs) e = .ret 1 s1 ∧
        uthread_terminate s1 1 = .ret 0 s2 ∧ uthread_spawn s2 e = .ret 1 s3) ∧
    (∀ (pre : State) (usecs : Int) (e : Nat), 0 < usecs → e ≠ 0 →
      ∃ s, spawn_all e (MAX_THREAD_NUM - 1) (initState pre usecs) = some s ∧
        uthread_spawn s e = .ret (-1) s ∧
        ∀ t : Int, 0 ≤ t → t < MAX_THREAD_NUM → t ≠ s.current_tid →
          ∃ s2, uthread_terminate s t = .ret 0 s2 ∧ ∃ s3, uthread_spawn s2 e = .ret t s3) := by
  have round : ∀ (s1 : State) (e2 : Nat) (tid : Int), e2 ≠ 0 →
      1 ≤ tid → tid < MAX_THREAD_NUM → (s1.threads tid).state ≠ THREAD_UNUSED →
      (∀ j : Int, 1 ≤ j → j < tid → (s1.threads j).state ≠ THREAD_UNUSED) →
      s1.current_tid ≠ tid →
      ∃ s2, uthread_terminate s1 tid = .ret 0 s2 ∧
        (s2.threads tid).state = THREAD_UNUSED ∧ uthread_get_quantums s2 tid = -1 ∧
        ∃ s3, uthread_spawn s2 e2 = .ret tid s3 := by
    intro s1 e2 tid he2 h1 h2 hlive hlow hc
    have hv : ¬ (tid < 0 ∨ tid ≥ MAX_THREAD_NUM ∨ (s1.threads tid).state = THREAD_UNUSED) := by
      rintro (h | h | h)
      · omega
      · omega
      · exact hlive h
    have key : ∀ s2 : State, (s2.threads tid).state = THREAD_UNUSED →
        (∀ j : Int, j ≠ tid → s2.threads j = s1.threads j) →
        (s2.threads tid).state = THREAD_UNUSED ∧ uthread_get_quantums s2 tid = -1 ∧
        ∃ s3, uthread_spawn s2 e2 = .ret tid s3 := by
      intro s2 hu hoth
      refine ⟨hu, ?_, ?_⟩
      · unfold uthread_get_quantums
        rw [if_pos (Or.inr (Or.inr hu))]
      · obtain ⟨s3, h3, _⟩ := uthread_spawn_least s2 e2 tid he2 ⟨h1, h2⟩ hu
          (fun j hj1 hj2 => by rw [hoth j (by omega)]; exact hlow j hj1 hj2)
        exact ⟨s3, h3⟩
    exact ⟨_, uthread_terminate_other s1 tid hv (by omega) (Ne.symm hc),
      key _ (by show (setT _ _ _ tid).state = _; rw [setT_same])
        (fun j hj => setT_other _ _ _ _ hj)⟩
  refine ⟨?_, ?_, ?_⟩
  · intro s e e2 tid s1 he2 hs hne hc
    obtain ⟨r, s1', h1, _, _, _, h5⟩ := uthread_spawn_effect s e
    rw [hs] at h1
    injection h1 with hr hs1
    subst hr; subst hs1
    obtain ⟨a1, a2, _, a4, a5, a6, _⟩ := h5 hne
    refine round s1 e2 tid he2 a1 a2 ?_ ?_ hc
    · rw [a5]; intro hx; cases hx
    · intro j hj1 hj2
      rw [a6 j (by omega)]
      exact a4 j hj1 hj2
  · intro pre usecs e hu he
    have hth := initState_threads pre usecs hu
    obtain ⟨hc, _⟩ := initState_fields pre usecs hu
    have hr1 : (1 : Int) ≤ 1 ∧ (1 : Int) < MAX_THREAD_NUM := by rw [MAX_val]; decide
    obtain ⟨s1, h1, ht, hoth, hcur⟩ := uthread_spawn_least (initState pre usecs) e 1 he hr1
      (by rw [hth, if_neg (by decide), if_pos ⟨by decide, hr1.2⟩])
      (fun j hj1 hj2 => by omega)
    obtain ⟨s2, h2, _, _, s3, h3⟩ := round s1 e 1 he hr1.1 hr1.2
      (by rw [ht]; intro hx; cases hx) (fun j hj1 hj2 => by omega)
      (by rw [hcur, hc]; decide)
    exact ⟨s1, s2, s3, h1, h2, h3⟩
  · intro pre usecs e hu he
    have hth := initState_threads pre usecs hu
    obtain ⟨hc, _⟩ := initState_fields pre usecs hu
    obtain ⟨s, hs, hcs, h0, hA, _⟩ := spawn_all_fills e he (MAX_THREAD_NUM - 1) 0
      (initState pre usecs) (by rw [MAX_val])
      (fun j hj1 hj2 => by omega)
      (fun j hj1 hj2 => by rw [hth, if_neg (by omega), if_pos ⟨by omega, hj2⟩])
    have hfull : ∀ i : Int, 1 ≤ i → i < MAX_THREAD_NUM →
        (s.threads i).state ≠ THREAD_UNUSED := by
      intro i hi1 hi2
      exact hA i hi1 (by rw [MAX_val] at *; omega)
    refine ⟨s, hs, ?_, ?_⟩
    · obtain ⟨r, s1, h1, _, h3, h4, _⟩ := uthread_spawn_effect s e
      have hr : r = -1 := h3.2 (Or.inr hfull)
      rw [h1, hr, h4 hr]
    · intro t ht0 ht1 htc
      rw [hcs, hc] at htc
      obtain ⟨s2, h2, _, _, s3, h3⟩ := round s e t he (by omega) ht1 (hfull t (by omega) ht1)
        (fun j hj1 hj2 => hfull j hj1 (by omega)) (by rw [hcs, hc]; exact Ne.symm htc)
      exact ⟨s2, h2, s3, h3⟩

/-- C11. Starting from `init_ready_queue`, for every sequence of `enqueue_ready`
and `dequeue_ready` calls during which the list FIFO never holds more than
`MAX_THREAD_NUM - 1` identifiers, the `dequeue_ready` calls on the ring buffer
return exactly what the list FIFO returns (its head, or `-1` when it is empty),
and the ring buffer read from `front` to `back` ends as the list of the FIFO. -/
theorem ring_buffer_refines_fifo (q0 : ReadyQueue) (cs : List QueueCall)
    (h : fifo_fits [] cs = true) :
    (ring_calls (init_ready_queue q0) cs).1 = (fifo_calls [] cs).1 ∧
    (ring_calls (init_ready_queue q0) cs).2.toList = (fifo_calls [] cs).2 := by
  obtain ⟨h1, h2, _⟩ := ring_calls_eq_fifo_calls cs (init_ready_queue q0) []
    (init_ready_queue_WF q0) (toList_init_ready_queue q0) h
  exact ⟨h1, h2⟩

/-- Witness for C11: 60 identifiers pass through the queue, then 60 more are
enqueued, so `back` wraps around the end of the array (`back = 20`,
`front = 60`), and three are dequeued. -/
theorem ring_buffer_refines_fifo_witness :
    fifo_fits [] (List.replicate 60 (.enqueue 7) ++ List.replicate 60 .dequeue ++
        ((List.range 60).map fun i : Nat => QueueCall.enqueue i) ++
        [.dequeue, .dequeue, .dequeue]) = true ∧
      (ring_calls (init_ready_queue boot.rq)
        (List.replicate 60 (.enqueue 7) ++ List.replicate 60 .dequeue ++
          ((List.range 60).map fun i : Nat => QueueCall.enqueue i))).2.back = 20 ∧
      (ring_calls (init_ready_queue boot.rq)
        (List.replicate 60 (.enqueue 7) ++ List.replicate 60 .dequeue ++
          ((List.range 60).map fun i : Nat => QueueCall.enqueue i))).2.front = 60 ∧
      ((ring_calls (init_ready_queue boot.rq)
          (List.replicate 60 (.enqueue 7) ++ List.replicate 60 .dequeue ++
            ((List.range 60).map fun i : Nat => QueueCall.enqueue i) ++
            [.dequeue, .dequeue, .dequeue])).1 =
        (fifo_calls [] (List.replicate 60 (.enqueue 7) ++ List.replicate 60 .dequeue ++
            ((List.range 60).map fun i : Nat => QueueCall.enqueue i) ++
            [.dequeue, .dequeue, .dequeue])).1 ∧
       (ring_calls (init_ready_queue boot.rq)
          (List.replicate 60 (.enqueue 7) ++ List.replicate 60 .dequeue ++
            ((List.range 60).map fun i : Nat => QueueCall.enqueue i) ++
            [.dequeue, .dequeue, .dequeue])).2.toList =
        (fifo_calls [] (List.replicate 60 (.enqueue 7) ++ List.replicate 60 .dequeue ++
            ((List.range 60).map fun i : Nat => QueueCall.enqueue i) ++
            [.dequeue, .dequeue, .dequeue])).2) :=
  ⟨by decide!, by decide!, by decide!, ring_buffer_refines_fifo boot.rq _ (by decide!)⟩

/-- C12. For every ready queue (indices in range, wrapped or not) in which
`tid` occurs at most once, `remove_from_ready_queue(tid)` leaves the
front-to-back sequence equal to the original one with `tid` deleted: the other
identifiers keep their order, the length drops by one when `tid` was present
and the sequence is unchanged when it was absent. -/
theorem remove_from_ready_queue_keeps_order (q : ReadyQueue) (tid : Int) (hw : q.WF)
    (h1 : q.toList.count tid ≤ 1) :
    (remove_from_ready_queue q tid).toList = q.toList.erase tid ∧
    (remove_from_ready_queue q tid).toList = q.toList.filter (fun x => x ≠ tid) ∧
    (remove_from_ready_queue q tid).toList.Sublist q.toList ∧
    tid ∉ (remove_from_ready_queue q tid).toList ∧
    (∀ x : Int, x ≠ tid → (x ∈ (remove_from_ready_queue q tid).toList ↔ x ∈ q.toList)) ∧
    (tid ∈ q.toList →
      (remove_from_ready_queue q tid).toList.length + 1 = q.toList.length) ∧
    (tid ∉ q.toList → (remove_from_ready_queue q tid).toList = q.toList) := by
  obtain ⟨hf, _⟩ := remove_from_ready_queue_spec q tid hw
  have he := filter_ne_eq_erase tid q.toList h1
  refine ⟨by rw [hf, he], hf, ?_, ?_, ?_, ?_, ?_⟩
  · rw [hf]; exact List.filter_sublist _
  · rw [hf]; simp
  · intro x hx
    rw [hf]; simp [hx]
  · intro hm
    rw [hf, he, List.length_erase_of_mem hm]
    have : 0 < q.toList.length := List.length_pos_of_mem hm
    omega
  · intro hm
    rw [hf, he]
    exact List.erase_of_not_mem hm

/-- Witness for C12: a wrapped queue (`front = 98`, `back = 2`) holding
`5, 7, 9, 3`; removing `9` leaves `5, 7, 3`. -/
theorem remove_from_ready_queue_keeps_order_witness :
    (ReadyQueue.toList
        { ready_queue := fun i =>
            if i = 98 then 5 else if i = 99 then 7 else if i = 0 then 9
            else if i = 1 then 3 else 0
          front := 98, back := 2 } = [5, 7, 9, 3]) ∧
    (remove_from_ready_queue
        { ready_queue := fun i =>
            if i = 98 then 5 else if i = 99 then 7 else if i = 0 then 9
            else if i = 1 then 3 else 0
          front := 98, back := 2 } 9).toList = [5, 7, 3] ∧
    (remove_from_ready_queue
        { ready_queue := fun i =>
            if i = 98 then 5 else if i = 99 then 7 else if i = 0 then 9
            else if i = 1 then 3 else 0
          front := 98, back := 2 } 9).toList =
      (ReadyQueue.toList
        { ready_queue := fun i =>
            if i = 98 then 5 else if i = 99 then 7 else if i = 0 then 9
            else if i = 1 then 3 else 0
          front := 98, back := 2 }).erase 9 :=
  ⟨by decide!, by decide!,
    (remove_from_ready_queue_keeps_order
      { ready_queue := fun i =>
          if i = 98 then 5 else if i = 99 then 7 else if i = 0 then 9
          else if i = 1 then 3 else 0
        front := 98, back := 2 } 9 (by decide) (by decide!)).1⟩

/-- C13, counterexample. Thread `1` sleeps until quantum 4 and the main
thread terminates it: slot `1` is `UNUSED`, not `BLOCKED`, and still has
`sleep_until = 4`. -/
theorem terminated_sleeper_keeps_deadline :
    ∃ s, run (initState boot 1) [.spawn 1, .tick, .sleep 2, .terminate 1] = some s ∧
      (s.threads 1).sleep_until = 4 ∧ (s.threads 1).sleep_until > 0 ∧
      (s.threads 1).state = THREAD_UNUSED ∧ (s.threads 1).state ≠ THREAD_BLOCKED := by
  decide!

/-- C13, amended. In every state reached from `uthread_init` (called on the
zero-initialised statics) by calls and timer ticks among which no thread
blocks itself and no `uthread_resume` is applied to a thread whose
`sleep_until` is still set, every slot with `sleep_until > 0` is `BLOCKED` or
`UNUSED`; in particular no `READY` or `RUNNING` slot has a pending deadline. -/
theorem pending_deadline_means_blocked_or_unused (usecs : Int) (ops : List Op) (s : State)
    (hu : 0 < usecs) (ha : allOps noEarlyResume (initState boot usecs) ops = true)
    (hr : run (initState boot usecs) ops = some s) :
    (∀ t : Int, 0 ≤ t → t < MAX_THREAD_NUM → (s.threads t).sleep_until > 0 →
      (s.threads t).state = THREAD_BLOCKED ∨ (s.threads t).state = THREAD_UNUSED) ∧
    (∀ t : Int, 0 ≤ t → t < MAX_THREAD_NUM →
      (s.threads t).state = THREAD_READY ∨ (s.threads t).state = THREAD_RUNNING →
      (s.threads t).sleep_until ≤ 0) := by
  obtain ⟨_, hR⟩ := Rested_run ops _ s (Inv_initState boot usecs hu)
    (Rested_initState usecs hu) ha hr
  exact ⟨fun t _ _ ht => hR t ht, fun t _ _ ht => hR.awake t ht⟩

/-- Witness for C13: thread `1` sleeps until quantum 4, thread `2` until
quantum 5; the main thread terminates thread `2`; one tick later thread `1`
is `BLOCKED` and slot `2` is `UNUSED`, both with their deadline still set. -/
theorem pending_deadline_means_blocked_or_unused_witness :
    ∃ s, run (initState boot 1)
        [.spawn 1, .spawn 1, .tick, .sleep 2, .sleep 3, .terminate 2, .tick] = some s ∧
      (s.threads 1).sleep_until = 4 ∧ (s.threads 1).state = THREAD_BLOCKED ∧
      (s.threads 2).sleep_until = 5 ∧ (s.threads 2).state = THREAD_UNUSED ∧
      ((∀ t : Int, 0 ≤ t → t < MAX_THREAD_NUM → (s.threads t).sleep_until > 0 →
        (s.threads t).state = THREAD_BLOCKED ∨ (s.threads t).state = THREAD_UNUSED) ∧
      (∀ t : Int, 0 ≤ t → t < MAX_THREAD_NUM →
        (s.threads t).state = THREAD_READY ∨ (s.threads t).state = THREAD_RUNNING →
        (s.threads t).sleep_until ≤ 0)) := by
  obtain ⟨s, h1, h2, h3, h4, h5⟩ :
      ∃ s, run (initState boot 1)
          [.spawn 1, .spawn 1, .tick, .sleep 2, .sleep 3, .terminate 2, .tick] = some s ∧
        (s.threads 1).sleep_until = 4 ∧ (s.threads 1).state = THREAD_BLOCKED ∧
        (s.threads 2).sleep_until = 5 ∧ (s.threads 2).state = THREAD_UNUSED := by
    decide!
  exact ⟨s, h1, h2, h3, h4, h5,
    pending_deadline_means_blocked_or_unused 1 _ s (by decide) (by decide!) h1⟩

/-- C14. In every state reached from `uthread_init` by calls and timer ticks
(a run that ends in a state has not exited), slot `0` is `RUNNING` or `READY`,
hence neither `UNUSED` nor `BLOCKED`; there `uthread_block(0)` returns `-1`,
`uthread_sleep` called by thread `0` returns `-1`, both leaving the state as it
is, and `uthread_terminate(0)` ends the process with code `0`. -/
theorem main_thread_stays_live (pre : State) (usecs : Int) (ops : List Op) (s : State)
    (hu : 0 < usecs) (hr : run (initState pre usecs) ops = some s) :
    ((s.threads 0).state = THREAD_RUNNING ∨ (s.threads 0).state = THREAD_READY) ∧
    (s.threads 0).state ≠ THREAD_UNUSED ∧ (s.threads 0).state ≠ THREAD_BLOCKED ∧
    uthread_block s 0 = .ret (-1) s ∧
    (s.current_tid = 0 → ∀ k : Int, uthread_sleep s k = .ret (-1) s) ∧
    uthread_terminate s 0 = .exit 0 ∧ step s (Op.terminate 0) = none := by
  have hW : WeakInv s := WeakInv_run ops _ s (WeakInv_initState pre usecs hu) hr
  have hl := hW.main_live
  have hU : (s.threads 0).state ≠ THREAD_UNUSED := by
    rcases hl with h | h <;> rw [h] <;> decide
  have hB : (s.threads 0).state ≠ THREAD_BLOCKED := by
    rcases hl with h | h <;> rw [h] <;> decide
  have hv : ¬ ((0 : Int) < 0 ∨ (0 : Int) ≥ MAX_THREAD_NUM ∨
      (s.threads 0).state = THREAD_UNUSED) := by
    rw [MAX_val]
    rintro (h | h | h)
    · omega
    · omega
    · exact hU h
  have hT : uthread_terminate s 0 = .exit 0 := by
    unfold uthread_terminate
    rw [if_neg hv, if_pos rfl]
  refine ⟨hl, hU, hB, ?_, ?_, hT, ?_⟩
  · unfold uthread_block
    rw [if_neg hv, if_pos rfl]
  · intro hc k
    unfold uthread_sleep
    rw [if_pos hc]
  · show (uthread_terminate s 0).next = none
    rw [hT]; rfl

/-- Witness for C14: after a spawn and a tick the main thread is `READY`. -/
theorem main_thread_stays_live_witness :
    ∃ s, run (initState boot 1) [.spawn 1, .tick] = some s ∧
      (s.threads 0).state = THREAD_READY ∧
      (((s.threads 0).state = THREAD_RUNNING ∨ (s.threads 0).state = THREAD_READY) ∧
      (s.threads 0).state ≠ THREAD_UNUSED ∧ (s.threads 0).state ≠ THREAD_BLOCKED ∧
      uthread_block s 0 = .ret (-1) s ∧
      (s.current_tid = 0 → ∀ k : Int, uthread_sleep s k = .ret (-1) s) ∧
      uthread_terminate s 0 = .exit 0 ∧ step s (Op.terminate 0) = none) := by
  obtain ⟨s, h1, h2⟩ : ∃ s, run (initState boot 1) [.spawn 1, .tick] = some s ∧
      (s.threads 0).state = THREAD_READY := by
    decide!
  exact ⟨s, h1, h2, main_thread_stays_live boot 1 [.spawn 1, .tick] s (by decide) h1⟩

/-- C15. A timer tick increases `total_quantums` by exactly one; every call of
`uthread_spawn`, `uthread_terminate`, `uthread_block`, `uthread_resume` and
`uthread_sleep` that leaves a state leaves `total_quantums` as it was (the
query functions only read the state); so along every run `total_quantums`
grows by the number of ticks and never decreases. -/
theorem total_quantums_changed_by_tick_only (s : State) :
    (timer_handler s).total_quantums = s.total_quantums + 1 ∧
    step s Op.tick = some (timer_handler s) ∧
    (∀ (op : Op) (s1 : State), op ≠ Op.tick → step s op = some s1 →
      s1.total_quantums = s.total_quantums) ∧
    (∀ (op : Op) (s1 : State), step s op = some s1 →
      s1.total_quantums = if op = Op.tick then s.total_quantums + 1 else s.total_quantums) ∧
    (∀ (ops : List Op) (s1 : State), run s ops = some s1 →
      s1.total_quantums = s.total_quantums + ops.count Op.tick ∧
      s.total_quantums ≤ s1.total_quantums) := by
  refine ⟨?_, rfl, ?_, fun op s1 h => step_total s op s1 h, ?_⟩
  · have := step_total s Op.tick (timer_handler s) rfl
    rw [if_pos rfl] at this
    exact this
  · intro op s1 hne h
    have := step_total s op s1 h
    rw [if_neg hne] at this
    exact this
  · intro ops s1 h
    exact ⟨run_total_count ops s s1 h, run_total_mono ops s s1 h⟩

/-- C16. In every state reached from `uthread_init` by calls and timer ticks,
for every `tid` in `[1, MAX_THREAD_NUM)` whose slot is not `UNUSED` and which
is not `current_tid`, `uthread_terminate(tid)` returns `0`, marks the slot
`UNUSED`, changes no other slot, nor `current_tid`, nor `total_quantums`,
removes `tid` from the ready queue when the slot was `READY`, the remaining
identifiers keeping their order, and leaves the queue alone otherwise;
afterwards `uthread_get_quantums(tid)` returns `-1`. -/
theorem terminate_other_thread (pre : State) (usecs : Int) (ops : List Op) (s : State)
    (tid : Int) (hu : 0 < usecs) (hr : run (initState pre usecs) ops = some s)
    (h1 : 1 ≤ tid) (h2 : tid < MAX_THREAD_NUM)
    (h3 : (s.threads tid).state ≠ THREAD_UNUSED) (h4 : tid ≠ s.current_tid) :
    ∃ s1, uthread_terminate s tid = .ret 0 s1 ∧
      (s1.threads tid).state = THREAD_UNUSED ∧
      (∀ j : Int, j ≠ tid → s1.threads j = s.threads j) ∧
      s1.current_tid = s.current_tid ∧ s1.total_quantums = s.total_quantums ∧
      ((s.threads tid).state = THREAD_READY →
        s1.rq.toList = s.rq.toList.filter (fun x => x ≠ tid) ∧
        tid ∉ s1.rq.toList ∧ s1.rq.toList.Sublist s.rq.toList) ∧
      ((s.threads tid).state ≠ THREAD_READY → s1.rq = s.rq) ∧
      uthread_get_quantums s1 tid = -1 := by
  have hW : WeakInv s := WeakInv_run ops _ s (WeakInv_initState pre usecs hu) hr
  have hv : ¬ (tid < 0 ∨ tid ≥ MAX_THREAD_NUM ∨ (s.threads tid).state = THREAD_UNUSED) := by
    rintro (h | h | h)
    · omega
    · omega
    · exact h3 h
  refine ⟨_, uthread_terminate_other s tid hv (by omega) h4, ?_, ?_, rfl, rfl, ?_, ?_, ?_⟩
  · show (setT _ _ _ tid).state = _
    rw [setT_same]
  · intro j hj
    show setT _ _ _ j = _
    rw [setT_other _ _ _ _ hj]
  · intro hR
    show (if (s.threads tid).state = THREAD_READY then remove_from_ready_queue s.rq tid
      else s.rq).toList = _ ∧ tid ∉ (if (s.threads tid).state = THREAD_READY then
        remove_from_ready_queue s.rq tid else s.rq).toList ∧
      (if (s.threads tid).state = THREAD_READY then
        remove_from_ready_queue s.rq tid else s.rq).toList.Sublist _
    rw [if_pos hR]
    obtain ⟨hf, _⟩ := remove_from_ready_queue_spec s.rq tid hW.wf
    refine ⟨hf, ?_, ?_⟩
    · rw [hf]; simp
    · rw [hf]; exact List.filter_sublist _
  · intro hR
    show (if (s.threads tid).state = THREAD_READY then remove_from_ready_queue s.rq tid
      else s.rq) = _
    rw [if_neg hR]
  · unfold uthread_get_quantums
    rw [if_pos]
    right; right
    show (setT _ _ _ tid).state = _
    rw [setT_same]

/-- Witness for C16: three threads are spawned and the main thread terminates
thread `2`, which is `READY` in the middle of the queue `1, 2, 3`. -/
theorem terminate_other_thread_witness :
    ∃ s, run (initState boot 1) [.spawn 1, .spawn 1, .spawn 1] = some s ∧
      s.rq.toList = [1, 2, 3] ∧
      ∃ s1, uthread_terminate s 2 = .ret 0 s1 ∧
        (s1.threads 2).state = THREAD_UNUSED ∧
        (∀ j : Int, j ≠ 2 → s1.threads j = s.threads j) ∧
        s1.current_tid = s.current_tid ∧ s1.total_quantums = s.total_quantums ∧
        ((s.threads 2).state = THREAD_READY →
          s1.rq.toList = s.rq.toList.filter (fun x => x ≠ 2) ∧
          (2 : Int) ∉ s1.rq.toList ∧ s1.rq.toList.Sublist s.rq.toList) ∧
        ((s.threads 2).state ≠ THREAD_READY → s1.rq = s.rq) ∧
        uthread_get_quantums s1 2 = -1 := by
  obtain ⟨s, h1, h2, h3, h4⟩ :
      ∃ s, run (initState boot 1) [.spawn 1, .spawn 1, .spawn 1] = some s ∧
        s.rq.toList = [1, 2, 3] ∧ (s.threads 2).state ≠ THREAD_UNUSED ∧
        (2 : Int) ≠ s.current_tid := by
    decide!
  exact ⟨s, h1, h2,
    terminate_other_thread boot 1 [.spawn 1, .spawn 1, .spawn 1] s 2 (by decide) h1
      (by decide) (by decide) h3 h4⟩

/-- C17, counterexample. A state reached from `uthread_init` in which the
running thread `1` is `RUNNING` and also at the head of the ready queue
`1, 0`: `schedule_next` appends the previous thread `1` at the tail, but its
state ends `RUNNING`, not `READY`, because it is the head as well; so does
the next timer tick, which calls `schedule_next` in that state. -/
theorem schedule_next_reschedules_running_head :
    ∃ s, run (initState boot 1)
        [.spawn 1, .tick, .block 1, .resume 1, .sleep 3, .resume 1, .tick] = some s ∧
      s.current_tid = 1 ∧ (s.threads 1).state = THREAD_RUNNING ∧ s.rq.toList = [1, 0] ∧
      (schedule_next s).rq.toList = [0, 1] ∧ (schedule_next s).current_tid = 1 ∧
      ((schedule_next s).threads 1).state = THREAD_RUNNING ∧
      ((schedule_next s).threads 1).state ≠ THREAD_READY ∧
      (timer_handler s).rq.toList = [0, 1] ∧
      ((timer_handler s).threads 1).state = THREAD_RUNNING := by
  decide!

/-- C17, amended. For every state whose queue indices are in range:
if the ready queue is empty, `schedule_next` leaves the state unchanged;
otherwise, the head `h` being an identifier (not `-1`), `h` is removed from
the queue and becomes `RUNNING` with `quantums` incremented by one and
`current_tid = h`, the previous thread is appended at the tail exactly when
its state was still `RUNNING`, and, when the previous thread is not `h`
itself, it becomes `READY` in that case and is left as it was (for instance
`BLOCKED`) otherwise; no other slot and not `total_quantums` changes. -/
theorem schedule_next_round_robin (s : State) (hw : s.rq.WF) :
    (s.rq.toList = [] → schedule_next s = s) ∧
    (∀ (h : Int) (tl : List Int), s.rq.toList = h :: tl → h ≠ -1 →
      (schedule_next s).current_tid = h ∧
      (schedule_next s).total_quantums = s.total_quantums ∧
      (schedule_next s).threads h =
        { s.threads h with state := THREAD_RUNNING, quantums := (s.threads h).quantums + 1 } ∧
      (∀ u : Int, u ≠ h → u ≠ s.current_tid →
        (schedule_next s).threads u = s.threads u) ∧
      ((s.threads s.current_tid).state = THREAD_RUNNING →
        (schedule_next s).rq.toList = tl ++ [s.current_tid] ∧
        (s.current_tid ≠ h → (schedule_next s).threads s.current_tid =
          { s.threads s.current_tid with state := THREAD_READY })) ∧
      ((s.threads s.current_tid).state ≠ THREAD_RUNNING →
        (schedule_next s).rq.toList = tl ∧
        (s.current_tid ≠ h →
          (schedule_next s).threads s.current_tid = s.threads s.current_tid))) :=
  schedule_next_effect s hw

/-- Witness for C17: with threads `1` and `2` queued behind the running main
thread, `schedule_next` switches to thread `1` and appends the main thread. -/
theorem schedule_next_round_robin_witness :
    ∃ s, run (initState boot 1) [.spawn 1, .spawn 1] = some s ∧
      s.rq.toList = [1, 2] ∧ (s.threads s.current_tid).state = THREAD_RUNNING ∧
      (schedule_next s).current_tid = 1 ∧
      (schedule_next s).threads 1 =
        { s.threads 1 with state := THREAD_RUNNING, quantums := (s.threads 1).quantums + 1 } ∧
      (schedule_next s).rq.toList = [2] ++ [s.current_tid] := by
  obtain ⟨s, h1, h2, h3, h4⟩ :
      ∃ s, run (initState boot 1) [.spawn 1, .spawn 1] = some s ∧
        s.rq.toList = [1, 2] ∧ (s.threads s.current_tid).state = THREAD_RUNNING ∧
        s.rq.WF := by
    decide!
  have h := (schedule_next_round_robin s h4).2 1 [2] h2 (by decide)
  exact ⟨s, h1, h2, h3, h.1, h.2.2.1, (h.2.2.2.2.1 h3).1⟩

/-- C18, counterexample. After 99 spawns and a tick, thread `1` sleeps for one
quantum at `total_quantums = 2`; thread `2` blocks and resumes itself, which
fills the ready queue with 99 identifiers. The next tick finds thread `1`
due, makes it `READY` and calls `enqueue_ready(1)` on the full queue: `back`
meets `front`, the queue reads as empty, thread `1` is in no queue behind or
ahead of anyone, and thread `2` keeps running. -/
theorem wake_up_on_full_queue_empties_it :
    ∃ s, run (initState boot 1)
        (List.replicate 99 (.spawn 1) ++ [.tick, .sleep 1, .block 2, .resume 2]) = some s ∧
      s.total_quantums = 2 ∧ s.current_tid = 2 ∧
      (s.threads 1).state = THREAD_BLOCKED ∧ (s.threads 1).sleep_until = 3 ∧
      s.rq.toList.length = 99 ∧
      (timer_handler s).total_quantums = 3 ∧
      ((timer_handler s).threads 1).state = THREAD_READY ∧
      ((timer_handler s).threads 1).sleep_until = 0 ∧
      (1 : Int) ∉ (timer_handler s).rq.toList ∧
      (timer_handler s).rq.toList = [] ∧ (timer_handler s).current_tid = 2 := by
  decide!

/-- C18, amended. (1) For every state, a timer tick increments
`total_quantums` to `Q` and then scans the table: exactly the slots in
`[0, MAX_THREAD_NUM)` that are `BLOCKED` with `0 < sleep_until <= Q` get
`sleep_until = 0` and state `READY`, `enqueue_ready` is called for them in
increasing order, and every other slot, in particular a `BLOCKED` one with
no deadline or a later one, is left as it is; when the ready queue has room
for them they are appended at its tail in that order, and the switch that
follows schedules the head and puts a thread that was still `RUNNING` behind
them. (2) In a state reached from `uthread_init` without self-block the queue
has that room, and the whole tick leaves a `BLOCKED` slot that is not due
untouched. (3) In such an execution a thread that called `uthread_sleep(k)`
at `total_quantums = T`, with `T + k` at most `INT_MAX`, and is neither
resumed nor terminated is `BLOCKED` while `total_quantums < T + k`, a tick
that stays below `T + k` leaves it so, and the scan of the tick that brings
`total_quantums` to `T + k` makes it `READY` and enqueues it (the switch of
that same tick makes it `RUNNING` when it is at the head of the queue).
(4) When the `int` sum `T + k` exceeds `INT_MAX`, the stored deadline is
`T + k - 2^32`, which is negative: the thread stays `BLOCKED` and no tick
wakes it. -/
theorem timer_tick_wakes_due_sleepers :
    (∀ s : State,
      timer_handler s = schedule_next (wake_loop MAX_THREAD_NUM 0 (count_tick s)) ∧
      (count_tick s).total_quantums = s.total_quantums + 1 ∧
      (∀ u : Int, due (count_tick s) u = true ↔
        ((s.threads u).state = THREAD_BLOCKED ∧ (s.threads u).sleep_until > 0 ∧
          (s.threads u).sleep_until ≤ s.total_quantums + 1)) ∧
      (∀ u : Int, (wake_loop MAX_THREAD_NUM 0 (count_tick s)).threads u =
        if (0 ≤ u ∧ u < MAX_THREAD_NUM) ∧ due (count_tick s) u = true then
          { (count_tick s).threads u with sleep_until := 0, state := THREAD_READY }
        else (count_tick s).threads u) ∧
      (∀ u : Int, (s.threads u).state = THREAD_BLOCKED →
        ¬ ((s.threads u).sleep_until > 0 ∧ (s.threads u).sleep_until ≤ s.total_quantums + 1) →
        ((wake_loop MAX_THREAD_NUM 0 (count_tick s)).threads u).state = THREAD_BLOCKED ∧
        ((wake_loop MAX_THREAD_NUM 0 (count_tick s)).threads u).sleep_until =
          (s.threads u).sleep_until) ∧
      (∀ u : Int, u ∈ due_slots (count_tick s) MAX_THREAD_NUM 0 ↔
        (0 ≤ u ∧ u < MAX_THREAD_NUM ∧ due (count_tick s) u = true)) ∧
      (due_slots (count_tick s) MAX_THREAD_NUM 0).Pairwise (fun a b => a < b) ∧
      (wake_loop MAX_THREAD_NUM 0 (count_tick s)).rq =
        (due_slots (count_tick s) MAX_THREAD_NUM 0).foldl enqueue_ready s.rq ∧
      (s.rq.WF →
        s.rq.size + (due_slots (count_tick s) MAX_THREAD_NUM 0).length < MAX_THREAD_NUM →
        (wake_loop MAX_THREAD_NUM 0 (count_tick s)).rq.toList =
          s.rq.toList ++ due_slots (count_tick s) MAX_THREAD_NUM 0 ∧
        ((∀ x ∈ s.rq.toList, 0 ≤ x) → ∀ (h : Int) (tl : List Int),
          s.rq.toList ++ due_slots (count_tick s) MAX_THREAD_NUM 0 = h :: tl →
          (timer_handler s).current_tid = h ∧
          ((timer_handler s).threads h).state = THREAD_RUNNING ∧
          ((s.threads s.current_tid).state = THREAD_RUNNING →
            (timer_handler s).rq.toList = tl ++ [s.current_tid])))) ∧
    (∀ (pre : State) (usecs : Int) (ops : List Op) (s : State), 0 < usecs →
      allOps noSelfBlock (initState pre usecs) ops = true →
      run (initState pre usecs) ops = some s →
      (s.rq.WF ∧
        s.rq.size + (due_slots (count_tick s) MAX_THREAD_NUM 0).length < MAX_THREAD_NUM ∧
        (∀ x ∈ s.rq.toList, 0 ≤ x)) ∧
      (∀ u : Int, 0 ≤ u → (s.threads u).state = THREAD_BLOCKED →
        ¬ ((s.threads u).sleep_until > 0 ∧ (s.threads u).sleep_until ≤ s.total_quantums + 1) →
        (timer_handler s).threads u = s.threads u)) ∧
    (∀ (pre : State) (usecs : Int) (ops1 ops2 : List Op) (s s2 : State) (k : Int),
      0 < usecs → allOps noSelfBlock (initState pre usecs) ops1 = true →
      run (initState pre usecs) ops1 = some s → s.current_tid ≠ 0 → 0 < k →
      s.total_quantums + k ≤ INT_MAX →
      allOps (undisturbed s.current_tid) s (Op.sleep k :: ops2) = true →
      run s (Op.sleep k :: ops2) = some s2 →
      s2.total_quantums < s.total_quantums + k →
      (s2.threads s.current_tid).state = THREAD_BLOCKED ∧
      (s2.threads s.current_tid).sleep_until = s.total_quantums + k ∧
      (s2.total_quantums + 1 < s.total_quantums + k →
        ((timer_handler s2).threads s.current_tid).state = THREAD_BLOCKED) ∧
      (s2.total_quantums + 1 = s.total_quantums + k →
        s.current_tid ∈ due_slots (count_tick s2) MAX_THREAD_NUM 0 ∧
        ((wake_loop MAX_THREAD_NUM 0 (count_tick s2)).threads s.current_tid).state =
          THREAD_READY ∧
        ((wake_loop MAX_THREAD_NUM 0 (count_tick s2)).threads s.current_tid).sleep_until = 0 ∧
        s.current_tid ∈ (wake_loop MAX_THREAD_NUM 0 (count_tick s2)).rq.toList ∧
        (timer_handler s2).total_quantums = s.total_quantums + k ∧
        ((timer_handler s2).threads s.current_tid).sleep_until = 0 ∧
        (((timer_handler s2).threads s.current_tid).state = THREAD_READY ∨
          ((timer_handler s2).threads s.current_tid).state = THREAD_RUNNING))) ∧
    (∀ (pre : State) (usecs : Int) (ops1 ops2 : List Op) (s s2 : State) (k : Int),
      0 < usecs → allOps noSelfBlock (initState pre usecs) ops1 = true →
      run (initState pre usecs) ops1 = some s → s.current_tid ≠ 0 → 0 < k →
      s.total_quantums ≤ INT_MAX → k ≤ INT_MAX → INT_MAX < s.total_quantums + k →
      allOps (undisturbed s.current_tid) s (Op.sleep k :: ops2) = true →
      run s (Op.sleep k :: ops2) = some s2 →
      (s2.threads s.current_tid).state = THREAD_BLOCKED ∧
      (s2.threads s.current_tid).sleep_until = s.total_quantums + k - 4294967296 ∧
      (s2.threads s.current_tid).sleep_until < 0 ∧
      (timer_handler s2).threads s.current_tid = s2.threads s.current_tid) := by
  refine ⟨?_, ?_, ?_, ?_⟩
  · intro s
    refine ⟨rfl, rfl, due_count_tick s, wake_scan_threads (count_tick s), ?_,
      fun u => ?_, due_slots_increasing _ _ _, wake_loop_rq _ _ _, ?_⟩
    · intro u hb hn
      have hnd : ¬ ((0 ≤ u ∧ u < MAX_THREAD_NUM) ∧ due (count_tick s) u = true) :=
        fun hx => hn ((due_count_tick s u).mp hx.2).2
      rw [wake_scan_threads, if_neg hnd, count_tick_state, count_tick_sleep_until]
      exact ⟨hb, rfl⟩
    · rw [mem_due_slots]
      constructor
      · rintro ⟨h1, h2, h3⟩
        exact ⟨h1, by omega, h3⟩
      · rintro ⟨h1, h2, h3⟩
        exact ⟨h1, by omega, h3⟩
    · intro hw hroom
      refine ⟨(wake_scan_queue (count_tick s) hw hroom).1, ?_⟩
      intro hq h tl he
      obtain ⟨a1, a2, a3, _, _⟩ := tick_switch (count_tick s) hw hroom hq h tl he
      rw [count_tick_current, count_tick_state] at a3
      have ht : timer_handler s = schedule_next (wake_loop MAX_THREAD_NUM 0 (count_tick s)) :=
        rfl
      rw [ht]
      exact ⟨a1, a2, a3⟩
  · intro pre usecs ops s hu ha hr
    have hI : Inv s := Inv_run ops _ s (Inv_initState pre usecs hu) ha hr
    refine ⟨⟨hI.wf, hI.wake_room, fun x hx => (hI.queue_range x hx).1⟩, ?_⟩
    intro u hu0 hb hn
    exact blocked_thread_untouched hI u hu0 hb Op.tick (fun e => by cases e)
      (fun e => by cases e) (fun _ => hn) (timer_handler s) rfl
  · intro pre usecs ops1 ops2 s s2 k hu h1 hs hc hk hf h2 hr hlt
    have hI : Inv s := Inv_run ops1 _ s (Inv_initState pre usecs hu) h1 hs
    have hT : 1 ≤ s.total_quantums := by
      have := run_total_mono ops1 _ s hs
      rw [(initState_fields pre usecs hu).2.1] at this
      exact this
    obtain ⟨s1, e1, hI1, e3, e4, e5⟩ := uthread_sleep_effect hI k hc hk
    rw [int_add_fits _ _ (by omega) hf] at e5
    have hstep : step s (Op.sleep k) = some s1 := by
      show (uthread_sleep s k).next = some s1
      rw [e1]; rfl
    rw [run, hstep] at hr
    rw [allOps, hstep, Bool.and_eq_true] at h2
    obtain ⟨hI2, hb2⟩ := asleep_run s.current_tid (s.total_quantums + k) hI.cur_range.1 ops2
      s1 s2 hI1 (fun _ => ⟨e4, e5⟩) h2.2 hr
    obtain ⟨b1, b2⟩ := hb2 hlt
    obtain ⟨c1, c2⟩ := sleeper_at_tick hI2 s.current_tid (s.total_quantums + k) hI.cur_range
      b1 b2 (by omega)
    refine ⟨b1, b2, ?_, c2⟩
    intro hx
    rw [c1 hx]
    exact b1
  · intro pre usecs ops1 ops2 s s2 k hu h1 hs hc hk hT hkI hov h2 hr
    have hI : Inv s := Inv_run ops1 _ s (Inv_initState pre usecs hu) h1 hs
    obtain ⟨s1, e1, hI1, e3, e4, e5⟩ := uthread_sleep_effect hI k hc hk
    obtain ⟨w1, w2⟩ := int_add_wraps _ _ hT hkI hov
    rw [← e5] at w1 w2
    have hstep : step s (Op.sleep k) = some s1 := by
      show (uthread_sleep s k).next = some s1
      rw [e1]; rfl
    rw [run, hstep] at hr
    rw [allOps, hstep, Bool.and_eq_true] at h2
    obtain ⟨hI2, hsame⟩ := asleep_run_unset s.current_tid hI.cur_range.1 ops2 s1 s2 hI1 e4
      (by omega) h2.2 hr
    rw [hsame]
    refine ⟨e4, w1, w2, ?_⟩
    rw [← hsame]
    exact blocked_thread_untouched hI2 s.current_tid hI.cur_range.1 (by rw [hsame]; exact e4)
      Op.tick (fun e => by cases e) (fun e => by cases e)
      (fun _ hx => by rw [hsame] at hx; omega) (timer_handler s2) rfl

/-- Witness for C18: thread `1` sleeps for 2 quantums at `total_quantums = 2`;
after one tick (`total_quantums = 3`) it is `BLOCKED`, and the next tick,
which brings `total_quantums` to 4, wakes it up. -/
theorem timer_tick_wakes_due_sleepers_witness :
    ∃ s, run (initState boot 1) [.spawn 1, .tick] = some s ∧ s.current_tid = 1 ∧
      s.total_quantums = 2 ∧
      ∃ s2, run s [.sleep 2, .tick] = some s2 ∧ s2.total_quantums = 3 ∧
        (s2.threads s.current_tid).state = THREAD_BLOCKED ∧
        s.current_tid ∈ due_slots (count_tick s2) MAX_THREAD_NUM 0 ∧
        ((wake_loop MAX_THREAD_NUM 0 (count_tick s2)).threads s.current_tid).state =
          THREAD_READY ∧
        (timer_handler s2).total_quantums = s.total_quantums + 2 ∧
        ((timer_handler s2).threads s.current_tid).sleep_until = 0 := by
  obtain ⟨s, h1, hc, hT, hf, s2, h2, ha, hc0, ht, hlt, heq⟩ :
      ∃ s, run (initState boot 1) [.spawn 1, .tick] = some s ∧ s.current_tid = 1 ∧
        s.total_quantums = 2 ∧ s.total_quantums + 2 ≤ INT_MAX ∧
        ∃ s2, run s [.sleep 2, .tick] = some s2 ∧
          (allOps (undisturbed s.current_tid) s [.sleep 2, .tick] = true ∧
            s.current_tid ≠ 0 ∧ s2.total_quantums = 3 ∧
            s2.total_quantums < s.total_quantums + 2 ∧
            s2.total_quantums + 1 = s.total_quantums + 2) := by
    decide!
  have h := timer_tick_wakes_due_sleepers.2.2.1 boot 1 [.spawn 1, .tick] [.tick] s s2 2
    (by decide) (by decide!) h1 hc0 (by decide) hf ha h2 hlt
  have h4 := h.2.2.2 heq
  exact ⟨s, h1, hc, hT, s2, h2, ht, h.1, h4.1, h4.2.1, h4.2.2.2.2.1, h4.2.2.2.2.2.1⟩

/-- C19, failing input. After 99 spawns and a tick thread `1` runs and the
queue holds the 99 identifiers `2, ..., 99, 0`. Thread `1` blocks itself, which
does not switch, and resumes itself: `enqueue_ready(1)` is called on a queue
that already holds `MAX_THREAD_NUM - 1` identifiers, `back` meets `front`, and
the queue reads as empty although 99 threads are `READY`. -/
theorem resume_overflows_ready_queue :
    ∃ s, run (initState boot 1) (List.replicate 99 (.spawn 1) ++ [.tick, .block 1]) = some s ∧
      s.current_tid = 1 ∧ (s.threads 1).state = THREAD_BLOCKED ∧
      s.rq.toList.length = 99 ∧ s.rq.toList.head? = some 2 ∧
      ∃ s1, uthread_resume s 1 = .ret 0 s1 ∧
        s1.rq.front = s.rq.front ∧
        s1.rq.back = s1.rq.front ∧ s1.rq.toList = [] ∧ (dequeue_ready s1.rq).1 = -1 ∧
        (s1.threads 0).state = THREAD_READY ∧ (s1.threads 2).state = THREAD_READY := by
  decide!

/-- C20. In every state reached from `uthread_init` by calls and timer ticks,
a slot in state `RUNNING` is the slot of `current_tid`, so at most one slot is
`RUNNING`. -/
theorem running_slot_is_current (pre : State) (usecs : Int) (ops : List Op) (s : State)
    (hu : 0 < usecs) (hr : run (initState pre usecs) ops = some s) :
    (∀ t : Int, 0 ≤ t → t < MAX_THREAD_NUM →
      (s.threads t).state = THREAD_RUNNING → t = s.current_tid) ∧
    (∀ t u : Int, 0 ≤ t → t < MAX_THREAD_NUM → 0 ≤ u → u < MAX_THREAD_NUM →
      (s.threads t).state = THREAD_RUNNING → (s.threads u).state = THREAD_RUNNING →
      t = u) := by
  have hW : WeakInv s := WeakInv_run ops _ s (WeakInv_initState pre usecs hu) hr
  refine ⟨hW.running_cur, ?_⟩
  intro t u ht0 ht1 hu0 hu1 h1 h2
  rw [hW.running_cur t ht0 ht1 h1, hW.running_cur u hu0 hu1 h2]

/-- Witness for C20: a run with two threads, a preemption and a self-block. -/
theorem running_slot_is_current_witness :
    ∃ s, run (initState boot 1) [.spawn 1, .spawn 2, .tick, .block 1, .tick] = some s ∧
      s.current_tid = 2 ∧ (s.threads 2).state = THREAD_RUNNING ∧
      ((∀ t : Int, 0 ≤ t → t < MAX_THREAD_NUM →
        (s.threads t).state = THREAD_RUNNING → t = s.current_tid) ∧
      (∀ t u : Int, 0 ≤ t → t < MAX_THREAD_NUM → 0 ≤ u → u < MAX_THREAD_NUM →
        (s.threads t).state = THREAD_RUNNING → (s.threads u).state = THREAD_RUNNING →
        t = u)) := by
  obtain ⟨s, h1, h2, h3⟩ :
      ∃ s, run (initState boot 1) [.spawn 1, .spawn 2, .tick, .block 1, .tick] = some s ∧
        s.current_tid = 2 ∧ (s.threads 2).state = THREAD_RUNNING := by
    decide!
  exact ⟨s, h1, h2, h3,
    running_slot_is_current boot 1 [.spawn 1, .spawn 2, .tick, .block 1, .tick] s
      (by decide) h1⟩

end UThreads
